import Mathlib

/-!
Verification of the pranavdb storage engine: a shallow embedding of its
row file (data/rowFileHandler.go, data row codec), its index file
(index file layer), its node codec (page codec) and its disk B+ tree
(index/diskTree.go), together with theorems settling the specification
claims about these components.

Machine integers are modelled as Nat (unsigned) or Int (signed), with
explicit reductions modulo 2^w exactly where the Go code performs a
narrowing conversion.  Files are modelled as a size plus a byte map;
Go WriteAt extends the file and zero-fills nothing explicitly (holes
read as whatever the byte map holds; fresh files start all zero), and
Go ReadAt fails whenever the requested range extends past end of file.
-/

namespace PranavDB

/-- A byte-addressed file: current size plus the byte at every offset.
Offsets at or beyond the size are not readable. -/
structure FileM where
  size : Nat
  byteAt : Nat → Nat

/-- os.File.WriteAt: overwrite bytes of buf starting at off, extending
the file when the write runs past end of file. -/
def FileM.writeAt (f : FileM) (off : Nat) (buf : List Nat) : FileM :=
  { size := max f.size (off + buf.length),
    byteAt := fun i => if off ≤ i ∧ i < off + buf.length then buf.getD (i - off) 0 else f.byteAt i }

/-- os.File.ReadAt: read exactly n bytes at off, failing when the range
extends past end of file. -/
def FileM.readAt (f : FileM) (off n : Nat) : Option (List Nat) :=
  if off + n ≤ f.size then some ((List.range n).map fun i => f.byteAt (off + i)) else none

/-- A file that is all zeros (the state right after os.Create). -/
def FileM.empty : FileM := { size := 0, byteAt := fun _ => 0 }

/-- binary.LittleEndian.PutUint16. -/
def le16 (n : Nat) : List Nat := [n % 256, n / 256 % 256]

/-- binary.LittleEndian.PutUint32. -/
def le32 (n : Nat) : List Nat :=
  [n % 256, n / 256 % 256, n / 65536 % 256, n / 16777216 % 256]

/-- binary.LittleEndian.PutUint64. -/
def le64 (n : Nat) : List Nat :=
  [n % 256, n / 256 % 256, n / 65536 % 256, n / 16777216 % 256,
   n / 4294967296 % 256, n / 1099511627776 % 256,
   n / 281474976710656 % 256, n / 72057594037927936 % 256]

/-- binary.LittleEndian.Uint16 on (the first two bytes of) a buffer. -/
def de16 (l : List Nat) : Nat := l.getD 0 0 + 256 * l.getD 1 0

/-- binary.LittleEndian.Uint32 on (the first four bytes of) a buffer. -/
def de32 (l : List Nat) : Nat :=
  l.getD 0 0 + 256 * l.getD 1 0 + 65536 * l.getD 2 0 + 16777216 * l.getD 3 0

/-- binary.LittleEndian.Uint64 on (the first eight bytes of) a buffer. -/
def de64 (l : List Nat) : Nat :=
  l.getD 0 0 + 256 * l.getD 1 0 + 65536 * l.getD 2 0 + 16777216 * l.getD 3 0 +
  4294967296 * l.getD 4 0 + 1099511627776 * l.getD 5 0 +
  281474976710656 * l.getD 6 0 + 72057594037927936 * l.getD 7 0

/-! ## Row codec (data row encode/decode) -/

/-- A row value as passed to WriteRow: a Go int, a float64 (modelled by its
IEEE-754 bit pattern, since the codec only moves the bits), or a string
(modelled as its byte list). -/
inductive RVal where
  | vint (i : Int)
  | vfloat (bits : Nat)
  | vstr (s : List Nat)
deriving DecidableEq

/-- uint32(int32(vi)) for an in-range Go int vi. -/
def int32ToUInt32 (i : Int) : Nat := ((i % 4294967296 + 4294967296) % 4294967296).toNat

/-- int32 reinterpretation of a uint32 value. -/
def uint32ToInt32 (u : Nat) : Int := if u < 2147483648 then (u : Int) else (u : Int) - 4294967296

/-- encodeRow, one field at a time in schema order. -/
def encodeRowFields (schemaCodes : List Nat) (values : List RVal) : Except String (List Nat) :=
  match schemaCodes, values with
  | [], [] => .ok []
  | code :: cs, val :: vs =>
    match code, val with
    | 1, RVal.vint i =>
      if i < -2147483648 ∨ 2147483647 < i then .error "encodeRow: int out of int32 range"
      else (encodeRowFields cs vs).map fun rest => le32 (int32ToUInt32 i) ++ rest
    | 2, RVal.vfloat bits =>
      (encodeRowFields cs vs).map fun rest => le64 bits ++ rest
    | 3, RVal.vstr s =>
      if 65535 < s.length then .error "encodeRow: string too large"
      else (encodeRowFields cs vs).map fun rest => le16 s.length ++ s ++ rest
    | 1, _ => .error "encodeRow: expected int"
    | 2, _ => .error "encodeRow: expected float64"
    | 3, _ => .error "encodeRow: expected string"
    | _, _ => .error "encodeRow: unknown type code"
  | _, _ => .error "encodeRow: schema len does not match values len"

/-- encodeRow: encode a row payload according to the schema type codes. -/
def encodeRow (schemaCodes : List Nat) (values : List RVal) : Except String (List Nat) :=
  if schemaCodes.length ≠ values.length then .error "encodeRow: schema len does not match values len"
  else encodeRowFields schemaCodes values

/-- decodeRow, one field at a time; returns the decoded values and the
unconsumed remainder of the payload. -/
def decodeRowFields (schemaCodes : List Nat) (payload : List Nat) :
    Except String (List RVal × List Nat) :=
  match schemaCodes with
  | [] => .ok ([], payload)
  | code :: cs =>
    match code with
    | 1 =>
      if payload.length < 4 then .error "decodeRow: int out of bounds"
      else (decodeRowFields cs (payload.drop 4)).map fun r =>
        (RVal.vint (uint32ToInt32 (de32 (payload.take 4))) :: r.1, r.2)
    | 2 =>
      if payload.length < 8 then .error "decodeRow: float out of bounds"
      else (decodeRowFields cs (payload.drop 8)).map fun r =>
        (RVal.vfloat (de64 (payload.take 8)) :: r.1, r.2)
    | 3 =>
      if payload.length < 2 then .error "decodeRow: string length out of bounds"
      else
        let strLen := de16 (payload.take 2)
        if (payload.drop 2).length < strLen then .error "decodeRow: string bytes out of bounds"
        else (decodeRowFields cs (payload.drop (2 + strLen))).map fun r =>
          (RVal.vstr ((payload.drop 2).take strLen) :: r.1, r.2)
    | _ => .error "decodeRow: unknown type code"

/-- decodeRow: decode a row payload; the whole payload must be consumed. -/
def decodeRow (payload : List Nat) (schemaCodes : List Nat) : Except String (List RVal) :=
  match decodeRowFields schemaCodes payload with
  | .error e => .error e
  | .ok (out, rest) =>
    if rest.length ≠ 0 then .error "decodeRow: payload length mismatch"
    else .ok out

/-! ## Node codec (index page codec) -/

/-- A tree key as the codec knows it: IntKey (int, encoded as 32 bits),
FloatKey (float64, modelled by its IEEE-754 bit pattern), or StringKey
(modelled as its byte list). -/
inductive CKey where
  | kint (i : Int)
  | kfloat (bits : Nat)
  | kstr (s : List Nat)
deriving DecidableEq

/-- A tree node as the codec sees it: a leaf carrying (key, string value)
pairs plus next/prev sibling page ids, or an internal node carrying keys
plus child page ids. -/
inductive CNode where
  | cleaf (pairs : List (CKey × List Nat)) (nextPage prevPage : Nat)
  | cinterm (keys : List CKey) (ptrs : List Nat)
deriving DecidableEq

/-- encodeKey: one tag byte then the key payload.  The unsupported-key
branch of the Go code is unrepresentable here because CKey is exactly the
closed set of supported kinds. -/
def encodeKey (key : CKey) : List Nat :=
  match key with
  | .kint i => 1 :: le32 (int32ToUInt32 i)
  | .kfloat bits => 2 :: le64 bits
  | .kstr s => 3 :: (le16 s.length ++ s)

/-- The leaf pair loop of encodeNode: encoded key, then value length and
value bytes (the value kind is string, the only supported one). -/
def encodePairs (pairs : List (CKey × List Nat)) : List Nat :=
  match pairs with
  | [] => []
  | p :: rest => encodeKey p.1 ++ le16 p.2.length ++ p.2 ++ encodePairs rest

/-- The key loop of encodeNode for internal nodes. -/
def encodeKeys (keys : List CKey) : List Nat :=
  match keys with
  | [] => []
  | k :: rest => encodeKey k ++ encodeKeys rest

/-- encodeNode: node type byte, then the body.  A leaf writes its pair
count and pairs followed by two 8-byte zero placeholders for the next and
prev pointers (the in-memory sibling page ids are not written); an
internal node writes its key count, keys, pointer count, and one 8-byte
zero placeholder per pointer (the child page ids are not written). -/
def encodeNode (n : CNode) : List Nat :=
  match n with
  | .cleaf pairs _ _ =>
    1 :: (le16 pairs.length ++ encodePairs pairs ++ List.replicate 8 0 ++ List.replicate 8 0)
  | .cinterm keys ptrs =>
    0 :: (le16 keys.length ++ encodeKeys keys ++ le16 ptrs.length ++
      List.replicate (8 * ptrs.length) 0)

/-- decodeKey: returns the key and the number of bytes consumed. -/
def decodeKey (data : List Nat) : Except String (CKey × Nat) :=
  match data with
  | [] => .error "empty data for key"
  | keyType :: rest =>
    match keyType with
    | 1 =>
      if rest.length < 4 then .error "insufficient data for int key"
      else .ok (.kint (uint32ToInt32 (de32 (rest.take 4))), 5)
    | 2 =>
      if rest.length < 8 then .error "insufficient data for float key"
      else .ok (.kfloat (de64 (rest.take 8)), 9)
    | 3 =>
      if rest.length < 2 then .error "insufficient data for string key length"
      else
        let strLen := de16 (rest.take 2)
        if (rest.drop 2).length < strLen then .error "insufficient data for string key"
        else .ok (.kstr ((rest.drop 2).take strLen), 3 + strLen)
    | _ => .error "unknown key type"

/-- The pair loop of decodeLeafNode, consuming the buffer pair by pair. -/
def decodePairs (count : Nat) (data : List Nat) : Except String (List (CKey × List Nat)) :=
  match count with
  | 0 => .ok []
  | count + 1 =>
    if data.length = 0 then .error "insufficient data for key-value pair"
    else
      match decodeKey data with
      | .error e => .error e
      | .ok (key, keySize) =>
        let data1 := data.drop keySize
        if data1.length < 2 then .error "insufficient data for value length"
        else
          let valueLen := de16 (data1.take 2)
          if (data1.drop 2).length < valueLen then .error "insufficient data for value"
          else
            match decodePairs count ((data1.drop 2).drop valueLen) with
            | .error e => .error e
            | .ok rest => .ok ((key, (data1.drop 2).take valueLen) :: rest)

/-- decodeLeafNode: pair count then pairs; the 16 placeholder bytes are
skipped without a bounds check, and the decoded leaf carries the Go
zero values 0 for nextPage and prevPage. -/
def decodeLeafNode (data : List Nat) : Except String CNode :=
  if data.length < 2 then .error "insufficient data for leaf node"
  else
    match decodePairs (de16 (data.take 2)) (data.drop 2) with
    | .error e => .error e
    | .ok pairs => .ok (.cleaf pairs 0 0)

/-- The key loop of decodeInternalNode, returning the keys and the
unconsumed remainder. -/
def decodeKeys (count : Nat) (data : List Nat) : Except String (List CKey × List Nat) :=
  match count with
  | 0 => .ok ([], data)
  | count + 1 =>
    if data.length = 0 then .error "insufficient data for key"
    else
      match decodeKey data with
      | .error e => .error e
      | .ok (key, keySize) =>
        match decodeKeys count (data.drop keySize) with
        | .error e => .error e
        | .ok (keys, rest) => .ok (key :: keys, rest)

/-- decodeInternalNode: key count, keys, pointer count; the pointer
placeholders are skipped and the Pointers slice is created empty and
never populated, so the decoded node carries no child page ids. -/
def decodeInternalNode (data : List Nat) : Except String CNode :=
  if data.length < 2 then .error "insufficient data for internal node"
  else
    match decodeKeys (de16 (data.take 2)) (data.drop 2) with
    | .error e => .error e
    | .ok (keys, rest) =>
      if rest.length < 2 then .error "insufficient data for pointer count"
      else .ok (.cinterm keys [])

/-- Decode: dispatch on the node type byte. -/
def decodeNode (data : List Nat) : Except String CNode :=
  match data with
  | [] => .error "empty data"
  | nodeType :: rest =>
    match nodeType with
    | 1 => decodeLeafNode rest
    | 0 => decodeInternalNode rest
    | _ => .error "unknown node type"

/-- What the codec actually preserves of a node: keys and values survive,
a leaf's sibling page ids come back as 0 and an internal node's child
pointer list comes back empty. -/
def cnodeRound (n : CNode) : CNode :=
  match n with
  | .cleaf pairs _ _ => .cleaf pairs 0 0
  | .cinterm keys _ => .cinterm keys []

/-- A key the encoder can represent losslessly: ints within int32 range,
float bit patterns within 64 bits, strings of at most 65535 bytes. -/
def validKey (k : CKey) : Prop :=
  match k with
  | .kint i => -2147483648 ≤ i ∧ i ≤ 2147483647
  | .kfloat bits => bits < 18446744073709551616
  | .kstr s => s.length ≤ 65535

/-- A node whose counts and fields fit the uint16 fields of the format. -/
def validNode (n : CNode) : Prop :=
  match n with
  | .cleaf pairs _ _ =>
    pairs.length ≤ 65535 ∧ ∀ p ∈ pairs, validKey p.1 ∧ p.2.length ≤ 65535
  | .cinterm keys _ => keys.length ≤ 65535 ∧ ∀ k ∈ keys, validKey k

/-! ## Row file (data/rowFileHandler.go) -/

/-- The in-memory state of an open row file: the backing file plus the
header fields the handler caches (free-list head, schema codes, column
count). -/
structure RowFileM where
  file : FileM
  firstFreePage : Nat
  schemaCodes : List Nat
  columnCount : Nat

/-- writeHeader: persist columnCount, firstFreePage and the schema codes
into the fixed 4096-byte header block at offset 0. -/
def RowFileM.writeHeader (rw : RowFileM) : RowFileM :=
  let sPad := rw.schemaCodes.take 1000 ++ List.replicate (1000 - rw.schemaCodes.length) 0
  let header := le16 rw.columnCount ++ le64 rw.firstFreePage ++ sPad ++ List.replicate 3086 0
  { rw with file := rw.file.writeAt 0 header }

/-- NewRowfile after schema parsing: a fresh file holding only the header. -/
def NewRowfileM (schemaCodes : List Nat) : RowFileM :=
  RowFileM.writeHeader
    { file := FileM.empty, firstFreePage := 0, schemaCodes := schemaCodes,
      columnCount := schemaCodes.length }

/-- allocatePage traversal: walk the free list first-fit, starting from
currOffset with prevOffset the previous node (0 when at the head). -/
def RowFileM.allocatePageLoop (rw : RowFileM) (size prevOffset currOffset fuel : Nat) :
    Except String (Nat × RowFileM) :=
  match fuel with
  | 0 => .error "allocatePage: out of fuel"
  | fuel + 1 =>
    if currOffset = 0 then
      .ok (rw.file.size, rw)
    else
      match rw.file.readAt currOffset 12 with
      | none => .error "allocatePage: read failed"
      | some header =>
        if de16 header ≠ 65535 then .error "corrupted free page"
        else
          let nextFree := de64 (header.drop 2)
          let payloadLen := de16 (header.drop 10)
          if size ≤ 2 + payloadLen then
            if prevOffset = 0 then
              .ok (currOffset, { rw with firstFreePage := nextFree })
            else
              .ok (currOffset,
                { rw with file := rw.file.writeAt (prevOffset + 2) (le64 nextFree) })
          else
            rw.allocatePageLoop size currOffset nextFree fuel

/-- allocatePage: find a free slot large enough for size bytes
(length prefix + payload) or append at end of file. -/
def RowFileM.allocatePage (rw : RowFileM) (size fuel : Nat) : Except String (Nat × RowFileM) :=
  rw.allocatePageLoop size 0 rw.firstFreePage fuel

/-- WriteRow: encode the values, allocate a slot (free list first, else end
of file), and write the length-prefixed record there. -/
def RowFileM.WriteRow (rw : RowFileM) (values : List RVal) (fuel : Nat) :
    Except String (Nat × RowFileM) :=
  match encodeRow rw.schemaCodes values with
  | .error e => .error e
  | .ok payload =>
    if 65535 < payload.length then .error "WriteRow: payload too large"
    else
      let buf := le16 payload.length ++ payload
      match rw.allocatePage (2 + payload.length) fuel with
      | .error e => .error e
      | .ok (offset, rw1) =>
        .ok (offset, { rw1 with file := rw1.file.writeAt offset buf })

/-- ReadRowAt: read the 2-byte length prefix at offset, reject the free
sentinel, short-circuit a zero length, else read and decode the payload. -/
def RowFileM.ReadRowAt (rw : RowFileM) (offset : Nat) : Except String (List RVal) :=
  match rw.file.readAt offset 2 with
  | none => .error "ReadRowAt: read length failed"
  | some lenBuf =>
    let payloadLen := de16 lenBuf
    if payloadLen = 65535 then .error "ReadRowAt: row is free"
    else if payloadLen = 0 then .ok []
    else
      match rw.file.readAt (offset + 2) payloadLen with
      | none => .error "ReadRowAt: read payload failed"
      | some payload => decodeRow payload rw.schemaCodes

/-- FreeRowAt: replace the length prefix by the 0xFFFF sentinel, record the
previous free head and the original length, push the offset onto the free
list and persist the header. -/
def RowFileM.FreeRowAt (rw : RowFileM) (offset : Nat) : Except String RowFileM :=
  match rw.file.readAt offset 2 with
  | none => .error "FreeRowAt: read failed"
  | some lenBuf =>
    let oldLen := de16 lenBuf
    if oldLen = 65535 then .error "FreeRowAt: row already freed"
    else
      let meta := le64 rw.firstFreePage ++ le16 oldLen
      let f1 := rw.file.writeAt offset (le16 65535)
      let f2 := f1.writeAt (offset + 2) meta
      RowFileM.writeHeader { rw with file := f2, firstFreePage := offset } |> .ok

/-- Close for the row file: the Go handler only closes the OS handle; it
does not rewrite the header, so the model state is unchanged. -/
def RowFileM.Close (rw : RowFileM) : RowFileM := rw

/-! ## Index file (page allocator, free list, header persistence) -/

/-- The in-memory state of an open index file: the backing file plus the
cached header fields (root page id, tree order, free-list head). -/
structure IndexFileM where
  file : FileM
  rootPageID : Nat
  order : Nat
  firstFreePage : Nat

/-- writeHeader: persist magic, version, root page id, order and free-list
head into the fixed 512-byte header block at offset 0. -/
def IndexFileM.writeHeader (idx : IndexFileM) : IndexFileM :=
  let header := le32 0x42504C55 ++ le32 1 ++ le32 idx.rootPageID ++ le32 idx.order ++
    le32 idx.firstFreePage ++ List.replicate 492 0
  { idx with file := idx.file.writeAt 0 header }

/-- NewIndexFile: a fresh file holding only the header, root 0, empty free
list. -/
def NewIndexFileM (order : Nat) : IndexFileM :=
  IndexFileM.writeHeader
    { file := FileM.empty, rootPageID := 0, order := order, firstFreePage := 0 }

/-- readFreeListPointer: read the deleted flag and the next-free pointer of
a free page. -/
def IndexFileM.readFreeListPointer (idx : IndexFileM) (pageID : Nat) : Except String Nat :=
  match idx.file.readAt (512 + pageID * 4096) 5 with
  | none => .error "readFreeListPointer: read failed"
  | some buf =>
    if buf.getD 0 0 = 0 then .error "page is not marked as free"
    else .ok (de32 (buf.drop 1))

/-- allocatePage: pop the free-list head when nonzero (persisting the
header), otherwise extend the file with one zero page at the tail. -/
def IndexFileM.allocatePage (idx : IndexFileM) : Except String (Nat × IndexFileM) :=
  if idx.firstFreePage ≠ 0 then
    match idx.readFreeListPointer idx.firstFreePage with
    | .error e => .error e
    | .ok nextFree =>
      .ok (idx.firstFreePage, IndexFileM.writeHeader { idx with firstFreePage := nextFree })
  else
    let nextPageID := max ((idx.file.size - 512) / 4096) 1
    .ok (nextPageID,
      { idx with file := idx.file.writeAt (512 + nextPageID * 4096) (List.replicate 4096 0) })

/-- freePage: write a free record (deleted flag, next pointer = old head)
over the page, set the head to this page and persist the header. -/
def IndexFileM.freePage (idx : IndexFileM) (pageID : Nat) : IndexFileM :=
  let buf := 1 :: (le32 idx.firstFreePage ++ List.replicate 4091 0)
  IndexFileM.writeHeader
    { idx with file := idx.file.writeAt (512 + pageID * 4096) buf, firstFreePage := pageID }

/-- SetRoot: update the in-memory root and persist the header. -/
def IndexFileM.SetRoot (idx : IndexFileM) (pageID : Nat) : IndexFileM :=
  IndexFileM.writeHeader { idx with rootPageID := pageID }

/-- Close for the index file: rewrites the header before closing. -/
def IndexFileM.Close (idx : IndexFileM) : IndexFileM := IndexFileM.writeHeader idx

/-- The byte offset readNode and writeNode compute for a page id: the Go
code forms int64(HeaderSize + int64(pageID*PageSize)), whose inner
multiplication is carried out in uint32 and therefore wraps modulo 2^32. -/
def readNodeOffset (pageID : Nat) : Nat := 512 + (pageID * 4096) % 4294967296

/-- On-disk header of an index file agrees with the cached root page id and
free-list head. -/
def IndexFileM.headerMatches (idx : IndexFileM) : Prop :=
  idx.file.readAt 8 4 = some (le32 idx.rootPageID) ∧
  idx.file.readAt 16 4 = some (le32 idx.firstFreePage)

/-- On-disk header of a row file agrees with the cached free-list head. -/
def RowFileM.headerMatches (rw : RowFileM) : Prop :=
  rw.file.readAt 2 8 = some (le64 rw.firstFreePage)

/-- The chain of free slots of a row file, read off the file exactly the way
allocatePage walks it: entry (offset, nextFree, originalPayloadLen) per free
node, ending at offset 0; none when the walk hits a bad read, a bad marker
or runs out of fuel. -/
def freeChainFrom (f : FileM) (curr fuel : Nat) : Option (List (Nat × Nat × Nat)) :=
  match fuel with
  | 0 => none
  | fuel + 1 =>
    if curr = 0 then some []
    else
      match f.readAt curr 12 with
      | none => none
      | some header =>
        if de16 header ≠ 65535 then none
        else
          match freeChainFrom f (de64 (header.drop 2)) fuel with
          | none => none
          | some rest => some ((curr, de64 (header.drop 2), de16 (header.drop 10)) :: rest)

/-! ## Disk B+ tree (index/diskTree.go) over a decoded-page store

The tree layer of diskTree.go never sees raw bytes: it reads decoded
nodes by page id and writes them back.  The codec under src drops the
sibling and child pointers (see the C1 theorems), so the page codec that
the current tree code relies on is not part of the sources; following
the spec (sections 4.2 and 9, item 1: read_node returns the decoded
node, and the index file layer is responsible for persisting the
sibling/child page ids carried on the node), the page store is modelled
as a map from page ids to decoded nodes. -/

/-- A decoded tree node: a leaf with (key, value) pairs and sibling page
ids, or an internal node with keys and child page ids. -/
inductive TNode (K V : Type) where
  | leaf (pairs : List (K × V)) (nextPage prevPage : Nat)
  | interm (keys : List K) (ptrs : List Nat)

/-- The disk tree state: the page store plus the index-file header fields
(root page id, order, free list) and the next fresh page id the allocator
would mint. -/
structure TreeState (K V : Type) where
  pages : Nat → Option (TNode K V)
  root : Nat
  order : Nat
  freeList : List Nat
  fresh : Nat

variable {K V : Type}

/-- Modelled from the spec: read_node(id) returns the decoded node of the
page, failing on a missing or freed page. -/
def TreeState.readNode (s : TreeState K V) (id : Nat) : Except String (TNode K V) :=
  match s.pages id with
  | some n => .ok n
  | none => .error "failed to read page"

/-- Modelled from the spec: write_node(node, id) persists the node as the
sole payload of the page. -/
def TreeState.writeNode (s : TreeState K V) (n : TNode K V) (id : Nat) : TreeState K V :=
  { s with pages := fun p => if p = id then some n else s.pages p }

/-- Modelled from the spec: allocate_page returns a free-list page if
available, else extends the file by one page. -/
def TreeState.allocPage (s : TreeState K V) : Nat × TreeState K V :=
  match s.freeList with
  | h :: t => (h, { s with freeList := t })
  | [] => (s.fresh, { s with fresh := s.fresh + 1 })

/-- Modelled from the spec: free_page pushes the page id onto the free
list; the page becomes unreadable (its tombstone flag is set). -/
def TreeState.freePage (s : TreeState K V) (id : Nat) : TreeState K V :=
  { s with pages := fun p => if p = id then none else s.pages p, freeList := id :: s.freeList }

/-- Modelled from the spec: set_root updates the root page id (and
persists the header). -/
def TreeState.setRoot (s : TreeState K V) (id : Nat) : TreeState K V :=
  { s with root := id }

/-- insertAt of diskTree.go: returns the slice unchanged when the index is
out of range. -/
def insertAtGo {α : Type} (l : List α) (i : Nat) (a : α) : List α :=
  if l.length < i then l else l.take i ++ a :: l.drop i

/-- removeAt of diskTree.go (removeAtLeafPair, removeAtK, removeAtUint32):
returns the slice unchanged when the index is out of range. -/
def removeAtGo {α : Type} (l : List α) (i : Nat) : List α :=
  if i < l.length then l.take i ++ l.drop (i + 1) else l

/-- The binary-search loop of upperBound: first index whose key is
strictly greater than the probe, computed exactly as the Go loop does. -/
def upperBoundLoop [LinearOrder K] (key : K) (keys : List K) (left right fuel : Nat) : Nat :=
  match fuel with
  | 0 => left
  | fuel + 1 =>
    if left < right then
      let mid := left + (right - left) / 2
      if ¬ key < keys.getD mid key then upperBoundLoop key keys (mid + 1) right fuel
      else upperBoundLoop key keys left mid fuel
    else left

/-- upperBound: first index i with key < keys[i], else len(keys). -/
def upperBound [LinearOrder K] (key : K) (keys : List K) : Nat :=
  upperBoundLoop key keys 0 keys.length (keys.length + 1)

/-- The binary-search loop of leafUpperBound: first pair index whose key
is not below the probe. -/
def leafUpperBoundLoop [LinearOrder K] (key : K) (ks : List K) (left right fuel : Nat) : Nat :=
  match fuel with
  | 0 => left
  | fuel + 1 =>
    if left < right then
      let mid := left + (right - left) / 2
      if ks.getD mid key < key then leafUpperBoundLoop key ks (mid + 1) right fuel
      else leafUpperBoundLoop key ks left mid fuel
    else left

/-- leafUpperBound: insert position of a key among the leaf pairs. -/
def leafUpperBound [LinearOrder K] (key : K) (pairs : List (K × V)) : Nat :=
  leafUpperBoundLoop key (pairs.map Prod.fst) 0 pairs.length (pairs.length + 1)

/-- The exact-match binary-search loop of leafBinarySearch, with the Go
int bounds modelled as integers (right starts at len-1 and may reach -1). -/
def leafBinarySearchLoop [LinearOrder K] (key : K) (ks : List K) (left right : Int)
    (fuel : Nat) : Int :=
  match fuel with
  | 0 => -1
  | fuel + 1 =>
    if left ≤ right then
      let mid := left + (right - left) / 2
      if ks.getD mid.toNat key = key then mid
      else if ks.getD mid.toNat key < key then leafBinarySearchLoop key ks (mid + 1) right fuel
      else leafBinarySearchLoop key ks left (mid - 1) fuel
    else -1

/-- leafBinarySearch: index of the exact key among the pairs, -1 when
absent. -/
def leafBinarySearch [LinearOrder K] (key : K) (pairs : List (K × V)) : Int :=
  leafBinarySearchLoop key (pairs.map Prod.fst) 0 ((pairs.length : Int) - 1) (pairs.length + 1)

/-- dfs: recursive point search from a loaded node. -/
def TreeState.dfs [LinearOrder K] (s : TreeState K V) (key : K) (n : TNode K V)
    (fuel : Nat) : Except String V :=
  match fuel with
  | 0 => .error "out of fuel"
  | fuel + 1 =>
    match n with
    | .interm keys ptrs =>
      let index := upperBound key keys
      if ptrs.length ≤ index then .error "invalid child index in internal node"
      else
        match s.readNode (ptrs.getD index 0) with
        | .error e => .error ("failed to load child node: " ++ e)
        | .ok child => s.dfs key child fuel
    | .leaf pairs _ _ =>
      let ind := leafBinarySearch key pairs
      if ind = -1 then .error "key not found"
      else
        match pairs.get? ind.toNat with
        | some p => .ok p.2
        | none => .error "key not found"

/-- Search: fail on the empty tree, else load the root and search down. -/
def TreeState.Search [LinearOrder K] (s : TreeState K V) (key : K) (fuel : Nat) :
    Except String V :=
  if s.root = 0 then .error "tree is empty"
  else
    match s.readNode s.root with
    | .error e => .error ("failed to load root node: " ++ e)
    | .ok root => s.dfs key root fuel

/-- insertIntoLeaf: duplicate check, ordered insert, split at half when the
leaf reaches order pairs; sibling links are stitched across the split. -/
def TreeState.insertIntoLeaf [LinearOrder K] (s : TreeState K V) (key : K) (value : V)
    (pairs : List (K × V)) (next prev : Nat) (pageID : Nat) :
    TreeState K V × Except String (Option (K × Nat)) :=
  let index := leafUpperBound key pairs
  if index < pairs.length ∧ (pairs.map Prod.fst).getD index key = key then
    (s, .error "duplicate key")
  else
    let newSlice := insertAtGo pairs index (key, value)
    if newSlice.length < s.order then
      (s.writeNode (.leaf newSlice next prev) pageID, .ok none)
    else
      let splitIndex := newSlice.length / 2
      let leftPairs := newSlice.take splitIndex
      let rightPairs := newSlice.drop splitIndex
      let (rightPageID, s1) := s.allocPage
      let fixedNext : Except String (TreeState K V) :=
        if next ≠ 0 then
          match s1.readNode next with
          | .error e => .error e
          | .ok (.leaf npairs nnext _) =>
            .ok (s1.writeNode (.leaf npairs nnext rightPageID) next)
          | .ok (.interm _ _) => .ok s1
        else .ok s1
      match fixedNext with
      | .error e => (s1, .error e)
      | .ok s2 =>
        let s3 := s2.writeNode (.leaf leftPairs rightPageID prev) pageID
        let s4 := s3.writeNode (.leaf rightPairs next pageID) rightPageID
        (s4, .ok (some ((rightPairs.map Prod.fst).getD 0 key, rightPageID)))

/-- insertRecursive and insertIntoInternal: descend by upperBound, absorb
or split on the way back up. -/
def TreeState.insertRec [LinearOrder K] (s : TreeState K V) (key : K) (value : V)
    (n : TNode K V) (pageID : Nat) (fuel : Nat) :
    TreeState K V × Except String (Option (K × Nat)) :=
  match fuel with
  | 0 => (s, .error "out of fuel")
  | fuel + 1 =>
    match n with
    | .leaf pairs next prev => s.insertIntoLeaf key value pairs next prev pageID
    | .interm keys ptrs =>
      let childIndex := upperBound key keys
      if ptrs.length ≤ childIndex then (s, .error "invalid child index")
      else
        let childPageID := ptrs.getD childIndex 0
        match s.readNode childPageID with
        | .error e => (s, .error e)
        | .ok child =>
          match s.insertRec key value child childPageID fuel with
          | (s1, .error e) => (s1, .error e)
          | (s1, .ok none) => (s1, .ok none)
          | (s1, .ok (some (promotedKey, newRightPageID))) =>
            let keys1 := insertAtGo keys childIndex promotedKey
            let ptrs1 := insertAtGo ptrs (childIndex + 1) newRightPageID
            if keys1.length < s.order then
              (s1.writeNode (.interm keys1 ptrs1) pageID, .ok none)
            else
              let splitIndex := (s.order - 1) / 2
              let midKey := keys1.getD splitIndex promotedKey
              let rightKeys := keys1.drop (splitIndex + 1)
              let rightPointers := ptrs1.drop (splitIndex + 1)
              let s2 := s1.writeNode
                (.interm (keys1.take splitIndex) (ptrs1.take (splitIndex + 1))) pageID
              let (rightPageID, s3) := s2.allocPage
              let s4 := s3.writeNode (.interm rightKeys rightPointers) rightPageID
              (s4, .ok (some (midKey, rightPageID)))

/-- Insert: first insertion creates a single-pair root leaf; a root split
creates a new internal root over the two halves. -/
def TreeState.Insert [LinearOrder K] (s : TreeState K V) (key : K) (value : V)
    (fuel : Nat) : TreeState K V × Except String Unit :=
  if s.root = 0 then
    let (rootPageID, s1) := s.allocPage
    let s2 := s1.writeNode (.leaf [(key, value)] 0 0) rootPageID
    (s2.setRoot rootPageID, .ok ())
  else
    match s.readNode s.root with
    | .error e => (s, .error e)
    | .ok rootNode =>
      match s.insertRec key value rootNode s.root fuel with
      | (s1, .error e) => (s1, .error e)
      | (s1, .ok none) => (s1, .ok ())
      | (s1, .ok (some (promotedKey, newRightPageID))) =>
        let (rootPageID, s2) := s1.allocPage
        let s3 := s2.writeNode (.interm [promotedKey] [s.root, newRightPageID]) rootPageID
        (s3.setRoot rootPageID, .ok ())

/-- canBorrowFrom: the node at the page has more than the minimum. -/
def TreeState.canBorrowFrom [LinearOrder K] (s : TreeState K V) (pageID : Nat) : Bool :=
  match s.readNode pageID with
  | .error _ => false
  | .ok (.leaf pairs _ _) => decide ((s.order - 1) / 2 < pairs.length)
  | .ok (.interm keys _) => decide ((s.order - 1) / 2 < keys.length)

/-- borrowFromLeft: move the rightmost entry of the left sibling to the
front of the child; returns the parent keys, with the separator updated.
A Go panic (failing type assertion or out-of-range index) is modelled as
an error. -/
def TreeState.borrowFromLeft [LinearOrder K] (s : TreeState K V) (keys : List K)
    (ptrs : List Nat) (childIndex : Nat) : TreeState K V × Except String (List K) :=
  let leftPageID := ptrs.getD (childIndex - 1) 0
  let childPageID := ptrs.getD childIndex 0
  match s.readNode leftPageID with
  | .error e => (s, .error e)
  | .ok leftNode =>
    match s.readNode childPageID with
    | .error e => (s, .error e)
    | .ok childNode =>
      match leftNode, childNode with
      | .leaf leftPairs lnext lprev, .leaf childPairs cnext cprev =>
        match leftPairs.getLast? with
        | none => (s, .error "panic: index out of range")
        | some borrowed =>
          let leftPairs1 := leftPairs.dropLast
          let childPairs1 := insertAtGo childPairs 0 borrowed
          let keys1 := keys.set (childIndex - 1) ((childPairs1.map Prod.fst).getD 0 borrowed.1)
          let s1 := s.writeNode (.leaf leftPairs1 lnext lprev) leftPageID
          let s2 := s1.writeNode (.leaf childPairs1 cnext cprev) childPageID
          (s2, .ok keys1)
      | .interm leftKeys leftPtrs, .interm childKeys childPtrs =>
        match leftKeys.getLast?, leftPtrs.getLast? with
        | some bKey, some bPtr =>
          let s1 := s.writeNode (.interm leftKeys.dropLast leftPtrs.dropLast) leftPageID
          let s2 := s1.writeNode
            (.interm (insertAtGo childKeys 0 bKey) (insertAtGo childPtrs 0 bPtr)) childPageID
          (s2, .ok (keys.set (childIndex - 1) bKey))
        | _, _ => (s, .error "panic: index out of range")
      | _, _ => (s, .error "panic: interface conversion")

/-- borrowFromRight: move the leftmost entry of the right sibling to the
end of the child; the separator becomes the right sibling's new first key
(left unchanged when a borrowed leaf empties the right sibling). -/
def TreeState.borrowFromRight [LinearOrder K] (s : TreeState K V) (keys : List K)
    (ptrs : List Nat) (childIndex : Nat) : TreeState K V × Except String (List K) :=
  let rightPageID := ptrs.getD (childIndex + 1) 0
  let childPageID := ptrs.getD childIndex 0
  match s.readNode rightPageID with
  | .error e => (s, .error e)
  | .ok rightNode =>
    match s.readNode childPageID with
    | .error e => (s, .error e)
    | .ok childNode =>
      match rightNode, childNode with
      | .leaf rightPairs rnext rprev, .leaf childPairs cnext cprev =>
        match rightPairs with
        | [] => (s, .error "panic: index out of range")
        | borrowed :: rightPairs1 =>
          let childPairs1 := childPairs ++ [borrowed]
          let keys1 :=
            if 0 < rightPairs1.length then
              keys.set childIndex ((rightPairs1.map Prod.fst).getD 0 borrowed.1)
            else keys
          let s1 := s.writeNode (.leaf rightPairs1 rnext rprev) rightPageID
          let s2 := s1.writeNode (.leaf childPairs1 cnext cprev) childPageID
          (s2, .ok keys1)
      | .interm rightKeys rightPtrs, .interm childKeys childPtrs =>
        match rightKeys, rightPtrs with
        | bKey :: rightKeys1, bPtr :: rightPtrs1 =>
          let keys1 :=
            if 0 < rightKeys1.length then
              keys.set childIndex (rightKeys1.getD 0 bKey)
            else keys
          let s1 := s.writeNode (.interm rightKeys1 rightPtrs1) rightPageID
          let s2 := s1.writeNode
            (.interm (childKeys ++ [bKey]) (childPtrs ++ [bPtr])) childPageID
          (s2, .ok keys1)
        | _, _ => (s, .error "panic: index out of range")
      | _, _ => (s, .error "panic: interface conversion")

/-- mergeLeft: merge the child into its left sibling (for leaves the
separator is dropped, for internal nodes it is pulled down), fix the leaf
chain, and free the child's page. -/
def TreeState.mergeLeft [LinearOrder K] (s : TreeState K V) (keys : List K)
    (ptrs : List Nat) (childIndex : Nat) : TreeState K V × Except String Unit :=
  let leftPageID := ptrs.getD (childIndex - 1) 0
  let childPageID := ptrs.getD childIndex 0
  match s.readNode leftPageID with
  | .error e => (s, .error e)
  | .ok leftNode =>
    match s.readNode childPageID with
    | .error e => (s, .error e)
    | .ok childNode =>
      match leftNode, childNode with
      | .leaf leftPairs _ lprev, .leaf childPairs cnext cprev =>
        let s1 :=
          if cnext ≠ 0 then
            match s.readNode cnext with
            | .ok (.leaf npairs nnext _) => s.writeNode (.leaf npairs nnext leftPageID) cnext
            | _ => s
          else s
        let s2 := s1.writeNode (.leaf (leftPairs ++ childPairs) cnext lprev) leftPageID
        let s3 := s2.writeNode (.leaf childPairs cnext cprev) childPageID
        (s3.freePage childPageID, .ok ())
      | .interm leftKeys leftPtrs, .interm childKeys childPtrs =>
        match keys.get? (childIndex - 1) with
        | none => (s, .error "panic: index out of range")
        | some separator =>
          let s1 := s.writeNode
            (.interm (leftKeys ++ separator :: childKeys) (leftPtrs ++ childPtrs)) leftPageID
          let s2 := s1.writeNode (.interm childKeys childPtrs) childPageID
          (s2.freePage childPageID, .ok ())
      | _, _ => (s, .error "panic: interface conversion")

/-- mergeRight: merge the right sibling into the child and free the right
sibling's page. -/
def TreeState.mergeRight [LinearOrder K] (s : TreeState K V) (keys : List K)
    (ptrs : List Nat) (childIndex : Nat) : TreeState K V × Except String Unit :=
  let childPageID := ptrs.getD childIndex 0
  let rightPageID := ptrs.getD (childIndex + 1) 0
  match s.readNode childPageID with
  | .error e => (s, .error e)
  | .ok childNode =>
    match s.readNode rightPageID with
    | .error e => (s, .error e)
    | .ok rightNode =>
      match childNode, rightNode with
      | .leaf childPairs _ cprev, .leaf rightPairs rnext rprev =>
        let s1 :=
          if rnext ≠ 0 then
            match s.readNode rnext with
            | .ok (.leaf npairs nnext _) => s.writeNode (.leaf npairs nnext childPageID) rnext
            | _ => s
          else s
        let s2 := s1.writeNode (.leaf (childPairs ++ rightPairs) rnext cprev) childPageID
        let s3 := s2.writeNode (.leaf rightPairs rnext rprev) rightPageID
        (s3.freePage rightPageID, .ok ())
      | .interm childKeys childPtrs, .interm rightKeys rightPtrs =>
        match keys.get? childIndex with
        | none => (s, .error "panic: index out of range")
        | some separator =>
          let s1 := s.writeNode
            (.interm (childKeys ++ separator :: rightKeys) (childPtrs ++ rightPtrs))
            childPageID
          let s2 := s1.writeNode (.interm rightKeys rightPtrs) rightPageID
          (s2.freePage rightPageID, .ok ())
      | _, _ => (s, .error "panic: interface conversion")

/-- handleUnderflow: borrow from the left sibling, else from the right,
else merge (left-preferred); reports whether this node now underflows. -/
def TreeState.handleUnderflow [LinearOrder K] (s : TreeState K V) (keys : List K)
    (ptrs : List Nat) (nodePageID : Nat) (childIndex : Nat) :
    TreeState K V × Except String Bool :=
  if 0 < childIndex ∧ s.canBorrowFrom (ptrs.getD (childIndex - 1) 0) then
    match s.borrowFromLeft keys ptrs childIndex with
    | (s1, .error e) => (s1, .error e)
    | (s1, .ok keys1) => (s1.writeNode (.interm keys1 ptrs) nodePageID, .ok false)
  else if childIndex < ptrs.length - 1 ∧ s.canBorrowFrom (ptrs.getD (childIndex + 1) 0) then
    match s.borrowFromRight keys ptrs childIndex with
    | (s1, .error e) => (s1, .error e)
    | (s1, .ok keys1) => (s1.writeNode (.interm keys1 ptrs) nodePageID, .ok false)
  else if 0 < childIndex then
    match s.mergeLeft keys ptrs childIndex with
    | (s1, .error e) => (s1, .error e)
    | (s1, .ok ()) =>
      let keys1 := removeAtGo keys (childIndex - 1)
      let ptrs1 := removeAtGo ptrs childIndex
      let s2 := s1.writeNode (.interm keys1 ptrs1) nodePageID
      (s2, .ok (keys1.length < (s.order - 1) / 2))
  else if childIndex < ptrs.length - 1 then
    match s.mergeRight keys ptrs childIndex with
    | (s1, .error e) => (s1, .error e)
    | (s1, .ok ()) =>
      let keys1 := removeAtGo keys childIndex
      let ptrs1 := removeAtGo ptrs (childIndex + 1)
      let s2 := s1.writeNode (.interm keys1 ptrs1) nodePageID
      (s2, .ok (keys1.length < (s.order - 1) / 2))
  else (s, .error "no sibling to merge with; inconsistent state")

/-- deleteFromLeaf: exact-match removal, write back, report underflow. -/
def TreeState.deleteFromLeaf [LinearOrder K] (s : TreeState K V) (key : K)
    (pairs : List (K × V)) (next prev : Nat) (pageID : Nat) :
    TreeState K V × Except String Bool :=
  let index := leafBinarySearch key pairs
  if index = -1 then (s, .ok false)
  else
    let pairs1 := removeAtGo pairs index.toNat
    let s1 := s.writeNode (.leaf pairs1 next prev) pageID
    (s1, .ok (pairs1.length < (s.order - 1) / 2))

/-- deleteRecursive and deleteFromInternal. -/
def TreeState.deleteRec [LinearOrder K] (s : TreeState K V) (key : K) (pageID : Nat)
    (fuel : Nat) : TreeState K V × Except String Bool :=
  match fuel with
  | 0 => (s, .error "out of fuel")
  | fuel + 1 =>
    match s.readNode pageID with
    | .error e => (s, .error e)
    | .ok (.leaf pairs next prev) => s.deleteFromLeaf key pairs next prev pageID
    | .ok (.interm keys ptrs) =>
      let childIndex := upperBound key keys
      if ptrs.length ≤ childIndex then (s, .error "invalid child index")
      else
        match s.deleteRec key (ptrs.getD childIndex 0) fuel with
        | (s1, .error e) => (s1, .error e)
        | (s1, .ok false) => (s1, .ok false)
        | (s1, .ok true) => s1.handleUnderflow keys ptrs pageID childIndex

/-- Delete: pre-check emptiness and existence via Search, delete
recursively, and collapse an empty internal root onto its only child. -/
def TreeState.Delete [LinearOrder K] (s : TreeState K V) (key : K) (fuel : Nat) :
    TreeState K V × Except String Unit :=
  if s.root = 0 then (s, .error "tree is empty")
  else
    match s.Search key fuel with
    | .error e => (s, .error e)
    | .ok _ =>
      match s.deleteRec key s.root fuel with
      | (s1, .error e) => (s1, .error e)
      | (s1, .ok underflow) =>
        if underflow then
          match s1.readNode s.root with
          | .error e => (s1, .error e)
          | .ok (.interm keys ptrs) =>
            if keys.length = 0 ∧ ptrs.length = 1 then
              ((s1.setRoot (ptrs.getD 0 0)).freePage s.root, .ok ())
            else (s1, .ok ())
          | .ok (.leaf _ _ _) => (s1, .ok ())
        else (s1, .ok ())

/-- findLeftmostLeaf: always follow the leftmost child down to a leaf. -/
def TreeState.findLeftmostLeaf [LinearOrder K] (s : TreeState K V) (n : TNode K V)
    (fuel : Nat) : Except String (List (K × V) × Nat × Nat) :=
  match fuel with
  | 0 => .error "out of fuel"
  | fuel + 1 =>
    match n with
    | .leaf pairs next prev => .ok (pairs, next, prev)
    | .interm _ ptrs =>
      if ptrs.length = 0 then .error "internal node has no children"
      else
        match s.readNode (ptrs.getD 0 0) with
        | .error e => .error ("failed to load leftmost child: " ++ e)
        | .ok child => s.findLeftmostLeaf child fuel

/-- The pair loop of RangeSearch: collect pairs in [startKey, endKey) and
stop at the first key at or beyond endKey. -/
def scanPairs [LinearOrder K] (startKey endKey : K) (pairs : List (K × V))
    (acc : List (K × V)) : List (K × V) × Bool :=
  match pairs with
  | [] => (acc, false)
  | p :: rest =>
    let acc1 := if ¬ p.1 < startKey ∧ p.1 < endKey then acc ++ [p] else acc
    if ¬ p.1 < endKey then (acc1, true)
    else scanPairs startKey endKey rest acc1

/-- The leaf-chain loop of RangeSearch. -/
def TreeState.rangeLoop [LinearOrder K] (s : TreeState K V) (startKey endKey : K)
    (pairs : List (K × V)) (next : Nat) (acc : List (K × V)) (fuel : Nat) :
    Except String (List (K × V)) :=
  match fuel with
  | 0 => .error "out of fuel"
  | fuel + 1 =>
    match scanPairs startKey endKey pairs acc with
    | (acc1, true) => .ok acc1
    | (acc1, false) =>
      if next ≠ 0 then
        match s.readNode next with
        | .error e => .error ("failed to load next leaf: " ++ e)
        | .ok (.leaf pairs1 next1 _) => s.rangeLoop startKey endKey pairs1 next1 acc1 fuel
        | .ok (.interm _ _) => .error "expected leaf node"
      else .ok acc1

/-- RangeSearch: fail on the empty tree, descend to the leftmost leaf of
the whole tree, then walk the sibling chain collecting the range. -/
def TreeState.RangeSearch [LinearOrder K] (s : TreeState K V) (startKey endKey : K)
    (fuel : Nat) : Except String (List (K × V)) :=
  if s.root = 0 then .error "tree is empty"
  else
    match s.readNode s.root with
    | .error e => .error ("failed to load root node: " ++ e)
    | .ok rootNode =>
      match s.findLeftmostLeaf rootNode fuel with
      | .error e => .error e
      | .ok (pairs, next, _) => s.rangeLoop startKey endKey pairs next [] fuel

/-- The pairs stored along a leaf chain, starting from a loaded leaf:
the decoded content RangeSearch walks over. -/
def chainPairs [LinearOrder K] (s : TreeState K V) (pairs : List (K × V)) (next : Nat)
    (fuel : Nat) : Option (List (K × V)) :=
  match fuel with
  | 0 => none
  | fuel + 1 =>
    if next = 0 then some pairs
    else
      match s.readNode next with
      | .ok (.leaf pairs1 next1 _) => (chainPairs s pairs1 next1 fuel).map (pairs ++ ·)
      | _ => none

/-- Every leaf stored in the page map has strictly increasing keys (spec
tree invariant: keys within a leaf are strictly increasing). -/
def LeavesSorted [LinearOrder K] (s : TreeState K V) : Prop :=
  ∀ id pairs next prev, s.pages id = some (.leaf pairs next prev) →
    (pairs.map Prod.fst).Pairwise (· < ·)

/-- The empty tree in the page-map model: what NewDiskTree produces (root
page id 0, no pages). -/
def emptyTree (order : Nat) : TreeState Int Nat :=
  { pages := fun _ => none, root := 0, order := order, freeList := [], fresh := 1 }

/-- A one-leaf tree of order 3 holding the single pair (5, 100) at page 1. -/
def oneLeafTree : TreeState Int Nat :=
  { pages := fun id => if id = 1 then some (.leaf [(5, 100)] 0 0) else none,
    root := 1, order := 3, freeList := [], fresh := 2 }

/-! ### The spec's structural tree invariant (fill and pointer counts)

The following predicates encode the spec's structural invariant for the
disk tree: every non-root node holds at least ⌊(order−1)/2⌋ keys and at
most order−1, every internal node with k keys has exactly k+1 child
pointers, the subtrees occupy pairwise distinct live pages, and all leaves
sit at the same depth. -/

/-- A page id the allocator considers live: nonzero, already minted, and
not on the free list. -/
def pageOk (s : TreeState K V) (i : Nat) : Prop :=
  i ≠ 0 ∧ i < s.fresh ∧ i ∉ s.freeList

/-- Two page contents with the same key/value/pointer counts: equal, or
leaves with the same pairs that differ only in sibling links. -/
def countKeep : Option (TNode K V) → Option (TNode K V) → Prop := fun a b =>
  a = b ∨ ∃ pairs next next' prev prev',
    a = some (TNode.leaf pairs next prev) ∧ b = some (TNode.leaf pairs next' prev')

/-- The key count of the node stored at a page. -/
def topCount (pages : Nat → Option (TNode K V)) (id : Nat) : Option Nat :=
  match pages id with
  | some (TNode.leaf pairs _ _) => some pairs.length
  | some (TNode.interm keys _) => some keys.length
  | none => none

/-- The page ids reachable from a page in a given depth: the footprint a
subtree of that depth occupies. -/
def reachIds (pages : Nat → Option (TNode K V)) : Nat → Nat → List Nat
  | 0, id => [id]
  | d + 1, id =>
    id ::
      (match pages id with
       | some (TNode.interm _ ptrs) => (ptrs.map fun p => reachIds pages d p).flatten
       | _ => [])

/-- The subtree of the given depth rooted at a page satisfies the spec's
fill and structure bounds: the top node holds between mn and order−1 keys,
every internal node has keys+1 pointers and children holding at least
⌊(order−1)/2⌋ keys, and the occupied pages are pairwise distinct. -/
def RTree (pages : Nat → Option (TNode K V)) (order : Nat) : Nat → Nat → Nat → Prop
  | 0, mn, id =>
    ∃ pairs next prev, pages id = some (TNode.leaf pairs next prev) ∧
      mn ≤ pairs.length ∧ pairs.length ≤ order - 1
  | d + 1, mn, id =>
    ∃ keys ptrs, pages id = some (TNode.interm keys ptrs) ∧
      mn ≤ keys.length ∧ keys.length ≤ order - 1 ∧
      ptrs.length = keys.length + 1 ∧
      (∀ p ∈ ptrs, RTree pages order d ((order - 1) / 2) p) ∧
      (reachIds pages (d + 1) id).Nodup

/-- The minimum key count the spec allows for the root node: an internal
root needs one key, a leaf root may hold any number. -/
def rootMin : Nat → Nat
  | 0 => 0
  | _ + 1 => 1

/-- The allocator bookkeeping of a tree state is sound: order at least 3,
page ids minted from 1 up, and a duplicate-free free list of minted ids. -/
def WfFree (s : TreeState K V) : Prop :=
  3 ≤ s.order ∧ 0 < s.fresh ∧ s.freeList.Nodup ∧
    ∀ i ∈ s.freeList, i ≠ 0 ∧ i < s.fresh

/-- The spec's whole-tree invariant: sound allocator bookkeeping, and
either the empty tree or a tree of some uniform depth realized on live
pages whose root meets the root minimum. -/
def Inv (s : TreeState K V) : Prop :=
  WfFree s ∧
  (s.root = 0 ∨ ∃ d, RTree s.pages s.order d (rootMin d) s.root ∧
    ∀ i ∈ reachIds s.pages d s.root, pageOk s i)

/-- What a successful insertRec call guarantees: the allocator stays
sound, live pages stay live, pages outside the subtree keep their counts,
and the subtree is rebuilt either in place (no split) or as two halves
meeting the non-root minimum (split), on pages taken from the old
footprint or freshly allocated. -/
def insOut (s s' : TreeState K V) (d mn id : Nat) (res : Option (K × Nat)) : Prop :=
  s'.root = s.root ∧ s'.order = s.order ∧ WfFree s' ∧
  (∀ i, pageOk s i → pageOk s' i) ∧
  (∀ j, j ∉ reachIds s.pages d id → pageOk s j → countKeep (s.pages j) (s'.pages j)) ∧
  match res with
  | none =>
    RTree s'.pages s.order d mn id ∧
    ∀ i ∈ reachIds s'.pages d id,
      pageOk s' i ∧ (i ∈ reachIds s.pages d id ∨ ¬ pageOk s i)
  | some (_pk, rid) =>
    RTree s'.pages s.order d ((s.order - 1) / 2) id ∧
    RTree s'.pages s.order d ((s.order - 1) / 2) rid ∧
    (reachIds s'.pages d id ++ reachIds s'.pages d rid).Nodup ∧
    ∀ i ∈ reachIds s'.pages d id ++ reachIds s'.pages d rid,
      pageOk s' i ∧ (i ∈ reachIds s.pages d id ∨ ¬ pageOk s i)

/-- What a successful deleteRec call guarantees: no allocation, freed
pages go to the free list, pages outside the subtree keep their counts,
the subtree is rebuilt on a subset of its old footprint with children
still meeting the minimum, and the returned flag reports exactly whether
the top node dropped below the minimum (by at most one key). -/
def delOut (s s' : TreeState K V) (d mn id : Nat) (under : Bool) : Prop :=
  s'.root = s.root ∧ s'.order = s.order ∧ s'.fresh = s.fresh ∧ WfFree s' ∧
  (∀ i, pageOk s' i → pageOk s i) ∧
  (∀ i, pageOk s i → i ∉ reachIds s.pages d id → pageOk s' i) ∧
  (∀ j, j ∉ reachIds s.pages d id → pageOk s j → countKeep (s.pages j) (s'.pages j)) ∧
  RTree s'.pages s.order d 0 id ∧
  (∃ c, topCount s'.pages id = some c ∧ mn - 1 ≤ c ∧
    (under = false → mn ≤ c) ∧ (under = true → c < (s.order - 1) / 2)) ∧
  ∀ i ∈ reachIds s'.pages d id, pageOk s' i ∧ i ∈ reachIds s.pages d id

/-- The offset a first-fit allocator picks from a free chain of
(offset, next, originalPayloadLen) entries: the first entry whose reusable
span 2 + originalPayloadLen covers the requested size, else fsize (append
at end of file). -/
def firstFit (fsize size : Nat) (chain : List (Nat × Nat × Nat)) : Nat :=
  match chain with
  | [] => fsize
  | e :: rest => if size ≤ 2 + e.2.2 then e.1 else firstFit fsize size rest

/-! ## Concrete states used to exercise the theorems -/

/-- A fresh row file with a single int column. -/
def rowW : RowFileM := NewRowfileM [1]

/-- rowW after writing the row with the single int value 5: a 4-byte payload
with its 2-byte length prefix, appended at end of file (offset 4096). -/
def rwA : RowFileM := { rowW with file := rowW.file.writeAt 4096 (le16 4 ++ le32 5) }

/-- rwA after freeing the row at offset 4096: sentinel, free-node metadata,
free head 4096, header rewritten. -/
def rwB : RowFileM :=
  RowFileM.writeHeader
    { rwA with
      file := (rwA.file.writeAt 4096 (le16 65535)).writeAt 4098 (le64 0 ++ le16 4)
      firstFreePage := 4096 }

/-- rwB after writing the row with the single int value 7: the free slot at
4096 is popped (in memory only) and overwritten. -/
def rwC : RowFileM :=
  { rwB with firstFreePage := 0, file := rwB.file.writeAt 4096 (le16 4 ++ le32 7) }

/-- A fresh index file of order 3 with page 1 freed. -/
def idxW : IndexFileM := (NewIndexFileM 3).freePage 1

/-- idxW after the allocation that pops page 1 back off the free list. -/
def idxA : IndexFileM := IndexFileM.writeHeader { idxW with firstFreePage := 0 }

/-- The fresh index file of order 3 after its first (appending) allocation. -/
def idxF : IndexFileM :=
  { NewIndexFileM 3 with
    file := (NewIndexFileM 3).file.writeAt (512 + 1 * 4096) (List.replicate 4096 0) }

/-! ## General lemmas about the file model and the byte codecs -/

theorem de16_le16 (n : Nat) (h : n < 65536) : de16 (le16 n) = n := by
  simp only [de16, le16, List.getD_cons_zero, List.getD_cons_succ]
  omega

theorem de32_le32 (n : Nat) (h : n < 4294967296) : de32 (le32 n) = n := by
  simp only [de32, le32, List.getD_cons_zero, List.getD_cons_succ]
  omega

theorem de64_le64 (n : Nat) (h : n < 18446744073709551616) : de64 (le64 n) = n := by
  simp only [de64, le64, List.getD_cons_zero, List.getD_cons_succ]
  omega

/-- Reading back a region that was just written returns the written bytes
(prefix of length n when n does not exceed the buffer length). -/
theorem FileM.readAt_writeAt_self (f : FileM) (off : Nat) (buf : List Nat) (n : Nat)
    (hn : n ≤ buf.length) :
    (f.writeAt off buf).readAt off n = some (buf.take n) := by
  unfold FileM.writeAt FileM.readAt
  have hle : off + n ≤ max f.size (off + buf.length) := by
    have := Nat.add_le_add_left hn off
    omega
  simp only [hle, if_pos]
  congr 1
  apply List.ext_getElem
  · simp [Nat.min_eq_left hn]
  · intro i hi _
    simp only [List.getElem_map, List.getElem_range, List.getElem_take]
    have hiblen : off + i < off + buf.length := by
      have : i < buf.length := by
        have : i < n := by simpa using hi
        omega
      omega
    have hcond : off ≤ off + i ∧ off + i < off + buf.length := ⟨Nat.le_add_right _ _, hiblen⟩
    simp only [hcond, and_self, if_pos, Nat.add_sub_cancel_left]
    have hib : i < buf.length := by omega
    exact List.getD_eq_getElem buf 0 hib

/-- A read of a region disjoint from a write is unaffected by the write,
provided the read succeeded before the write. -/
theorem FileM.readAt_writeAt_disjoint (f : FileM) (off : Nat) (buf : List Nat)
    (off2 n : Nat) (l : List Nat)
    (hdisj : off2 + n ≤ off ∨ off + buf.length ≤ off2)
    (hread : f.readAt off2 n = some l) :
    (f.writeAt off buf).readAt off2 n = some l := by
  unfold FileM.readAt at hread ⊢
  unfold FileM.writeAt
  by_cases hb : off2 + n ≤ f.size
  · have hb2 : off2 + n ≤ max f.size (off + buf.length) := le_trans hb (Nat.le_max_left _ _)
    simp only [hb, if_pos] at hread
    simp only [hb2, if_pos]
    rw [← hread]
    congr 1
    apply List.ext_getElem
    · simp
    · intro i hi _
      simp only [List.getElem_map, List.getElem_range]
      have hno : ¬(off ≤ off2 + i ∧ off2 + i < off + buf.length) := by
        rcases hdisj with h1 | h1
        · intro hc
          have : i < n := by simpa using hi
          omega
        · intro hc
          omega
      simp [hno]
  · simp [hb] at hread

/-- Reading a subrange of a just-written buffer: the read starts inside the
written region at relative position d and stays within it. -/
theorem FileM.readAt_writeAt_inside (f : FileM) (off : Nat) (buf : List Nat)
    (d n : Nat) (hn : d + n ≤ buf.length) :
    (f.writeAt off buf).readAt (off + d) n = some ((buf.drop d).take n) := by
  unfold FileM.writeAt FileM.readAt
  have hle : off + d + n ≤ max f.size (off + buf.length) := by
    have : off + d + n ≤ off + buf.length := by omega
    omega
  simp only [hle, if_pos]
  congr 1
  apply List.ext_getElem
  · simp only [List.length_map, List.length_range, List.length_take, List.length_drop]
    omega
  · intro i hi _
    simp only [List.getElem_map, List.getElem_range, List.getElem_take, List.getElem_drop]
    have hiblen : off + d + i < off + buf.length := by
      have : i < n := by simpa using hi
      omega
    have hcond : off ≤ off + d + i ∧ off + d + i < off + buf.length :=
      ⟨by omega, hiblen⟩
    simp only [hcond, and_self, if_pos]
    have harith : off + d + i - off = d + i := by omega
    rw [harith]
    have hib : d + i < buf.length := by omega
    exact List.getD_eq_getElem buf 0 hib


/-- Reading across two adjacent writes returns the two buffers concatenated. -/
theorem FileM.readAt_writeAt_adjacent (f : FileM) (off : Nat) (b1 b2 : List Nat) :
    ((f.writeAt off b1).writeAt (off + b1.length) b2).readAt off (b1.length + b2.length) =
      some (b1 ++ b2) := by
  unfold FileM.writeAt FileM.readAt
  have hle : off + (b1.length + b2.length) ≤
      max (max f.size (off + b1.length)) (off + b1.length + b2.length) := by omega
  simp only [hle, if_pos]
  congr 1
  apply List.ext_getElem
  · simp
  · intro i hi _
    simp only [List.getElem_map, List.getElem_range]
    have hin : i < b1.length + b2.length := by simpa using hi
    by_cases h1 : i < b1.length
    · have hno : ¬(off + b1.length ≤ off + i ∧ off + i < off + b1.length + b2.length) := by omega
      have hyes : off ≤ off + i ∧ off + i < off + b1.length := ⟨by omega, by omega⟩
      simp only [hno, if_neg, not_false_iff, hyes, and_self, if_pos, Nat.add_sub_cancel_left]
      rw [List.getElem_append_left h1]
      exact List.getD_eq_getElem b1 0 h1
    · have hyes : off + b1.length ≤ off + i ∧ off + i < off + b1.length + b2.length :=
        ⟨by omega, by omega⟩
      simp only [hyes, and_self, if_pos]
      have harith : off + i - (off + b1.length) = i - b1.length := by omega
      rw [harith]
      have h2 : i - b1.length < b2.length := by omega
      rw [List.getElem_append_right (by omega)]
      exact List.getD_eq_getElem b2 0 h2

/-- The index-file header block has length 512. -/
theorem idxHeader_length (r o f : Nat) :
    (le32 0x42504C55 ++ le32 1 ++ le32 r ++ le32 o ++ le32 f ++
      List.replicate 492 0).length = 512 := by
  simp only [le32, List.length_append, List.length_replicate, List.length_cons, List.length_nil]

/-- The row-file header block has length 4096. -/
theorem rowHeader_length (cc f : Nat) (sc : List Nat) :
    (le16 cc ++ le64 f ++ (sc.take 1000 ++ List.replicate (1000 - sc.length) 0) ++
      List.replicate 3086 0).length = 4096 := by
  simp only [le16, le64, List.length_append, List.length_replicate, List.length_cons,
    List.length_nil, List.length_take]
  omega

/-- Reading inside a buffer written at offset 0. -/
theorem FileM.readAt_writeAt_zero (f : FileM) (buf : List Nat) (d n : Nat) (l : List Nat)
    (hn : d + n ≤ buf.length) (hl : (buf.drop d).take n = l) :
    (f.writeAt 0 buf).readAt d n = some l := by
  have h := FileM.readAt_writeAt_inside f 0 buf d n hn
  simp only [Nat.zero_add] at h
  rw [hl] at h
  exact h

/-- After writeHeader the on-disk index header holds the cached root and
free-list head. -/
theorem IndexFileM.writeHeader_headerMatches (idx : IndexFileM) :
    (IndexFileM.writeHeader idx).headerMatches := by
  constructor
  · exact FileM.readAt_writeAt_zero idx.file _ 8 4 _
      (by simp only [le32, List.length_append, List.length_replicate, List.length_cons,
            List.length_nil]; omega)
      (by simp only [le32, List.cons_append, List.nil_append, List.drop_succ_cons,
            List.drop_zero, List.take_succ_cons, List.take_zero]; rfl)
  · exact FileM.readAt_writeAt_zero idx.file _ 16 4 _
      (by simp only [le32, List.length_append, List.length_replicate, List.length_cons,
            List.length_nil]; omega)
      (by simp only [le32, List.cons_append, List.nil_append, List.drop_succ_cons,
            List.drop_zero, List.take_succ_cons, List.take_zero]; rfl)

/-- After writeHeader the on-disk row header holds the cached free-list
head. -/
theorem RowFileM.headerMatches_writeHeader (rw : RowFileM) :
    (RowFileM.writeHeader rw).headerMatches := by
  refine FileM.readAt_writeAt_zero rw.file _ 2 8 _
    (by simp only [le16, le64, List.length_append, List.length_replicate, List.length_cons,
          List.length_nil, List.length_take]; omega)
    ?_
  simp only [le16, le64, List.cons_append, List.nil_append, List.drop_succ_cons,
    List.drop_zero, List.take_succ_cons, List.take_zero]
  rfl

/-! ## Lemmas about the index-file free list -/

/-- A read strictly past the 512-byte header region is unaffected by
writeHeader. -/
theorem IndexFileM.readAt_writeHeader (idx : IndexFileM) (off n : Nat) (l : List Nat)
    (hoff : 512 ≤ off) (hread : idx.file.readAt off n = some l) :
    (IndexFileM.writeHeader idx).file.readAt off n = some l := by
  unfold IndexFileM.writeHeader
  apply FileM.readAt_writeAt_disjoint
  · right
    rw [idxHeader_length]
    omega
  · exact hread

/-- freePage leaves its free record readable at the freed page: deleted
flag 1 followed by the little-endian previous head. -/
theorem IndexFileM.readAt_freePage_self (idx : IndexFileM) (P : Nat) :
    (idx.freePage P).file.readAt (512 + P * 4096) 5 =
      some (1 :: le32 idx.firstFreePage) := by
  unfold IndexFileM.freePage
  apply IndexFileM.readAt_writeHeader _ _ _ _ (by omega)
  have h := FileM.readAt_writeAt_self idx.file (512 + P * 4096)
    (1 :: (le32 idx.firstFreePage ++ List.replicate 4091 0)) 5
    (by simp only [le32, List.length_cons, List.length_append, List.length_replicate,
          List.length_nil]; omega)
  rw [show (1 :: (le32 idx.firstFreePage ++ List.replicate 4091 0)).take 5 =
        1 :: le32 idx.firstFreePage from by
      simp only [le32, List.cons_append, List.take_succ_cons, List.take_zero]] at h
  exact h

/-- freePage of one page does not disturb the free record of a different
page. -/
theorem IndexFileM.readAt_freePage_other (idx : IndexFileM) (P Q : Nat) (l : List Nat)
    (hne : P ≠ Q)
    (hread : idx.file.readAt (512 + P * 4096) 5 = some l) :
    (idx.freePage Q).file.readAt (512 + P * 4096) 5 = some l := by
  unfold IndexFileM.freePage
  apply IndexFileM.readAt_writeHeader _ _ _ _ (by omega)
  apply FileM.readAt_writeAt_disjoint
  · have hlen : (1 :: (le32 idx.firstFreePage ++ List.replicate 4091 0)).length = 4096 := by
      simp only [le32, List.length_cons, List.length_append, List.length_replicate,
        List.length_nil]
    rw [hlen]
    omega
  · exact hread

/-- readFreeListPointer on a page holding an intact free record returns
the recorded next pointer. -/
theorem IndexFileM.readFreeListPointer_spec (idx : IndexFileM) (P h0 : Nat)
    (hread : idx.file.readAt (512 + P * 4096) 5 = some (1 :: le32 h0))
    (hh0 : h0 < 4294967296) :
    idx.readFreeListPointer P = .ok h0 := by
  unfold IndexFileM.readFreeListPointer
  rw [hread]
  show (if (1 :: le32 h0).getD 0 0 = 0 then Except.error "page is not marked as free"
    else Except.ok (de32 ((1 :: le32 h0).drop 1))) = Except.ok h0
  rw [if_neg (by simp : ¬ (1 :: le32 h0).getD 0 0 = 0)]
  show Except.ok (de32 (le32 h0)) = Except.ok h0
  rw [de32_le32 h0 hh0]

/-- allocatePage when the free list is nonempty and reading the head
succeeds: the head is returned and the header rewritten. -/
theorem IndexFileM.allocatePage_free_case (idx : IndexFileM)
    (hf : idx.firstFreePage ≠ 0) (nextFree : Nat)
    (hr : idx.readFreeListPointer idx.firstFreePage = .ok nextFree) :
    idx.allocatePage =
      .ok (idx.firstFreePage,
        IndexFileM.writeHeader { idx with firstFreePage := nextFree }) := by
  unfold IndexFileM.allocatePage
  rw [hr, if_pos hf]

/-- allocatePage when the free list is nonempty but reading the head
fails: the error propagates. -/
theorem IndexFileM.allocatePage_free_err (idx : IndexFileM)
    (hf : idx.firstFreePage ≠ 0) (e : String)
    (hr : idx.readFreeListPointer idx.firstFreePage = .error e) :
    idx.allocatePage = .error e := by
  unfold IndexFileM.allocatePage
  rw [hr, if_pos hf]

/-- allocatePage when the free list is empty: one zero page is appended at
the tail of the file. -/
theorem IndexFileM.allocatePage_fresh (idx : IndexFileM)
    (hf : idx.firstFreePage = 0) :
    idx.allocatePage = .ok (max ((idx.file.size - 512) / 4096) 1,
      { idx with file := idx.file.writeAt (512 + (max ((idx.file.size - 512) / 4096) 1) * 4096) (List.replicate 4096 0) }) := by
  unfold IndexFileM.allocatePage
  rw [hf]
  rw [if_neg (by simp : ¬ (0 : Nat) ≠ 0)]

/-- allocatePage pops the head of the free list when its free record is in
place: it returns the head and restores the recorded next pointer. -/
theorem IndexFileM.allocatePage_pop (idx : IndexFileM) (P h0 : Nat)
    (hP : idx.firstFreePage = P) (hPnz : P ≠ 0)
    (hread : idx.file.readAt (512 + P * 4096) 5 = some (1 :: le32 h0))
    (hh0 : h0 < 4294967296) :
    idx.allocatePage = .ok (P, IndexFileM.writeHeader { idx with firstFreePage := h0 }) := by
  have h := IndexFileM.allocatePage_free_case idx (by rw [hP]; exact hPnz) h0
    (by rw [hP]; exact IndexFileM.readFreeListPointer_spec idx P h0 hread hh0)
  rw [hP] at h
  exact h

/-! ## Lemmas inverting the row-file operations -/

/-- A read at or past offset 4096 is unaffected by the row-file
writeHeader. -/
theorem RowFileM.readAt_past_writeHeader (rw : RowFileM) (off n : Nat) (l : List Nat)
    (hoff : 4096 ≤ off) (hread : rw.file.readAt off n = some l) :
    (RowFileM.writeHeader rw).file.readAt off n = some l := by
  unfold RowFileM.writeHeader
  apply FileM.readAt_writeAt_disjoint
  · right
    rw [rowHeader_length]
    omega
  · exact hread

/-- writeHeader always leaves the row file exactly 4096 bytes long when it
was at most that long before (the fresh-file case). -/
theorem RowFileM.writeHeader_size (rw : RowFileM) (h : rw.file.size ≤ 4096) :
    (RowFileM.writeHeader rw).file.size = 4096 := by
  show max rw.file.size (0 + (le16 rw.columnCount ++ le64 rw.firstFreePage ++
    (rw.schemaCodes.take 1000 ++ List.replicate (1000 - rw.schemaCodes.length) 0) ++
    List.replicate 3086 0).length) = 4096
  rw [rowHeader_length]
  omega

/-- FreeRowAt on a live row rewrites it into a free record and persists the
header with the new free head. -/
theorem RowFileM.FreeRowAt_spec (rw : RowFileM) (off : Nat) (lenBuf : List Nat)
    (hr : rw.file.readAt off 2 = some lenBuf) (hl : de16 lenBuf ≠ 65535) :
    rw.FreeRowAt off = .ok (RowFileM.writeHeader
      { rw with
        file := (rw.file.writeAt off (le16 65535)).writeAt (off + 2)
          (le64 rw.firstFreePage ++ le16 (de16 lenBuf))
        firstFreePage := off }) := by
  unfold RowFileM.FreeRowAt
  rw [hr]
  show (if de16 lenBuf = 65535
    then (Except.error "FreeRowAt: row already freed" : Except String RowFileM)
    else .ok (RowFileM.writeHeader
      { rw with
        file := (rw.file.writeAt off (le16 65535)).writeAt (off + 2)
          (le64 rw.firstFreePage ++ le16 (de16 lenBuf))
        firstFreePage := off })) = _
  rw [if_neg hl]

/-- FreeRowAt fails when the 2-byte length cannot be read. -/
theorem RowFileM.FreeRowAt_read_fail (rw : RowFileM) (off : Nat)
    (hr : rw.file.readAt off 2 = none) :
    rw.FreeRowAt off = .error "FreeRowAt: read failed" := by
  unfold RowFileM.FreeRowAt
  rw [hr]

/-- FreeRowAt fails on an already-freed row. -/
theorem RowFileM.FreeRowAt_already_free (rw : RowFileM) (off : Nat) (lenBuf : List Nat)
    (hr : rw.file.readAt off 2 = some lenBuf) (hl : de16 lenBuf = 65535) :
    rw.FreeRowAt off = .error "FreeRowAt: row already freed" := by
  unfold RowFileM.FreeRowAt
  rw [hr]
  show (if de16 lenBuf = 65535
    then (Except.error "FreeRowAt: row already freed" : Except String RowFileM)
    else .ok (RowFileM.writeHeader
      { rw with
        file := (rw.file.writeAt off (le16 65535)).writeAt (off + 2)
          (le64 rw.firstFreePage ++ le16 (de16 lenBuf))
        firstFreePage := off })) = _
  rw [if_pos hl]

/-! ## Lemmas for the row-file allocator and WriteRow -/

theorem de16_append_le16 (m : Nat) (x : List Nat) : de16 (le16 m ++ x) = de16 (le16 m) := by
  simp only [le16, List.cons_append, List.nil_append, de16, List.getD_cons_zero,
    List.getD_cons_succ]

theorem drop_two_le16 (m : Nat) (x : List Nat) : (le16 m ++ x).drop 2 = x := by
  simp only [le16, List.cons_append, List.nil_append, List.drop_succ_cons, List.drop_zero]

theorem de64_append_le64 (h0 : Nat) (x : List Nat) : de64 (le64 h0 ++ x) = de64 (le64 h0) := by
  simp only [le64, List.cons_append, List.nil_append, de64, List.getD_cons_zero,
    List.getD_cons_succ]

theorem drop_ten_le16_le64 (m h0 : Nat) (x : List Nat) :
    (le16 m ++ (le64 h0 ++ x)).drop 10 = x := by
  simp only [le16, le64, List.cons_append, List.nil_append, List.drop_succ_cons, List.drop_zero]

/-- allocatePage with an empty free list appends at end of file. -/
theorem RowFileM.allocatePage_empty (rw : RowFileM) (size fuel : Nat)
    (hf : rw.firstFreePage = 0) :
    rw.allocatePage size (fuel + 1) = .ok (rw.file.size, rw) := by
  unfold RowFileM.allocatePage RowFileM.allocatePageLoop
  rw [hf]
  norm_num

/-- allocatePage pops the head of the free list when its free record is
intact and large enough. -/
theorem RowFileM.allocatePage_pop_head (rw : RowFileM) (size fuel O h0 L : Nat)
    (hhead : rw.firstFreePage = O) (hO : O ≠ 0)
    (hread : rw.file.readAt O 12 = some (le16 65535 ++ (le64 h0 ++ le16 L)))
    (hh0 : h0 < 18446744073709551616) (hL : L < 65536)
    (hfit : size ≤ 2 + L) :
    rw.allocatePage size (fuel + 1) = .ok (O, { rw with firstFreePage := h0 }) := by
  unfold RowFileM.allocatePage RowFileM.allocatePageLoop
  rw [hhead, if_neg hO, hread]
  simp only [de16_append_le16, drop_two_le16, drop_ten_le16_le64, de64_append_le64,
    de16_le16 65535 (by norm_num), de64_le64 h0 hh0, de16_le16 L hL]
  rw [if_neg (by omega : ¬ 65535 ≠ 65535), if_pos hfit, if_pos trivial]

/-- WriteRow with an empty free list appends the length-prefixed record at
end of file. -/
theorem RowFileM.WriteRow_eof (rw : RowFileM) (values : List RVal) (payload : List Nat)
    (fuel : Nat)
    (henc : encodeRow rw.schemaCodes values = .ok payload)
    (hlen : payload.length ≤ 65535)
    (hf : rw.firstFreePage = 0) :
    rw.WriteRow values (fuel + 1) = .ok (rw.file.size,
      { rw with file := rw.file.writeAt rw.file.size (le16 payload.length ++ payload) }) := by
  unfold RowFileM.WriteRow
  rw [henc]
  simp only [RowFileM.allocatePage_empty rw (2 + payload.length) fuel hf]
  rw [if_neg (by omega : ¬ 65535 < payload.length)]

/-- WriteRow pops the head free slot when it is intact and large enough,
and overwrites it with the new length-prefixed record; only the in-memory
free head changes. -/
theorem RowFileM.WriteRow_pop_head (rw : RowFileM) (values : List RVal) (payload : List Nat)
    (fuel O h0 L : Nat)
    (henc : encodeRow rw.schemaCodes values = .ok payload)
    (hlen : payload.length ≤ 65535)
    (hhead : rw.firstFreePage = O) (hO : O ≠ 0)
    (hread : rw.file.readAt O 12 = some (le16 65535 ++ (le64 h0 ++ le16 L)))
    (hh0 : h0 < 18446744073709551616) (hL : L < 65536)
    (hfit : payload.length ≤ L) :
    rw.WriteRow values (fuel + 1) = .ok (O,
      { rw with
        firstFreePage := h0
        file := rw.file.writeAt O (le16 payload.length ++ payload) }) := by
  unfold RowFileM.WriteRow
  rw [henc]
  simp only [RowFileM.allocatePage_pop_head rw (2 + payload.length) fuel O h0 L hhead hO hread
    hh0 hL (by omega)]
  rw [if_neg (by omega : ¬ 65535 < payload.length)]

/-! ## The concrete row-file trace rowW, rwA, rwB, rwC -/

theorem rowW_size : rowW.file.size = 4096 :=
  RowFileM.writeHeader_size _ (Nat.zero_le 4096)

theorem rowW_WriteRow : rowW.WriteRow [RVal.vint 5] 1 = .ok (4096, rwA) := by
  have h := RowFileM.WriteRow_eof rowW [RVal.vint 5] [5, 0, 0, 0] 0 (by rfl) (by norm_num) rfl
  rw [rowW_size] at h
  exact h

theorem rwA_read : rwA.file.readAt 4096 2 = some (le16 4) := by
  have h := FileM.readAt_writeAt_self rowW.file 4096 (le16 4 ++ le32 5) 2
    (by simp only [le16, le32, List.cons_append, List.length_cons, List.length_append,
          List.length_nil]; omega)
  rw [show (le16 4 ++ le32 5).take 2 = le16 4 from by
    simp only [le16, le32, List.cons_append, List.take_succ_cons, List.take_zero]] at h
  exact h

theorem rwA_FreeRowAt : rwA.FreeRowAt 4096 = .ok rwB := by
  have h := RowFileM.FreeRowAt_spec rwA 4096 (le16 4) rwA_read
    (by rw [de16_le16 4 (by norm_num)]; omega)
  exact h

theorem rwB_read12 : rwB.file.readAt 4096 12 = some (le16 65535 ++ (le64 0 ++ le16 4)) := by
  apply RowFileM.readAt_past_writeHeader _ _ _ _ (by omega)
  exact FileM.readAt_writeAt_adjacent rwA.file 4096 (le16 65535) (le64 0 ++ le16 4)

theorem rwB_WriteRow : rwB.WriteRow [RVal.vint 7] 2 = .ok (4096, rwC) := by
  have h := RowFileM.WriteRow_pop_head rwB [RVal.vint 7] [7, 0, 0, 0] 1 4096 0 4
    (by rfl) (by norm_num) rfl (by norm_num) rwB_read12 (by norm_num) (by norm_num)
    (by norm_num)
  exact h

theorem rwB_headerMatches : rwB.headerMatches :=
  RowFileM.headerMatches_writeHeader _

theorem rwC_disk : rwC.file.readAt 2 8 = some (le64 4096) := by
  apply FileM.readAt_writeAt_disjoint rwB.file 4096 (le16 4 ++ le32 7) 2 8 (le64 4096)
    (by left; omega)
  exact rwB_headerMatches

/-! ## The concrete index-file trace idxW, idxA -/

theorem idxW_alloc : idxW.allocatePage = .ok (1, idxA) := by
  have h := IndexFileM.allocatePage_pop idxW 1 0 rfl (by norm_num)
    (IndexFileM.readAt_freePage_self (NewIndexFileM 3) 1) (by norm_num)
  exact h

/-! ## C10 -/

/-- C10: ReadRowAt at an offset whose stored 2-byte length prefix is 0
returns the empty values list with no error and without decoding against
the schema: the schema codes of the row file are arbitrary here, so the
result holds even when the schema declares one or more columns. -/
theorem c10_read_row_zero_length (rw : RowFileM) (offset : Nat) (lenBuf : List Nat)
    (hread : rw.file.readAt offset 2 = some lenBuf) (hzero : de16 lenBuf = 0) :
    rw.ReadRowAt offset = .ok [] := by
  unfold RowFileM.ReadRowAt
  rw [hread]
  show (if de16 lenBuf = 65535
    then (Except.error "ReadRowAt: row is free" : Except String (List RVal))
    else if de16 lenBuf = 0 then .ok []
    else match rw.file.readAt (offset + 2) (de16 lenBuf) with
      | none => Except.error "ReadRowAt: read payload failed"
      | some payload => decodeRow payload rw.schemaCodes) = .ok []
  rw [hzero]
  norm_num

/-- C10 witness: a one-int-column row file read at an offset whose stored
length prefix is zero. -/
theorem c10_read_row_zero_length_witness : rowW.ReadRowAt 2 = .ok [] := by
  refine c10_read_row_zero_length rowW 2 [0, 0] ?_ (by rfl)
  refine FileM.readAt_writeAt_zero FileM.empty _ 2 2 [0, 0] ?_ (by rfl)
  rw [rowHeader_length]
  omega

/-! ## C9 -/

/-- C9 counterexample: at page id 2^20 the offset computed by readNode and
writeNode wraps (the uint32 multiplication overflows), so the page id does
not map to offset id*page_size + header_size as the claim states for every
page id. -/
theorem c9_counterexample :
    readNodeOffset 1048576 = 512 ∧ readNodeOffset 1048576 ≠ 1048576 * 4096 + 512 := by
  constructor
  · rfl
  · intro h
    rw [show readNodeOffset 1048576 = 512 from rfl] at h
    omega

/-- C9 (amended): allocatePage never returns page id 0; on a freshly
created index file the first allocation returns page id 1; and every page
id below 2^20 maps to on-disk offset id*page_size + header_size (so the
first real page lives at byte offset 512 + 4096), the uint32 offset
arithmetic wrapping only at or above 2^20. -/
theorem c9_allocate_page_numbering :
    (∀ (idx : IndexFileM) (P : Nat) (idx1 : IndexFileM),
        idx.allocatePage = .ok (P, idx1) → P ≠ 0) ∧
    (∀ order : Nat, (NewIndexFileM order).allocatePage =
        .ok (1, { NewIndexFileM order with
          file := (NewIndexFileM order).file.writeAt (512 + 1 * 4096)
            (List.replicate 4096 0) })) ∧
    (∀ id : Nat, id < 1048576 → readNodeOffset id = id * 4096 + 512) ∧
    readNodeOffset 1 = 512 + 4096 := by
  refine ⟨?_, ?_, ?_, by rfl⟩
  · intro idx P idx1 h
    by_cases hf : idx.firstFreePage ≠ 0
    · cases hr : idx.readFreeListPointer idx.firstFreePage with
      | error e =>
        rw [IndexFileM.allocatePage_free_err idx hf e hr] at h
        exact absurd h (by simp)
      | ok nextFree =>
        rw [IndexFileM.allocatePage_free_case idx hf nextFree hr] at h
        have h2 := (Prod.mk.injEq _ _ _ _).mp (Except.ok.inj h)
        exact h2.1 ▸ hf
    · rw [not_not] at hf
      rw [IndexFileM.allocatePage_fresh idx hf] at h
      have h2 := (Prod.mk.injEq _ _ _ _).mp (Except.ok.inj h)
      have h3 : (1 : Nat) ≤ max ((idx.file.size - 512) / 4096) 1 := le_max_right _ _
      omega
  · intro order
    have hsize : (NewIndexFileM order).file.size = 512 := by
      show max FileM.empty.size (0 + (le32 0x42504C55 ++ le32 1 ++ le32 0 ++ le32 order ++
        le32 0 ++ List.replicate 492 0).length) = 512
      rw [idxHeader_length]
      rfl
    have hmax : max (((NewIndexFileM order).file.size - 512) / 4096) 1 = 1 := by
      rw [hsize]
      rfl
    rw [IndexFileM.allocatePage_fresh (NewIndexFileM order) rfl, hmax]
  · intro id h
    unfold readNodeOffset
    have h2 : id * 4096 < 4294967296 := by omega
    rw [Nat.mod_eq_of_lt h2]
    omega

/-- C9 witness: the non-zero guarantee at the first allocation of a fresh
order-3 file, and the offset formula at page id 5. -/
theorem c9_allocate_page_numbering_witness :
    (1 : Nat) ≠ 0 ∧ readNodeOffset 5 = 5 * 4096 + 512 :=
  ⟨c9_allocate_page_numbering.1 (NewIndexFileM 3) 1
      { NewIndexFileM 3 with
        file := (NewIndexFileM 3).file.writeAt (512 + 1 * 4096) (List.replicate 4096 0) }
      (c9_allocate_page_numbering.2.1 3),
   c9_allocate_page_numbering.2.2.1 5 (by norm_num)⟩

/-! ## C6 -/

/-- C6: after freePage P the next allocatePage returns P and restores the
previous free head; after freePage P then freePage Q the next two
allocations return Q then P (LIFO) and restore the original head. -/
theorem c6_page_free_list_lifo :
    (∀ (idx : IndexFileM) (P : Nat), P ≠ 0 → idx.firstFreePage < 4294967296 →
      (idx.freePage P).allocatePage =
        .ok (P, IndexFileM.writeHeader
          { idx.freePage P with firstFreePage := idx.firstFreePage })) ∧
    (∀ (idx : IndexFileM) (P Q : Nat), P ≠ 0 → Q ≠ 0 → P ≠ Q →
      P < 4294967296 → idx.firstFreePage < 4294967296 →
      ∃ idx1 idx2,
        ((idx.freePage P).freePage Q).allocatePage = .ok (Q, idx1) ∧
        idx1.allocatePage = .ok (P, idx2) ∧
        idx1.firstFreePage = P ∧ idx2.firstFreePage = idx.firstFreePage) := by
  constructor
  · intro idx P hP hlt
    exact IndexFileM.allocatePage_pop (idx.freePage P) P idx.firstFreePage rfl hP
      (IndexFileM.readAt_freePage_self idx P) hlt
  · intro idx P Q hP hQ hne hPlt hlt
    refine ⟨IndexFileM.writeHeader
        { (idx.freePage P).freePage Q with firstFreePage := P },
      IndexFileM.writeHeader
        { IndexFileM.writeHeader { (idx.freePage P).freePage Q with firstFreePage := P } with
          firstFreePage := idx.firstFreePage }, ?_, ?_, rfl, rfl⟩
    · exact IndexFileM.allocatePage_pop ((idx.freePage P).freePage Q) Q P rfl hQ
        (IndexFileM.readAt_freePage_self (idx.freePage P) Q) hPlt
    · apply IndexFileM.allocatePage_pop _ P idx.firstFreePage rfl hP _ hlt
      apply IndexFileM.readAt_writeHeader _ _ _ _ (by omega)
      exact IndexFileM.readAt_freePage_other (idx.freePage P) P Q _ hne
        (IndexFileM.readAt_freePage_self idx P)

/-- C6 witness: a fresh order-3 index file, pages 1 and 2 freed then
reallocated in LIFO order. -/
theorem c6_page_free_list_lifo_witness :
    ∃ idx1 idx2,
      (((NewIndexFileM 3).freePage 1).freePage 2).allocatePage = .ok (2, idx1) ∧
      idx1.allocatePage = .ok (1, idx2) ∧
      idx1.firstFreePage = 1 ∧ idx2.firstFreePage = 0 :=
  c6_page_free_list_lifo.2 (NewIndexFileM 3) 1 2 (by norm_num) (by norm_num) (by norm_num)
    (by norm_num) (by show (0 : Nat) < 4294967296; norm_num)

/-! ## C4 -/

/-- C4 counterexample: starting from a fresh one-int-column row file, write
a row (offset 4096), free it (free head 4096, header persisted), then
write a second row that pops the free slot: the pop updates only the
in-memory free head (now 0) while the on-disk header still records 4096,
and Close leaves the file untouched, so the header is not rewritten after
this public operation nor on close. -/
theorem c4_counterexample :
    rowW.WriteRow [RVal.vint 5] 1 = .ok (4096, rwA) ∧
    rwA.FreeRowAt 4096 = .ok rwB ∧
    rwB.headerMatches ∧
    rwB.WriteRow [RVal.vint 7] 2 = .ok (4096, rwC) ∧
    rwC.firstFreePage = 0 ∧
    rwC.file.readAt 2 8 = some (le64 4096) ∧
    ¬ rwC.headerMatches ∧
    RowFileM.Close rwC = rwC ∧
    ¬ (RowFileM.Close rwC).headerMatches := by
  have hnot : ¬ rwC.headerMatches := by
    intro h
    unfold RowFileM.headerMatches at h
    rw [rwC_disk] at h
    have hfp : rwC.firstFreePage = 0 := rfl
    rw [hfp] at h
    have h2 := Option.some.inj h
    have h16 : (le64 4096).getD 1 0 = (le64 0).getD 1 0 := by rw [h2]
    revert h16
    decide
  exact ⟨rowW_WriteRow, rwA_FreeRowAt, rwB_headerMatches, rwB_WriteRow, rfl, rwC_disk,
    hnot, rfl, hnot⟩

/-- C4 (amended): the index file rewrites its header, leaving it equal to
the cached root and free-list head, after set_root, free_page, a
free-list-popping allocate_page, and close; the row file does so after
free_row_at.  A row-file write_row that pops a free slot, and the row
file close, do not rewrite the header: see the counterexample. -/
theorem c4_header_persistence :
    (∀ (idx : IndexFileM) (id : Nat), (idx.SetRoot id).headerMatches) ∧
    (∀ (idx : IndexFileM) (id : Nat), (idx.freePage id).headerMatches) ∧
    (∀ (idx : IndexFileM) (id : Nat) (idx1 : IndexFileM),
        idx.allocatePage = .ok (id, idx1) → idx.firstFreePage ≠ 0 → idx1.headerMatches) ∧
    (∀ idx : IndexFileM, idx.Close.headerMatches) ∧
    (∀ (rw : RowFileM) (off : Nat) (rw1 : RowFileM),
        rw.FreeRowAt off = .ok rw1 → rw1.headerMatches) := by
  refine ⟨fun idx id => IndexFileM.writeHeader_headerMatches _,
    fun idx id => IndexFileM.writeHeader_headerMatches _,
    ?_,
    fun idx => IndexFileM.writeHeader_headerMatches _,
    ?_⟩
  · intro idx id idx1 h hf
    cases hr : idx.readFreeListPointer idx.firstFreePage with
    | error e =>
      rw [IndexFileM.allocatePage_free_err idx hf e hr] at h
      exact absurd h (by simp)
    | ok nextFree =>
      rw [IndexFileM.allocatePage_free_case idx hf nextFree hr] at h
      have h2 := (Prod.mk.injEq _ _ _ _).mp (Except.ok.inj h)
      rw [← h2.2]
      exact IndexFileM.writeHeader_headerMatches _
  · intro rw off rw1 h
    cases hr : rw.file.readAt off 2 with
    | none =>
      rw [RowFileM.FreeRowAt_read_fail rw off hr] at h
      exact absurd h (by simp)
    | some lenBuf =>
      by_cases hl : de16 lenBuf = 65535
      · rw [RowFileM.FreeRowAt_already_free rw off lenBuf hr hl] at h
        exact absurd h (by simp)
      · rw [RowFileM.FreeRowAt_spec rw off lenBuf hr hl] at h
        rw [← Except.ok.inj h]
        exact RowFileM.headerMatches_writeHeader _

/-- C4 witness: the free-list-popping allocation on a concrete index file
and a concrete free_row_at both leave the header in sync. -/
theorem c4_header_persistence_witness :
    idxA.headerMatches ∧ rwB.headerMatches :=
  ⟨c4_header_persistence.2.2.1 idxW 1 idxA idxW_alloc (by show ¬ (1 : Nat) = 0; norm_num),
   c4_header_persistence.2.2.2.2 rwA 4096 rwB rwA_FreeRowAt⟩


theorem firstFit_cons (fsize size : Nat) (e : Nat × Nat × Nat) (rest : List (Nat × Nat × Nat)) :
    firstFit fsize size (e :: rest) = if size ≤ 2 + e.2.2 then e.1 else firstFit fsize size rest :=
  rfl

theorem RowFileM.allocatePageLoop_chain (fuel : Nat) :
    ∀ (rw : RowFileM) (size prev curr : Nat) (chain : List (Nat × Nat × Nat)),
      freeChainFrom rw.file curr fuel = some chain →
      ∃ rw1, rw.allocatePageLoop size prev curr fuel =
        .ok (firstFit rw.file.size size chain, rw1) := by
  induction fuel with
  | zero =>
    intro rw size prev curr chain hchain
    simp [freeChainFrom] at hchain
  | succ fuel ih =>
    intro rw size prev curr chain hchain
    unfold freeChainFrom at hchain
    by_cases hc : curr = 0
    · rw [if_pos hc] at hchain
      have hchain2 := Option.some.inj hchain
      refine ⟨rw, ?_⟩
      unfold RowFileM.allocatePageLoop
      rw [if_pos hc, ← hchain2]
      rfl
    · rw [if_neg hc] at hchain
      cases hread : rw.file.readAt curr 12 with
      | none =>
        simp only [hread] at hchain
        exact absurd hchain (by simp)
      | some header =>
        simp only [hread] at hchain
        by_cases hm : de16 header ≠ 65535
        · rw [if_pos hm] at hchain
          exact absurd hchain (by simp)
        · rw [if_neg hm] at hchain
          cases hrest : freeChainFrom rw.file (de64 (header.drop 2)) fuel with
          | none =>
            simp only [hrest] at hchain
            exact absurd hchain (by simp)
          | some rest =>
            simp only [hrest] at hchain
            have hchain2 := Option.some.inj hchain
            subst hchain2
            by_cases hfit : size ≤ 2 + de16 (header.drop 10)
            · by_cases hprev : prev = 0
              · refine ⟨{ rw with firstFreePage := de64 (header.drop 2) }, ?_⟩
                unfold RowFileM.allocatePageLoop
                rw [if_neg hc]
                simp only [hread]
                rw [if_neg hm, if_pos hfit, if_pos hprev, firstFit_cons]
                rw [if_pos hfit]
              · refine ⟨{ rw with file := rw.file.writeAt (prev + 2) (le64 (de64 (header.drop 2))) }, ?_⟩
                unfold RowFileM.allocatePageLoop
                rw [if_neg hc]
                simp only [hread]
                rw [if_neg hm, if_pos hfit, if_neg hprev, firstFit_cons]
                rw [if_pos hfit]
            · obtain ⟨rw1, hrec⟩ := ih rw size curr (de64 (header.drop 2)) rest hrest
              refine ⟨rw1, ?_⟩
              unfold RowFileM.allocatePageLoop
              rw [if_neg hc]
              simp only [hread]
              rw [if_neg hm, if_neg hfit]
              rw [hrec, firstFit_cons]
              rw [if_neg hfit]

theorem RowFileM.WriteRow_alloc (rw : RowFileM) (values : List RVal) (payload : List Nat)
    (fuel offset : Nat) (rw1 : RowFileM)
    (henc : encodeRow rw.schemaCodes values = .ok payload)
    (hlen : payload.length ≤ 65535)
    (halloc : rw.allocatePage (2 + payload.length) fuel = .ok (offset, rw1)) :
    rw.WriteRow values fuel = .ok (offset,
      { rw1 with file := rw1.file.writeAt offset (le16 payload.length ++ payload) }) := by
  unfold RowFileM.WriteRow
  rw [henc]
  simp only [halloc]
  rw [if_neg (by omega : ¬ 65535 < payload.length)]

theorem firstFit_all_small (fsize size : Nat) (chain : List (Nat × Nat × Nat))
    (h : ∀ e ∈ chain, 2 + e.2.2 < size) : firstFit fsize size chain = fsize := by
  induction chain with
  | nil => rfl
  | cons e rest ih =>
    rw [firstFit_cons, if_neg (by have := h e (by simp); omega)]
    exact ih fun x hx => h x (by simp [hx])

/-- C5: (1) after freeing the row at offset O, a WriteRow whose required
span 2 + payload length is at most O's reusable span 2 + original payload
length returns offset O; (2) the allocator walks the free chain first-fit,
returning the first slot whose reusable span covers the request, or end of
file when none does; (3) a WriteRow whose span exceeds every free slot
appends at end of file. -/
theorem c5_row_free_list_first_fit :
    (∀ (rw : RowFileM) (O : Nat) (lenBuf : List Nat) (rw1 : RowFileM)
        (values : List RVal) (payload : List Nat) (fuel : Nat),
      4096 ≤ O →
      rw.firstFreePage < 18446744073709551616 →
      rw.file.readAt O 2 = some lenBuf →
      de16 lenBuf < 65535 →
      rw.FreeRowAt O = .ok rw1 →
      encodeRow rw.schemaCodes values = .ok payload →
      2 + payload.length ≤ 2 + de16 lenBuf →
      ∃ rw2, rw1.WriteRow values (fuel + 1) = .ok (O, rw2)) ∧
    (∀ (rw : RowFileM) (size fuel : Nat) (chain : List (Nat × Nat × Nat)),
      freeChainFrom rw.file rw.firstFreePage fuel = some chain →
      ∃ rw1, rw.allocatePage size fuel = .ok (firstFit rw.file.size size chain, rw1)) ∧
    (∀ (rw : RowFileM) (values : List RVal) (payload : List Nat) (fuel : Nat)
        (chain : List (Nat × Nat × Nat)),
      freeChainFrom rw.file rw.firstFreePage fuel = some chain →
      encodeRow rw.schemaCodes values = .ok payload →
      payload.length ≤ 65535 →
      (∀ e ∈ chain, 2 + e.2.2 < 2 + payload.length) →
      ∃ rw2, rw.WriteRow values fuel = .ok (rw.file.size, rw2)) := by
  refine ⟨?_, ?_, ?_⟩
  · intro rw O lenBuf rw1 values payload fuel hO hffp hread hlen hfree henc hfit
    have hspec := RowFileM.FreeRowAt_spec rw O lenBuf hread (by omega)
    rw [hfree] at hspec
    have hrw1 := Except.ok.inj hspec
    have hread12 : rw1.file.readAt O 12 =
        some (le16 65535 ++ (le64 rw.firstFreePage ++ le16 (de16 lenBuf))) := by
      rw [hrw1]
      apply RowFileM.readAt_past_writeHeader _ _ _ _ hO
      exact FileM.readAt_writeAt_adjacent rw.file O (le16 65535)
        (le64 rw.firstFreePage ++ le16 (de16 lenBuf))
    have hhead : rw1.firstFreePage = O := by rw [hrw1]; rfl
    have hschema : rw1.schemaCodes = rw.schemaCodes := by rw [hrw1]; rfl
    refine ⟨_, RowFileM.WriteRow_pop_head rw1 values payload fuel O rw.firstFreePage
      (de16 lenBuf) (by rw [hschema]; exact henc) (by omega) hhead (by omega) hread12
      hffp (by omega) (by omega)⟩
  · intro rw size fuel chain hchain
    exact RowFileM.allocatePageLoop_chain fuel rw size 0 rw.firstFreePage chain hchain
  · intro rw values payload fuel chain hchain henc hlen hsmall
    obtain ⟨rw1, halloc⟩ := RowFileM.allocatePageLoop_chain fuel rw (2 + payload.length) 0
      rw.firstFreePage chain hchain
    rw [firstFit_all_small rw.file.size (2 + payload.length) chain hsmall] at halloc
    exact ⟨_, RowFileM.WriteRow_alloc rw values payload fuel rw.file.size rw1 henc hlen halloc⟩

/-- The free chain of rwB: a single slot at 4096 of original payload
length 4. -/
theorem rwB_chain : freeChainFrom rwB.file 4096 2 = some [(4096, 0, 4)] := by
  unfold freeChainFrom
  rw [if_neg (by norm_num : ¬ (4096 : Nat) = 0)]
  simp only [rwB_read12, de16_append_le16, drop_two_le16, de64_append_le64,
    drop_ten_le16_le64, de16_le16 65535 (by norm_num), de64_le64 0 (by norm_num),
    de16_le16 4 (by norm_num)]
  rw [show freeChainFrom rwB.file 0 1 = some [] from rfl]
  norm_num

/-- C5 witness: on the concrete trace, the freed slot at 4096 is returned
for a fitting row; the allocator picks it first-fit; and with an empty
free list WriteRow appends at end of file. -/
theorem c5_row_free_list_first_fit_witness :
    (∃ rw2, rwB.WriteRow [RVal.vint 7] 2 = .ok (4096, rw2)) ∧
    (∃ rw1, rwB.allocatePage 6 2 = .ok (4096, rw1)) ∧
    (∃ rw2, rowW.WriteRow [RVal.vint 5] 1 = .ok (rowW.file.size, rw2)) := by
  refine ⟨?_, ?_, ?_⟩
  · exact c5_row_free_list_first_fit.1 rwA 4096 (le16 4) rwB [RVal.vint 7] [7, 0, 0, 0] 1
      (by norm_num) (by show (0 : Nat) < 18446744073709551616; norm_num) rwA_read
      (by rw [de16_le16 4 (by norm_num)]; norm_num) rwA_FreeRowAt (by rfl)
      (by rw [de16_le16 4 (by norm_num)]; norm_num)
  · exact c5_row_free_list_first_fit.2.1 rwB 6 2 [(4096, 0, 4)] rwB_chain
  · exact c5_row_free_list_first_fit.2.2 rowW [RVal.vint 5] [5, 0, 0, 0] 1 [] (by rfl)
      (by rfl) (by norm_num) (by simp)


theorem int32ToUInt32_lt (i : Int) : int32ToUInt32 i < 4294967296 := by
  unfold int32ToUInt32
  omega

theorem int32_round (i : Int) (h1 : -2147483648 ≤ i) (h2 : i ≤ 2147483647) :
    uint32ToInt32 (int32ToUInt32 i) = i := by
  unfold int32ToUInt32 uint32ToInt32
  split <;> omega

theorem take_left_of_length (l1 l2 : List Nat) (n : Nat) (h : l1.length = n) :
    (l1 ++ l2).take n = l1 := by
  subst h
  exact List.take_left l1 l2

theorem drop_left_of_length (l1 l2 : List Nat) (n : Nat) (h : l1.length = n) :
    (l1 ++ l2).drop n = l2 := by
  subst h
  exact List.drop_left l1 l2

theorem decodeKey_encodeKey (k : CKey) (hk : validKey k) (rest : List Nat) :
    decodeKey (encodeKey k ++ rest) = .ok (k, (encodeKey k).length) := by
  cases k with
  | kint i =>
    unfold validKey at hk
    show (if (le32 (int32ToUInt32 i) ++ rest).length < 4
      then (Except.error "insufficient data for int key" : Except String (CKey × Nat))
      else .ok (.kint (uint32ToInt32 (de32 ((le32 (int32ToUInt32 i) ++ rest).take 4))), 5)) =
      .ok (.kint i, 5)
    rw [if_neg (by simp [le32])]
    rw [take_left_of_length _ _ 4 (by simp [le32])]
    rw [de32_le32 _ (int32ToUInt32_lt i), int32_round i hk.1 hk.2]
  | kfloat bits =>
    unfold validKey at hk
    show (if (le64 bits ++ rest).length < 8
      then (Except.error "insufficient data for float key" : Except String (CKey × Nat))
      else .ok (.kfloat (de64 ((le64 bits ++ rest).take 8)), 9)) = .ok (.kfloat bits, 9)
    rw [if_neg (by simp [le64])]
    rw [take_left_of_length _ _ 8 (by simp [le64])]
    rw [de64_le64 _ hk]
  | kstr s =>
    unfold validKey at hk
    show (if ((le16 s.length ++ s) ++ rest).length < 2
      then (Except.error "insufficient data for string key length" : Except String (CKey × Nat))
      else
        let strLen := de16 (((le16 s.length ++ s) ++ rest).take 2)
        if (((le16 s.length ++ s) ++ rest).drop 2).length < strLen
        then .error "insufficient data for string key"
        else .ok (.kstr ((((le16 s.length ++ s) ++ rest).drop 2).take strLen), 3 + strLen)) =
      .ok (.kstr s, (encodeKey (.kstr s)).length)
    rw [if_neg (by simp [le16])]
    have ht : ((le16 s.length ++ s) ++ rest).take 2 = le16 s.length := by
      rw [List.append_assoc]
      exact take_left_of_length _ _ 2 (by simp [le16])
    have hd : ((le16 s.length ++ s) ++ rest).drop 2 = s ++ rest := by
      rw [List.append_assoc]
      exact drop_left_of_length _ _ 2 (by simp [le16])
    rw [ht, hd, de16_le16 _ (by omega)]
    rw [if_neg (by simp)]
    rw [take_left_of_length _ _ s.length rfl]
    show Except.ok (CKey.kstr s, 3 + s.length) = .ok (.kstr s, (3 :: (le16 s.length ++ s)).length)
    simp [le16]
    omega

theorem encodeKey_ne_nil (k : CKey) : encodeKey k ≠ [] := by
  cases k <;> simp [encodeKey]

theorem decodePairs_encodePairs (pairs : List (CKey × List Nat)) (tail : List Nat)
    (hv : ∀ p ∈ pairs, validKey p.1 ∧ p.2.length ≤ 65535) :
    decodePairs pairs.length (encodePairs pairs ++ tail) = .ok pairs := by
  induction pairs generalizing tail with
  | nil => rfl
  | cons p rest ih =>
    have hp := hv p (by simp)
    show decodePairs (rest.length + 1)
      ((encodeKey p.1 ++ le16 p.2.length ++ p.2 ++ encodePairs rest) ++ tail) = _
    unfold decodePairs
    rw [show (encodeKey p.1 ++ le16 p.2.length ++ p.2 ++ encodePairs rest) ++ tail =
      encodeKey p.1 ++ (le16 p.2.length ++ (p.2 ++ (encodePairs rest ++ tail))) from by
        simp [List.append_assoc]]
    rw [if_neg (by
      simp only [List.length_append, List.length_nil]
      have := encodeKey_ne_nil p.1
      have : encodeKey p.1 ≠ [] := this
      intro hc
      exact this (List.eq_nil_of_length_eq_zero (by omega)))]
    rw [decodeKey_encodeKey p.1 hp.1 (le16 p.2.length ++ (p.2 ++ (encodePairs rest ++ tail)))]
    simp only []
    rw [drop_left_of_length _ _ (encodeKey p.1).length rfl]
    rw [if_neg (by simp [le16])]
    have ht2 : (le16 p.2.length ++ (p.2 ++ (encodePairs rest ++ tail))).take 2 =
        le16 p.2.length := take_left_of_length _ _ 2 (by simp [le16])
    have hd2 : (le16 p.2.length ++ (p.2 ++ (encodePairs rest ++ tail))).drop 2 =
        p.2 ++ (encodePairs rest ++ tail) := drop_left_of_length _ _ 2 (by simp [le16])
    rw [ht2, hd2, de16_le16 _ (by omega)]
    rw [if_neg (by simp)]
    rw [take_left_of_length _ _ p.2.length rfl, drop_left_of_length _ _ p.2.length rfl]
    rw [ih tail (fun q hq => hv q (by simp [hq]))]

theorem decodeKeys_encodeKeys (keys : List CKey) (tail : List Nat)
    (hv : ∀ k ∈ keys, validKey k) :
    decodeKeys keys.length (encodeKeys keys ++ tail) = .ok (keys, tail) := by
  induction keys generalizing tail with
  | nil => rfl
  | cons k rest ih =>
    have hk := hv k (by simp)
    show decodeKeys (rest.length + 1) ((encodeKey k ++ encodeKeys rest) ++ tail) = _
    unfold decodeKeys
    rw [List.append_assoc]
    rw [if_neg (by
      simp only [List.length_append]
      have h := encodeKey_ne_nil k
      intro hc
      exact h (List.eq_nil_of_length_eq_zero (by omega)))]
    rw [decodeKey_encodeKey k hk (encodeKeys rest ++ tail)]
    simp only []
    rw [drop_left_of_length _ _ (encodeKey k).length rfl]
    rw [ih tail (fun q hq => hv q (by simp [hq]))]

/-- C1 counterexample: a leaf whose next-sibling page id is 7 decodes, after
encoding, to a leaf whose next-sibling page id is 0: the encoder writes
zero placeholders for the sibling pointers, so they do not survive the
round trip as the claim states. -/
theorem c1_counterexample :
    decodeNode (encodeNode (CNode.cleaf [(.kint 1, [97])] 7 0)) =
      .ok (CNode.cleaf [(.kint 1, [97])] 0 0) ∧
    CNode.cleaf [(.kint 1, [97])] 0 0 ≠ CNode.cleaf [(.kint 1, [97])] 7 0 ∧
    decodeNode (encodeNode (CNode.cinterm [.kint 1] [3, 4])) =
      .ok (CNode.cinterm [.kint 1] []) ∧
    CNode.cinterm [.kint 1] ([] : List Nat) ≠ CNode.cinterm [.kint 1] [3, 4] := by
  refine ⟨by rfl, by decide, by rfl, by decide⟩

/-- C1 (amended): for every valid node (counts and string lengths within
the uint16 fields, int keys within int32, float bit patterns within 64
bits), decode(encode(n)) succeeds and preserves the keys and the values;
a leaf's next/prev sibling page ids decode as 0 and an internal node's
child pointer list decodes as empty, so the sibling and child pointers do
not survive the round trip. -/
theorem c1_codec_round_trip (n : CNode) (hv : validNode n) :
    decodeNode (encodeNode n) = .ok (cnodeRound n) := by
  cases n with
  | cleaf pairs next prev =>
    unfold validNode at hv
    show decodeLeafNode (le16 pairs.length ++ encodePairs pairs ++
      List.replicate 8 0 ++ List.replicate 8 0) = .ok (CNode.cleaf pairs 0 0)
    unfold decodeLeafNode
    rw [if_neg (by simp [le16])]
    rw [show le16 pairs.length ++ encodePairs pairs ++ List.replicate 8 0 ++
        List.replicate 8 0 =
      le16 pairs.length ++ (encodePairs pairs ++
        (List.replicate 8 0 ++ List.replicate 8 0)) from by simp [List.append_assoc]]
    rw [take_left_of_length _ _ 2 (by simp [le16]),
      drop_left_of_length _ _ 2 (by simp [le16])]
    rw [de16_le16 _ (by omega)]
    rw [decodePairs_encodePairs pairs _ hv.2]
  | cinterm keys ptrs =>
    unfold validNode at hv
    show decodeInternalNode (le16 keys.length ++ encodeKeys keys ++ le16 ptrs.length ++
      List.replicate (8 * ptrs.length) 0) = .ok (CNode.cinterm keys [])
    unfold decodeInternalNode
    rw [if_neg (by simp [le16])]
    rw [show le16 keys.length ++ encodeKeys keys ++ le16 ptrs.length ++
        List.replicate (8 * ptrs.length) 0 =
      le16 keys.length ++ (encodeKeys keys ++
        (le16 ptrs.length ++ List.replicate (8 * ptrs.length) 0)) from by
          simp [List.append_assoc]]
    rw [take_left_of_length _ _ 2 (by simp [le16]),
      drop_left_of_length _ _ 2 (by simp [le16])]
    rw [de16_le16 _ (by omega)]
    rw [decodeKeys_encodeKeys keys _ hv.2]
    show (if (le16 ptrs.length ++ List.replicate (8 * ptrs.length) 0).length < 2
      then (Except.error "insufficient data for pointer count" : Except String CNode)
      else .ok (.cinterm keys [])) = .ok (.cinterm keys [])
    rw [if_neg (by simp [le16])]

/-- C1 witness: the round trip on a concrete valid leaf with an int key,
a float key and a string key, and nonzero sibling ids. -/
theorem c1_codec_round_trip_witness :
    decodeNode (encodeNode (CNode.cleaf
      [(.kint (-2), [98]), (.kfloat 1078530011, [99]), (.kstr [104, 105], [])] 5 6)) =
      .ok (CNode.cleaf
        [(.kint (-2), [98]), (.kfloat 1078530011, [99]), (.kstr [104, 105], [])] 0 0) := by
  refine c1_codec_round_trip _ ?_
  refine ⟨by norm_num, ?_⟩
  intro p hp
  simp only [List.mem_cons, List.not_mem_nil, or_false] at hp
  rcases hp with h | h | h <;> subst h <;>
    exact ⟨by unfold validKey; norm_num, by norm_num⟩


/-! ## Lemmas about the leaf binary searches -/

/-- When the exact-match loop reports a hit, the hit is an in-bounds index
holding the key. -/
lemma leafBinarySearchLoop_found [LinearOrder K] (key : K) (ks : List K) :
    ∀ (fuel : Nat) (left right : Int), 0 ≤ left → right < (ks.length : Int) →
      leafBinarySearchLoop key ks left right fuel ≠ -1 →
      0 ≤ leafBinarySearchLoop key ks left right fuel ∧
      (leafBinarySearchLoop key ks left right fuel).toNat < ks.length ∧
      ks.getD (leafBinarySearchLoop key ks left right fuel).toNat key = key := by
  intro fuel
  induction fuel with
  | zero =>
    intro left right _ _ hne
    simp [leafBinarySearchLoop] at hne
  | succ fuel ih =>
    intro left right hl hr hne
    by_cases hlr : left ≤ right
    · have hd1 : 0 ≤ (right - left) / 2 := Int.ediv_nonneg (by omega) (by norm_num)
      have hd2 : (right - left) / 2 ≤ right - left := Int.ediv_le_self _ (by omega)
      simp only [leafBinarySearchLoop, if_pos hlr] at hne ⊢
      by_cases heq : ks.getD (left + (right - left) / 2).toNat key = key
      · rw [if_pos heq] at hne ⊢
        exact ⟨by omega, by omega, heq⟩
      · rw [if_neg heq] at hne ⊢
        by_cases hlt : ks.getD (left + (right - left) / 2).toNat key < key
        · rw [if_pos hlt] at hne ⊢
          exact ih _ _ (by omega) hr hne
        · rw [if_neg hlt] at hne ⊢
          exact ih _ _ hl (by omega) hne
    · simp [leafBinarySearchLoop, hlr] at hne

/-- leafBinarySearch reports a hit only at an in-bounds pair index whose
key is the probe. -/
lemma leafBinarySearch_mem [LinearOrder K] (key : K) (pairs : List (K × V))
    (h : leafBinarySearch key pairs ≠ -1) :
    (leafBinarySearch key pairs).toNat < pairs.length ∧
    (pairs.map Prod.fst).getD (leafBinarySearch key pairs).toNat key = key := by
  have hfound := leafBinarySearchLoop_found key (pairs.map Prod.fst) (pairs.length + 1)
    0 ((pairs.length : Int) - 1) le_rfl (by rw [List.length_map]; omega) h
  rw [List.length_map] at hfound
  exact ⟨hfound.2.1, hfound.2.2⟩

/-- leafBinarySearch misses every key that is not stored in the leaf. -/
lemma leafBinarySearch_not_mem [LinearOrder K] (key : K) (pairs : List (K × V))
    (h : key ∉ pairs.map Prod.fst) : leafBinarySearch key pairs = -1 := by
  by_contra hne
  obtain ⟨hlt, hgd⟩ := leafBinarySearch_mem key pairs hne
  refine h ?_
  rw [← hgd]
  have hlt2 : (leafBinarySearch key pairs).toNat < (pairs.map Prod.fst).length := by
    rw [List.length_map]; exact hlt
  rw [List.getD_eq_getElem _ _ hlt2]
  exact List.getElem_mem _

/-! ## C8 -/

/-- C8: Delete pre-checks existence via Search before any write.  On the
empty tree it fails with "tree is empty" and changes nothing; whenever the
pre-check Search fails (in particular with "key not found" for an absent
key), Delete returns that same error with the whole tree state (all
pages, the root, the free list) unchanged; and when the root page holds a
leaf that does not contain the key, the pre-check indeed fails and Delete
returns "key not found" without modification. -/
theorem c8_delete_absent_key [LinearOrder K] :
    (∀ (s : TreeState K V) (key : K) (fuel : Nat), s.root = 0 →
        s.Delete key fuel = (s, .error "tree is empty")) ∧
    (∀ (s : TreeState K V) (key : K) (fuel : Nat) (e : String),
        s.Search key fuel = .error e → s.Delete key fuel = (s, .error e)) ∧
    (∀ (s : TreeState K V) (key : K) (fuel : Nat) (pairs : List (K × V))
        (next prev : Nat), s.root ≠ 0 → s.pages s.root = some (.leaf pairs next prev) →
        key ∉ pairs.map Prod.fst →
        s.Delete key (fuel + 1) = (s, .error "key not found")) := by
  have hdel : ∀ (s : TreeState K V) (key : K) (fuel : Nat) (e : String),
      s.Search key fuel = .error e → s.Delete key fuel = (s, .error e) := by
    intro s key fuel e h
    by_cases hr : s.root = 0
    · unfold TreeState.Search at h
      rw [if_pos hr] at h
      unfold TreeState.Delete
      rw [if_pos hr]
      injection h with h
      rw [h]
    · unfold TreeState.Delete
      rw [if_neg hr, h]
  refine ⟨?_, hdel, ?_⟩
  · intro s key fuel h
    unfold TreeState.Delete
    rw [if_pos h]
  · intro s key fuel pairs next prev hr hpage hmem
    refine hdel s key (fuel + 1) "key not found" ?_
    unfold TreeState.Search
    rw [if_neg hr]
    have hread : s.readNode s.root = .ok (.leaf pairs next prev) := by
      unfold TreeState.readNode
      rw [hpage]
    rw [hread]
    show s.dfs key (.leaf pairs next prev) (fuel + 1) = .error "key not found"
    simp only [TreeState.dfs]
    rw [leafBinarySearch_not_mem key pairs hmem]
    rw [if_pos rfl]

/-- C8 witness: deleting from the empty tree fails with "tree is empty";
deleting the absent key 7 from the one-leaf tree holding only key 5 fails
with "key not found"; both leave the state untouched. -/
theorem c8_delete_absent_key_witness :
    (emptyTree 3).Delete 4 2 = (emptyTree 3, .error "tree is empty") ∧
    oneLeafTree.Delete 7 2 = (oneLeafTree, .error "key not found") := by
  constructor
  · exact c8_delete_absent_key.1 (emptyTree 3) 4 2 rfl
  · exact c8_delete_absent_key.2.2 oneLeafTree 7 1 [(5, 100)] 0 0
      (by decide) rfl (by decide)

/-! ## Lemmas about leafUpperBound on sorted leaves -/

/-- In a strictly sorted list, getD at a smaller in-bounds index is
strictly below getD at a larger in-bounds index. -/
lemma pairwise_getD_lt [LinearOrder K] (ks : List K) (hs : ks.Pairwise (· < ·))
    (i j : Nat) (hij : i < j) (hj : j < ks.length) (d d' : K) :
    ks.getD i d < ks.getD j d' := by
  have hi : i < ks.length := lt_trans hij hj
  rw [List.getD_eq_getElem _ _ hi, List.getD_eq_getElem _ _ hj]
  exact List.pairwise_iff_getElem.mp hs i j hi hj hij

/-- The insert-position loop on a sorted key list lands on the boundary:
all keys before the result are below the probe, none from the result on
are. -/
lemma leafUpperBoundLoop_spec [LinearOrder K] (key : K) (ks : List K)
    (hs : ks.Pairwise (· < ·)) :
    ∀ (fuel left right : Nat), right ≤ ks.length → left ≤ right →
      right - left ≤ fuel →
      (∀ j, j < left → ks.getD j key < key) →
      (∀ j, right ≤ j → j < ks.length → ¬ ks.getD j key < key) →
      left ≤ leafUpperBoundLoop key ks left right fuel ∧
      leafUpperBoundLoop key ks left right fuel ≤ right ∧
      (∀ j, j < leafUpperBoundLoop key ks left right fuel → ks.getD j key < key) ∧
      (∀ j, leafUpperBoundLoop key ks left right fuel ≤ j → j < ks.length →
        ¬ ks.getD j key < key) := by
  intro fuel
  induction fuel with
  | zero =>
    intro left right hr hlr hf hP hQ
    have heq : left = right := by omega
    simp only [leafUpperBoundLoop]
    subst heq
    exact ⟨le_rfl, le_rfl, hP, hQ⟩
  | succ fuel ih =>
    intro left right hr hlr hf hP hQ
    by_cases hlt : left < right
    · have hdiv : (right - left) / 2 < right - left :=
        Nat.div_lt_self (by omega) (by norm_num)
      simp only [leafUpperBoundLoop, if_pos hlt]
      by_cases hc : ks.getD (left + (right - left) / 2) key < key
      · rw [if_pos hc]
        have hP1 : ∀ j, j < left + (right - left) / 2 + 1 → ks.getD j key < key := by
          intro j hj
          rcases Nat.lt_succ_iff_lt_or_eq.mp hj with hj | hj
          · exact lt_trans (pairwise_getD_lt ks hs j _ hj (by omega) key key) hc
          · rw [hj]; exact hc
        obtain ⟨h1, h2, h3, h4⟩ := ih (left + (right - left) / 2 + 1) right hr
          (by omega) (by omega) hP1 hQ
        exact ⟨by omega, h2, h3, h4⟩
      · rw [if_neg hc]
        have hQ1 : ∀ j, left + (right - left) / 2 ≤ j → j < ks.length →
            ¬ ks.getD j key < key := by
          intro j hj hjl
          rcases eq_or_lt_of_le hj with hj | hj
          · rw [← hj]; exact hc
          · exact fun hcon =>
              hc (lt_trans (pairwise_getD_lt ks hs _ j hj hjl key key) hcon)
        obtain ⟨h1, h2, h3, h4⟩ := ih left (left + (right - left) / 2)
          (by omega) (by omega) (by omega) hP hQ1
        exact ⟨h1, by omega, h3, h4⟩
    · simp only [leafUpperBoundLoop, if_neg hlt]
      have heq : left = right := by omega
      subst heq
      exact ⟨le_rfl, le_rfl, hP, hQ⟩

/-- On a sorted leaf that stores the probe key at index i, leafUpperBound
returns exactly i, so the duplicate check of insertIntoLeaf fires. -/
lemma leafUpperBound_dup [LinearOrder K] (key : K) (pairs : List (K × V))
    (hs : (pairs.map Prod.fst).Pairwise (· < ·))
    (i : Nat) (hi : i < pairs.length)
    (hk : (pairs.map Prod.fst).getD i key = key) :
    leafUpperBound key pairs = i := by
  obtain ⟨h1, h2, h3, h4⟩ := leafUpperBoundLoop_spec key (pairs.map Prod.fst) hs
    (pairs.length + 1) 0 pairs.length (by rw [List.length_map]) (by omega) (by omega)
    (fun j hj => absurd hj (Nat.not_lt_zero j))
    (fun j hj hjl => by rw [List.length_map] at hjl; omega)
  show leafUpperBoundLoop key (pairs.map Prod.fst) 0 pairs.length (pairs.length + 1) = i
  rcases lt_trichotomy
    (leafUpperBoundLoop key (pairs.map Prod.fst) 0 pairs.length (pairs.length + 1)) i
    with h | h | h
  · exfalso
    have hnl := h4 _ le_rfl (by rw [List.length_map]; omega)
    have hlt2 := pairwise_getD_lt _ hs _ i h (by rw [List.length_map]; exact hi) key key
    rw [hk] at hlt2
    exact hnl hlt2
  · exact h
  · exfalso
    have := h3 i h
    rw [hk] at this
    exact lt_irrefl _ this

/-- insertIntoLeaf on a sorted leaf already holding the key fails with
"duplicate key" and leaves the state untouched. -/
lemma insertIntoLeaf_dup [LinearOrder K] (s : TreeState K V) (key : K) (value : V)
    (pairs : List (K × V)) (next prev pageID : Nat)
    (hs : (pairs.map Prod.fst).Pairwise (· < ·))
    (i : Nat) (hi : i < pairs.length)
    (hk : (pairs.map Prod.fst).getD i key = key) :
    s.insertIntoLeaf key value pairs next prev pageID = (s, .error "duplicate key") := by
  simp only [TreeState.insertIntoLeaf]
  rw [leafUpperBound_dup key pairs hs i hi hk]
  rw [if_pos ⟨hi, hk⟩]

/-- A successful point search certifies a stored duplicate: insertRec on
the same node then fails with "duplicate key" without touching the
state. -/
lemma dfs_ok_insertRec_dup [LinearOrder K] :
    ∀ (fuel : Nat) (s : TreeState K V) (key : K) (value : V) (n : TNode K V)
      (pid : Nat) (v : V),
      LeavesSorted s →
      (∀ pairs next prev, n = .leaf pairs next prev →
        (pairs.map Prod.fst).Pairwise (· < ·)) →
      s.dfs key n fuel = .ok v →
      s.insertRec key value n pid fuel = (s, .error "duplicate key") := by
  intro fuel
  induction fuel with
  | zero =>
    intro s key value n pid v _ _ hdfs
    simp [TreeState.dfs] at hdfs
  | succ fuel ih =>
    intro s key value n pid v hs hn hdfs
    cases n with
    | leaf pairs next prev =>
      simp only [TreeState.dfs] at hdfs
      by_cases hind : leafBinarySearch key pairs = -1
      · rw [if_pos hind] at hdfs
        simp at hdfs
      · rw [if_neg hind] at hdfs
        obtain ⟨hlt, hgd⟩ := leafBinarySearch_mem key pairs hind
        show s.insertIntoLeaf key value pairs next prev pid = _
        exact insertIntoLeaf_dup s key value pairs next prev pid
          (hn pairs next prev rfl) _ hlt hgd
    | interm keys ptrs =>
      simp only [TreeState.dfs] at hdfs
      by_cases hidx : ptrs.length ≤ upperBound key keys
      · rw [if_pos hidx] at hdfs
        simp at hdfs
      · rw [if_neg hidx] at hdfs
        cases hread : s.readNode (ptrs.getD (upperBound key keys) 0) with
        | error e =>
          simp only [hread] at hdfs
          simp at hdfs
        | ok child =>
          simp only [hread] at hdfs
          simp only [TreeState.insertRec, if_neg hidx, hread]
          have hchild : ∀ p n2 p2, child = .leaf p n2 p2 →
              (p.map Prod.fst).Pairwise (· < ·) := by
            intro p n2 p2 hc
            subst hc
            unfold TreeState.readNode at hread
            cases hp : s.pages (ptrs.getD (upperBound key keys) 0) with
            | none => rw [hp] at hread; exact absurd hread (by simp)
            | some m =>
              rw [hp] at hread
              injection hread with h
              subst h
              exact hs _ _ _ _ hp
          rw [ih s key value child _ v hs hchild hdfs]

/-! ## C7 -/

/-- C7: on a tree whose stored leaves are strictly sorted, inserting a
key that Search finds fails with "duplicate key" and leaves the whole
tree state (all pages, the root, and the free list) unchanged: the
duplicate pre-check fires before any write. -/
theorem c7_insert_duplicate [LinearOrder K] (s : TreeState K V) (key : K)
    (value : V) (v : V) (fuel : Nat) (hs : LeavesSorted s)
    (hfound : s.Search key fuel = .ok v) :
    s.Insert key value fuel = (s, .error "duplicate key") := by
  unfold TreeState.Search at hfound
  by_cases hr : s.root = 0
  · rw [if_pos hr] at hfound
    simp at hfound
  · rw [if_neg hr] at hfound
    cases hread : s.readNode s.root with
    | error e =>
      simp only [hread] at hfound
      simp at hfound
    | ok rootNode =>
      simp only [hread] at hfound
      have hroot : ∀ p n2 p2, rootNode = .leaf p n2 p2 →
          (p.map Prod.fst).Pairwise (· < ·) := by
        intro p n2 p2 hc
        subst hc
        unfold TreeState.readNode at hread
        cases hp : s.pages s.root with
        | none => rw [hp] at hread; exact absurd hread (by simp)
        | some m =>
          rw [hp] at hread
          injection hread with h
          subst h
          exact hs _ _ _ _ hp
      unfold TreeState.Insert
      rw [if_neg hr]
      simp only [hread]
      rw [dfs_ok_insertRec_dup fuel s key value rootNode s.root v hs hroot hfound]

/-- C7 witness: inserting the already-present key 5 into the one-leaf
tree fails with "duplicate key" and returns the state unchanged. -/
theorem c7_insert_duplicate_witness :
    oneLeafTree.Insert 5 101 2 = (oneLeafTree, .error "duplicate key") := by
  refine c7_insert_duplicate oneLeafTree 5 101 100 2 ?_ rfl
  intro id pairs next prev hp
  by_cases h : id = 1
  · subst h
    simp only [oneLeafTree, if_pos, Option.some.injEq, TNode.leaf.injEq] at hp
    obtain ⟨h1, h2, h3⟩ := hp
    subst h1
    decide
  · simp only [oneLeafTree] at hp
    rw [if_neg h] at hp
    exact absurd hp (by simp)

/-! ## Lemmas for RangeSearch over the leaf chain -/

/-- On a sorted leaf, the pair loop of RangeSearch appends exactly the
pairs in [startKey, endKey) and reports whether it saw a key at or beyond
endKey (the early-exit cannot drop an in-range pair). -/
lemma scanPairs_eq [LinearOrder K] (a b : K) :
    ∀ (pairs acc : List (K × V)),
      (pairs.map Prod.fst).Pairwise (· < ·) →
      scanPairs a b pairs acc =
        (acc ++ pairs.filter (fun p => decide (¬ p.1 < a ∧ p.1 < b)),
         pairs.any (fun p => decide (¬ p.1 < b))) := by
  intro pairs
  induction pairs with
  | nil =>
    intro acc _
    simp [scanPairs]
  | cons p rest ih =>
    intro acc hs
    rw [List.map_cons, List.pairwise_cons] at hs
    obtain ⟨hp, hrest⟩ := hs
    simp only [scanPairs]
    by_cases hb : p.1 < b
    · rw [if_neg (not_not_intro hb), ih _ hrest]
      by_cases ha : p.1 < a
      · rw [if_neg (fun hcon => hcon.1 ha)]
        simp [List.filter_cons, ha, hb]
      · rw [if_pos ⟨ha, hb⟩]
        simp only [List.filter_cons, List.any_cons, List.append_assoc, List.singleton_append,
          Prod.mk.injEq]
        rw [if_pos (by simp [ha, hb])]
        simp [hb]
    · rw [if_pos hb]
      have hfr : rest.filter (fun q => decide (¬ q.1 < a ∧ q.1 < b)) = [] := by
        rw [List.filter_eq_nil_iff]
        intro q hq
        have hpq : p.1 < q.1 := hp q.1 (List.mem_map_of_mem _ hq)
        simp only [decide_eq_true_eq, not_and, not_lt]
        intro _ 
        exact le_of_lt (lt_of_le_of_lt (le_of_not_lt hb) hpq)
      rw [if_neg (fun hcon => hb hcon.2)]
      simp only [List.filter_cons, List.any_cons, Prod.mk.injEq]
      rw [if_neg (by simp [hb]), hfr]
      simp [hb]

/-- Once the scan of one leaf has seen a key at or beyond endKey, nothing
later in a sorted chain passes the range filter. -/
lemma filter_rest_nil [LinearOrder K] (a b : K) (pairs rest : List (K × V))
    (hs : ((pairs ++ rest).map Prod.fst).Pairwise (· < ·))
    (hany : pairs.any (fun p => decide (¬ p.1 < b)) = true) :
    rest.filter (fun p => decide (¬ p.1 < a ∧ p.1 < b)) = [] := by
  rw [List.any_eq_true] at hany
  obtain ⟨p, hpmem, hpb⟩ := hany
  rw [decide_eq_true_eq] at hpb
  rw [List.filter_eq_nil_iff]
  intro q hq
  have hpq : p.1 < q.1 := by
    rw [List.map_append, List.pairwise_append] at hs
    exact hs.2.2 p.1 (List.mem_map_of_mem _ hpmem) q.1 (List.mem_map_of_mem _ hq)
  simp only [decide_eq_true_eq, not_and, not_lt]
  intro _
  exact le_of_lt (lt_of_le_of_lt (le_of_not_lt hpb) hpq)

/-- The leaf-chain loop of RangeSearch returns the filter of everything
stored along the chain, in chain order. -/
lemma rangeLoop_filter [LinearOrder K] :
    ∀ (fuel : Nat) (s : TreeState K V) (a b : K) (pairs : List (K × V)) (next : Nat)
      (acc allPairs : List (K × V)),
      chainPairs s pairs next fuel = some allPairs →
      (allPairs.map Prod.fst).Pairwise (· < ·) →
      s.rangeLoop a b pairs next acc fuel =
        .ok (acc ++ allPairs.filter (fun p => decide (¬ p.1 < a ∧ p.1 < b))) := by
  intro fuel
  induction fuel with
  | zero =>
    intro s a b pairs next acc allPairs hchain _
    simp [chainPairs] at hchain
  | succ fuel ih =>
    intro s a b pairs next acc allPairs hchain hs
    simp only [chainPairs] at hchain
    by_cases hn : next = 0
    · rw [if_pos hn] at hchain
      injection hchain with hchain
      subst hchain
      subst hn
      cases hany : pairs.any (fun p => decide (¬ p.1 < b)) with
      | true =>
        simp only [TreeState.rangeLoop, scanPairs_eq a b pairs acc hs, hany]
      | false =>
        simp only [TreeState.rangeLoop, scanPairs_eq a b pairs acc hs, hany]
        rw [if_neg (fun h => h rfl)]
    · rw [if_neg hn] at hchain
      cases hread : s.readNode next with
      | error e =>
        rw [hread] at hchain
        simp at hchain
      | ok child =>
        cases child with
        | interm ks ps =>
          rw [hread] at hchain
          simp at hchain
        | leaf pairs1 next1 prev1 =>
          simp only [hread] at hchain
          cases hrest : chainPairs s pairs1 next1 fuel with
          | none =>
            rw [hrest] at hchain
            simp at hchain
          | some rest =>
            rw [hrest] at hchain
            simp only [Option.map_some'] at hchain
            injection hchain with hall
            subst hall
            have hs1 : (pairs.map Prod.fst).Pairwise (· < ·) := by
              rw [List.map_append, List.pairwise_append] at hs
              exact hs.1
            have hs2 : (rest.map Prod.fst).Pairwise (· < ·) := by
              rw [List.map_append, List.pairwise_append] at hs
              exact hs.2.1
            cases hany : pairs.any (fun p => decide (¬ p.1 < b)) with
            | true =>
              simp only [TreeState.rangeLoop, scanPairs_eq a b pairs acc hs1, hany]
              rw [List.filter_append, filter_rest_nil a b pairs rest hs hany,
                List.append_nil]
            | false =>
              simp only [TreeState.rangeLoop, scanPairs_eq a b pairs acc hs1, hany,
                if_pos hn, hread]
              rw [ih s a b pairs1 next1 _ rest hrest hs2]
              rw [List.filter_append, List.append_assoc]

/-! ## C3 -/

/-- C3 counterexample: the empty tree is a reachable state (it is what a
fresh tree looks like), yet RangeSearch on it fails with "tree is empty"
instead of returning the empty list of pairs. -/
theorem c3_counterexample :
    (emptyTree 3).RangeSearch 0 5 1 = .error "tree is empty" ∧
    (emptyTree 3).RangeSearch 0 5 1 ≠ .ok [] := by
  exact ⟨rfl, fun h => Except.noConfusion h⟩

/-- C3 (amended): on a nonempty tree whose leaf chain from the leftmost
leaf enumerates allPairs in strictly increasing key order, RangeSearch
returns exactly the stored pairs with startKey ≤ k < endKey, in
ascending key order. -/
theorem c3_range_search [LinearOrder K] (s : TreeState K V) (a b : K) (fuel : Nat)
    (rootNode : TNode K V) (pairs0 : List (K × V)) (next0 prev0 : Nat)
    (allPairs : List (K × V))
    (hr : s.root ≠ 0)
    (hread : s.readNode s.root = .ok rootNode)
    (hleft : s.findLeftmostLeaf rootNode fuel = .ok (pairs0, next0, prev0))
    (hchain : chainPairs s pairs0 next0 fuel = some allPairs)
    (hs : (allPairs.map Prod.fst).Pairwise (· < ·)) :
    s.RangeSearch a b fuel =
      .ok (allPairs.filter (fun p => decide (¬ p.1 < a ∧ p.1 < b))) ∧
    ((allPairs.filter (fun p => decide (¬ p.1 < a ∧ p.1 < b))).map
      Prod.fst).Pairwise (· < ·) := by
  constructor
  · unfold TreeState.RangeSearch
    rw [if_neg hr]
    simp only [hread, hleft]
    rw [rangeLoop_filter fuel s a b pairs0 next0 [] allPairs hchain hs]
    rw [List.nil_append]
  · exact List.Pairwise.sublist (List.Sublist.map _ (List.filter_sublist _)) hs

/-- C3 witness: on the one-leaf tree, RangeSearch over [0, 10) returns
exactly the stored pair (5, 100). -/
theorem c3_range_search_witness :
    oneLeafTree.RangeSearch 0 10 2 =
      .ok ([((5 : Int), (100 : Nat))].filter
        (fun p => decide (¬ p.1 < 0 ∧ p.1 < 10))) :=
  (c3_range_search oneLeafTree 0 10 2 (.leaf [(5, 100)] 0 0) [(5, 100)] 0 0
    [(5, 100)] (by decide) rfl rfl rfl (by decide)).1


/-! ## Infrastructure for the fill-invariant proof -/

/-- writeNode touches only the written page. -/
lemma writeNode_pages (s : TreeState K V) (n : TNode K V) (id j : Nat) :
    (s.writeNode n id).pages j = if j = id then some n else s.pages j := rfl

/-- writeNode leaves the header fields alone. -/
lemma writeNode_fields (s : TreeState K V) (n : TNode K V) (id : Nat) :
    (s.writeNode n id).root = s.root ∧ (s.writeNode n id).order = s.order ∧
    (s.writeNode n id).freeList = s.freeList ∧ (s.writeNode n id).fresh = s.fresh :=
  ⟨rfl, rfl, rfl, rfl⟩

/-- countKeep is reflexive. -/
lemma countKeep_refl (a : Option (TNode K V)) : countKeep a a := Or.inl rfl

/-- countKeep out of an internal page forces equality. -/
lemma countKeep_interm (keys : List K) (ptrs : List Nat) (b : Option (TNode K V))
    (h : countKeep (some (TNode.interm keys ptrs)) b) :
    b = some (TNode.interm keys ptrs) := by
  rcases h with h | ⟨pr, nx, nx', pv, pv', h1, h2⟩
  · exact h.symm
  · exact absurd h1 (by simp)

/-- countKeep out of an empty page forces equality. -/
lemma countKeep_none (b : Option (TNode K V)) (h : countKeep none b) : b = none := by
  rcases h with h | ⟨pr, nx, nx', pv, pv', h1, h2⟩
  · exact h.symm
  · exact absurd h1 (by simp)

/-- countKeep out of a leaf page keeps the pairs. -/
lemma countKeep_leaf (pairs : List (K × V)) (next prev : Nat) (b : Option (TNode K V))
    (h : countKeep (some (TNode.leaf pairs next prev)) b) :
    ∃ next' prev', b = some (TNode.leaf pairs next' prev') := by
  rcases h with h | ⟨pr, nx, nx', pv, pv', h1, h2⟩
  · exact ⟨next, prev, h.symm⟩
  · injection h1 with h1
    injection h1 with hpr hnx hpv
    subst hpr
    exact ⟨nx', pv', h2⟩

/-- reachIds at depth 0. -/
lemma reachIds_zero (pages : Nat → Option (TNode K V)) (id : Nat) :
    reachIds pages 0 id = [id] := rfl

/-- reachIds below an internal page. -/
lemma reachIds_succ_interm (pages : Nat → Option (TNode K V)) (d id : Nat)
    (keys : List K) (ptrs : List Nat) (h : pages id = some (TNode.interm keys ptrs)) :
    reachIds pages (d + 1) id =
      id :: (ptrs.map fun p => reachIds pages d p).flatten := by
  simp only [reachIds, h]

/-- reachIds below a leaf or missing page. -/
lemma reachIds_succ_other (pages : Nat → Option (TNode K V)) (d id : Nat)
    (h : ∀ keys ptrs, pages id ≠ some (TNode.interm keys ptrs)) :
    reachIds pages (d + 1) id = [id] := by
  cases hp : pages id with
  | none => simp [reachIds, hp]
  | some n =>
    cases n with
    | leaf pr nx pv => simp [reachIds, hp]
    | interm keys ptrs => exact absurd hp (h keys ptrs)

/-- A page reaches itself. -/
lemma reachIds_self (pages : Nat → Option (TNode K V)) (d id : Nat) :
    id ∈ reachIds pages d id := by
  cases d with
  | zero => simp [reachIds]
  | succ d => simp [reachIds]

/-- A child's footprint sits inside the parent's footprint. -/
lemma reachIds_sub (pages : Nat → Option (TNode K V)) (d id p : Nat)
    (keys : List K) (ptrs : List Nat) (h : pages id = some (TNode.interm keys ptrs))
    (hp : p ∈ ptrs) : ∀ i ∈ reachIds pages d p, i ∈ reachIds pages (d + 1) id := by
  intro i hi
  rw [reachIds_succ_interm pages d id keys ptrs h]
  refine List.mem_cons_of_mem _ ?_
  rw [List.mem_flatten]
  exact ⟨reachIds pages d p, List.mem_map_of_mem _ hp, hi⟩

/-- Count-preserving page changes on the footprint keep the footprint. -/
lemma reachIds_frame (pages pages' : Nat → Option (TNode K V)) :
    ∀ (d id : Nat),
      (∀ i ∈ reachIds pages d id, countKeep (pages i) (pages' i)) →
      reachIds pages' d id = reachIds pages d id := by
  intro d
  induction d with
  | zero => intro id _; rfl
  | succ d ih =>
    intro id hk
    have hid := hk id (reachIds_self pages (d + 1) id)
    cases hp : pages id with
    | none =>
      rw [reachIds_succ_other pages' d id, reachIds_succ_other pages d id]
      · intro keys ptrs hc; rw [hp] at hc; cases hc
      · rw [hp] at hid
        have := countKeep_none _ hid
        intro keys ptrs hc; rw [this] at hc; cases hc
    | some n =>
      cases n with
      | leaf pr nx pv =>
        rw [reachIds_succ_other pages d id (by rw [hp]; intro ks ps hc; cases hc)]
        rw [hp] at hid
        obtain ⟨nx', pv', hb⟩ := countKeep_leaf pr nx pv _ hid
        rw [reachIds_succ_other pages' d id (by rw [hb]; intro ks ps hc; cases hc)]
      | interm keys ptrs =>
        rw [hp] at hid
        have hb := countKeep_interm keys ptrs _ hid
        rw [reachIds_succ_interm pages d id keys ptrs hp,
          reachIds_succ_interm pages' d id keys ptrs hb]
        congr 1
        congr 1
        refine List.map_congr_left ?_
        intro p hp2
        refine ih p ?_
        intro i hi
        exact hk i (reachIds_sub pages d id p keys ptrs hp hp2 i hi)

/-- RTree at depth 0 unfolded. -/
lemma RTree_zero (pages : Nat → Option (TNode K V)) (order mn id : Nat) :
    RTree pages order 0 mn id ↔
      ∃ pairs next prev, pages id = some (TNode.leaf pairs next prev) ∧
        mn ≤ pairs.length ∧ pairs.length ≤ order - 1 := Iff.rfl

/-- RTree at a successor depth unfolded. -/
lemma RTree_succ (pages : Nat → Option (TNode K V)) (order d mn id : Nat) :
    RTree pages order (d + 1) mn id ↔
      ∃ keys ptrs, pages id = some (TNode.interm keys ptrs) ∧
        mn ≤ keys.length ∧ keys.length ≤ order - 1 ∧
        ptrs.length = keys.length + 1 ∧
        (∀ p ∈ ptrs, RTree pages order d ((order - 1) / 2) p) ∧
        (reachIds pages (d + 1) id).Nodup := Iff.rfl

/-- The whole footprint of a realized subtree is duplicate-free. -/
lemma RTree_nodup (pages : Nat → Option (TNode K V)) (order d mn id : Nat)
    (h : RTree pages order d mn id) : (reachIds pages d id).Nodup := by
  cases d with
  | zero => simp [reachIds]
  | succ d =>
    obtain ⟨keys, ptrs, hp, h1, h2, h3, h4, h5⟩ := (RTree_succ _ _ _ _ _).mp h
    exact h5

/-- Weakening the top minimum. -/
lemma RTree_mono (pages : Nat → Option (TNode K V)) (order d mn mn' id : Nat)
    (hle : mn' ≤ mn) (h : RTree pages order d mn id) :
    RTree pages order d mn' id := by
  cases d with
  | zero =>
    obtain ⟨pr, nx, pv, hp, h1, h2⟩ := (RTree_zero _ _ _ _).mp h
    exact (RTree_zero _ _ _ _).mpr ⟨pr, nx, pv, hp, le_trans hle h1, h2⟩
  | succ d =>
    obtain ⟨keys, ptrs, hp, h1, h2, h3, h4, h5⟩ := (RTree_succ _ _ _ _ _).mp h
    exact (RTree_succ _ _ _ _ _).mpr ⟨keys, ptrs, hp, le_trans hle h1, h2, h3, h4, h5⟩

/-- The key count of a realized subtree's top node sits between the
minimum and order − 1. -/
lemma RTree_topCount (pages : Nat → Option (TNode K V)) (order d mn id : Nat)
    (h : RTree pages order d mn id) :
    ∃ c, topCount pages id = some c ∧ mn ≤ c ∧ c ≤ order - 1 := by
  cases d with
  | zero =>
    obtain ⟨pr, nx, pv, hp, h1, h2⟩ := (RTree_zero _ _ _ _).mp h
    exact ⟨pr.length, by simp [topCount, hp], h1, h2⟩
  | succ d =>
    obtain ⟨keys, ptrs, hp, h1, h2, h3, h4, h5⟩ := (RTree_succ _ _ _ _ _).mp h
    exact ⟨keys.length, by simp [topCount, hp], h1, h2⟩

/-- Strengthening the top minimum from a key-count bound. -/
lemma RTree_strengthen (pages : Nat → Option (TNode K V)) (order d mn id c : Nat)
    (h : RTree pages order d 0 id) (hc : topCount pages id = some c) (hmc : mn ≤ c) :
    RTree pages order d mn id := by
  cases d with
  | zero =>
    obtain ⟨pr, nx, pv, hp, h1, h2⟩ := (RTree_zero _ _ _ _).mp h
    refine (RTree_zero _ _ _ _).mpr ⟨pr, nx, pv, hp, ?_, h2⟩
    simp only [topCount, hp] at hc
    injection hc with hc
    omega
  | succ d =>
    obtain ⟨keys, ptrs, hp, h1, h2, h3, h4, h5⟩ := (RTree_succ _ _ _ _ _).mp h
    refine (RTree_succ _ _ _ _ _).mpr ⟨keys, ptrs, hp, ?_, h2, h3, h4, h5⟩
    simp only [topCount, hp] at hc
    injection hc with hc
    omega

/-- Count-preserving changes on the footprint keep the realization. -/
lemma RTree_frame (pages pages' : Nat → Option (TNode K V)) (order : Nat) :
    ∀ (d mn id : Nat),
      (∀ i ∈ reachIds pages d id, countKeep (pages i) (pages' i)) →
      RTree pages order d mn id → RTree pages' order d mn id := by
  intro d
  induction d with
  | zero =>
    intro mn id hk h
    obtain ⟨pr, nx, pv, hp, h1, h2⟩ := (RTree_zero _ _ _ _).mp h
    have hid := hk id (reachIds_self pages 0 id)
    rw [hp] at hid
    obtain ⟨nx', pv', hb⟩ := countKeep_leaf pr nx pv _ hid
    exact (RTree_zero _ _ _ _).mpr ⟨pr, nx', pv', hb, h1, h2⟩
  | succ d ih =>
    intro mn id hk h
    obtain ⟨keys, ptrs, hp, h1, h2, h3, h4, h5⟩ := (RTree_succ _ _ _ _ _).mp h
    have hid := hk id (reachIds_self pages (d + 1) id)
    rw [hp] at hid
    have hb := countKeep_interm keys ptrs _ hid
    refine (RTree_succ _ _ _ _ _).mpr ⟨keys, ptrs, hb, h1, h2, h3, ?_, ?_⟩
    · intro p hpm
      refine ih ((order - 1) / 2) p ?_ (h4 p hpm)
      intro i hi
      exact hk i (reachIds_sub pages d id p keys ptrs hp hpm i hi)
    · rw [reachIds_frame pages pages' (d + 1) id hk]
      exact h5

/-- insertAt at an in-range index is take-cons-drop. -/
lemma insertAtGo_eq {α : Type} (l : List α) (i : Nat) (a : α) (h : i ≤ l.length) :
    insertAtGo l i a = l.take i ++ a :: l.drop i := by
  unfold insertAtGo
  rw [if_neg (by omega)]

/-- insertAt at an in-range index grows the list by one. -/
lemma insertAtGo_length {α : Type} (l : List α) (i : Nat) (a : α) (h : i ≤ l.length) :
    (insertAtGo l i a).length = l.length + 1 := by
  rw [insertAtGo_eq l i a h]
  simp only [List.length_append, List.length_take, List.length_cons, List.length_drop]
  omega

/-- Everything in an insertAt result is the new element or an old one. -/
lemma mem_insertAtGo {α : Type} (l : List α) (i : Nat) (a x : α)
    (h : x ∈ insertAtGo l i a) : x = a ∨ x ∈ l := by
  unfold insertAtGo at h
  by_cases hi : l.length < i
  · rw [if_pos hi] at h
    exact Or.inr h
  · rw [if_neg hi] at h
    rcases List.mem_append.mp h with h | h
    · exact Or.inr (List.mem_of_mem_take h)
    · rcases List.mem_cons.mp h with h | h
      · exact Or.inl h
      · exact Or.inr (List.mem_of_mem_drop h)

/-- removeAt at an in-range index shrinks the list by one. -/
lemma removeAtGo_length {α : Type} (l : List α) (i : Nat) (h : i < l.length) :
    (removeAtGo l i).length + 1 = l.length := by
  unfold removeAtGo
  rw [if_pos h]
  simp only [List.length_append, List.length_take, List.length_drop]
  omega

/-- Everything in a removeAt result already sat in the list. -/
lemma mem_removeAtGo {α : Type} (l : List α) (i : Nat) (x : α)
    (h : x ∈ removeAtGo l i) : x ∈ l := by
  unfold removeAtGo at h
  by_cases hi : i < l.length
  · rw [if_pos hi] at h
    rcases List.mem_append.mp h with h | h
    · exact List.mem_of_mem_take h
    · exact List.mem_of_mem_drop h
  · rw [if_neg hi] at h
    exact h

/-- The upperBound loop never exceeds its right bound. -/
lemma upperBoundLoop_le [LinearOrder K] (key : K) (keys : List K) :
    ∀ (fuel left right : Nat), left ≤ right →
      upperBoundLoop key keys left right fuel ≤ right := by
  intro fuel
  induction fuel with
  | zero => intro left right h; simpa [upperBoundLoop] using h
  | succ fuel ih =>
    intro left right h
    by_cases hlt : left < right
    · have hdiv : (right - left) / 2 < right - left :=
        Nat.div_lt_self (by omega) (by norm_num)
      simp only [upperBoundLoop, if_pos hlt]
      by_cases hc : ¬ key < keys.getD (left + (right - left) / 2) key
      · rw [if_pos hc]
        exact ih _ _ (by omega)
      · rw [if_neg hc]
        exact le_trans (ih _ _ (by omega)) (by omega)
    · simpa [upperBoundLoop, if_neg hlt] using h

/-- upperBound never exceeds the key count. -/
lemma upperBound_le [LinearOrder K] (key : K) (keys : List K) :
    upperBound key keys ≤ keys.length :=
  upperBoundLoop_le key keys (keys.length + 1) 0 keys.length (Nat.zero_le _)

/-- The leafUpperBound loop never exceeds its right bound. -/
lemma leafUpperBoundLoop_le [LinearOrder K] (key : K) (ks : List K) :
    ∀ (fuel left right : Nat), left ≤ right →
      leafUpperBoundLoop key ks left right fuel ≤ right := by
  intro fuel
  induction fuel with
  | zero => intro left right h; simpa [leafUpperBoundLoop] using h
  | succ fuel ih =>
    intro left right h
    by_cases hlt : left < right
    · have hdiv : (right - left) / 2 < right - left :=
        Nat.div_lt_self (by omega) (by norm_num)
      simp only [leafUpperBoundLoop, if_pos hlt]
      by_cases hc : ks.getD (left + (right - left) / 2) key < key
      · rw [if_pos hc]
        exact ih _ _ (by omega)
      · rw [if_neg hc]
        exact le_trans (ih _ _ (by omega)) (by omega)
    · simpa [leafUpperBoundLoop, if_neg hlt] using h

/-- leafUpperBound never exceeds the pair count. -/
lemma leafUpperBound_le [LinearOrder K] (key : K) (pairs : List (K × V)) :
    leafUpperBound key pairs ≤ pairs.length :=
  leafUpperBoundLoop_le key (pairs.map Prod.fst) (pairs.length + 1) 0 pairs.length
    (Nat.zero_le _)

/-- What allocatePage guarantees under sound bookkeeping: the returned
page is fresh for the old state, live in the new one, pages and header
are untouched, and liveness of other pages is preserved. -/
lemma allocPage_spec (s : TreeState K V) (rid : Nat) (s1 : TreeState K V)
    (hW : WfFree s) (h : s.allocPage = (rid, s1)) :
    s1.pages = s.pages ∧ s1.root = s.root ∧ s1.order = s.order ∧ WfFree s1 ∧
    ¬ pageOk s rid ∧ pageOk s1 rid ∧ (∀ i, pageOk s i → pageOk s1 i) ∧
    s.fresh ≤ s1.fresh := by
  obtain ⟨ho, hf, hnd, hfl⟩ := hW
  unfold TreeState.allocPage at h
  cases hl : s.freeList with
  | nil =>
    rw [hl] at h
    injection h with h1 h2
    subst h1
    subst h2
    refine ⟨rfl, rfl, rfl, ⟨ho, Nat.lt_succ_of_lt hf, List.nodup_nil, ?_⟩, ?_, ?_, ?_, ?_⟩
    · intro i hi
      exact absurd hi (List.not_mem_nil i)
    · intro hok
      exact absurd hok.2.1 (lt_irrefl _)
    · refine ⟨by omega, ?_, List.not_mem_nil _⟩
      show s.fresh < s.fresh + 1
      omega
    · intro i hok
      refine ⟨hok.1, ?_, List.not_mem_nil _⟩
      show i < s.fresh + 1
      exact Nat.lt_succ_of_lt hok.2.1
    · exact Nat.le_succ _
  | cons hd tl =>
    rw [hl] at h
    injection h with h1 h2
    subst h1
    subst h2
    have hhd := hfl hd (by rw [hl]; exact List.mem_cons_self _ _)
    rw [hl] at hnd
    refine ⟨rfl, rfl, rfl, ⟨ho, hf, ?_, ?_⟩, ?_, ?_, ?_, ?_⟩
    · exact (List.nodup_cons.mp hnd).2
    · intro i hi
      exact hfl i (by rw [hl]; exact List.mem_cons_of_mem _ hi)
    · intro hok
      exact absurd (by rw [hl]; exact List.mem_cons_self _ _) hok.2.2
    · exact ⟨hhd.1, hhd.2, (List.nodup_cons.mp hnd).1⟩
    · intro i hok
      refine ⟨hok.1, hok.2.1, ?_⟩
      intro hmem
      exact hok.2.2 (by rw [hl]; exact List.mem_cons_of_mem _ hmem)
    · simp

/-- Liveness only looks at the allocator fields. -/
lemma pageOk_congr (s t : TreeState K V) (i : Nat) (h1 : s.fresh = t.fresh)
    (h2 : s.freeList = t.freeList) : pageOk s i ↔ pageOk t i := by
  simp [pageOk, h1, h2]

/-- What freePage does under sound bookkeeping: the page dies, the free
list gains it, everything else keeps its liveness. -/
lemma freePage_spec (s : TreeState K V) (id : Nat) (hW : WfFree s)
    (hok : pageOk s id) :
    (∀ j, (s.freePage id).pages j = if j = id then none else s.pages j) ∧
    (s.freePage id).root = s.root ∧ (s.freePage id).order = s.order ∧
    (s.freePage id).fresh = s.fresh ∧ WfFree (s.freePage id) ∧
    (∀ i, pageOk (s.freePage id) i → pageOk s i) ∧ ¬ pageOk (s.freePage id) id := by
  obtain ⟨ho, hf, hnd, hfl⟩ := hW
  refine ⟨fun j => rfl, rfl, rfl, rfl, ⟨ho, hf, ?_, ?_⟩, ?_, ?_⟩
  · exact List.nodup_cons.mpr ⟨hok.2.2, hnd⟩
  · intro i hi
    rcases List.mem_cons.mp hi with hi | hi
    · subst hi
      exact ⟨hok.1, hok.2.1⟩
    · exact hfl i hi
  · intro i hoki
    refine ⟨hoki.1, hoki.2.1, ?_⟩
    intro hmem
    exact hoki.2.2 (List.mem_cons_of_mem _ hmem)
  · intro hoki
    exact hoki.2.2 (List.mem_cons_self _ _)

/-- Common tail of the leaf-split argument: after allocating the right
page and possibly patching the old right neighbour's back link, writing
the two halves yields the split form of insOut. -/
lemma insertLeafSplit_out (s s1 s2 s' : TreeState K V) (id rid mn : Nat) (k' : K)
    (leftPairs rightPairs : List (K × V)) (nl nr pl pr2 : Nat)
    (hroot : s1.root = s.root) (hord : s1.order = s.order) (hW1 : WfFree s1)
    (hmono : ∀ i, pageOk s i → pageOk s1 i)
    (hnotok : ¬ pageOk s rid) (hokrid : pageOk s1 rid) (hokid : pageOk s id)
    (hck : ∀ j, countKeep (s.pages j) (s2.pages j))
    (hhdr : s2.root = s1.root ∧ s2.order = s1.order ∧ s2.freeList = s1.freeList ∧
      s2.fresh = s1.fresh)
    (hs' : s' = (s2.writeNode (.leaf leftPairs nl pl) id).writeNode
      (.leaf rightPairs nr pr2) rid)
    (hlenL : (s.order - 1) / 2 ≤ leftPairs.length ∧ leftPairs.length ≤ s.order - 1)
    (hlenR : (s.order - 1) / 2 ≤ rightPairs.length ∧ rightPairs.length ≤ s.order - 1) :
    insOut s s' 0 mn id (some (k', rid)) := by
  have hne : id ≠ rid := fun h => hnotok (h ▸ hokid)
  have hfl' : s'.freeList = s1.freeList := by rw [hs']; exact hhdr.2.2.1
  have hfr' : s'.fresh = s1.fresh := by rw [hs']; exact hhdr.2.2.2
  have hokc : ∀ i, pageOk s' i ↔ pageOk s1 i := fun i =>
    pageOk_congr _ _ i hfr' hfl'
  have hpid : s'.pages id = some (TNode.leaf leftPairs nl pl) := by
    rw [hs', writeNode_pages, if_neg hne, writeNode_pages, if_pos rfl]
  have hprid : s'.pages rid = some (TNode.leaf rightPairs nr pr2) := by
    rw [hs', writeNode_pages, if_pos rfl]
  refine ⟨by rw [hs']; exact hhdr.1.trans hroot, by rw [hs']; exact hhdr.2.1.trans hord,
    ?_, ?_, ?_, ?_, ?_, ?_, ?_⟩
  · have hordeq : s'.order = s1.order := by rw [hs']; exact hhdr.2.1
    obtain ⟨a, b, c, d⟩ := hW1
    exact ⟨by rw [hordeq]; exact a, by rw [hfr']; exact b,
      by rw [hfl']; exact c, by rw [hfl', hfr']; exact d⟩
  · intro i hoki
    exact (hokc i).mpr (hmono i hoki)
  · intro j hj hokj
    rw [reachIds_zero] at hj
    have hjid : j ≠ id := fun h => hj (h ▸ List.mem_singleton_self id)
    have hjrid : j ≠ rid := fun h => hnotok (h ▸ hokj)
    rw [hs', writeNode_pages, if_neg hjrid, writeNode_pages, if_neg hjid]
    exact hck j
  · exact (RTree_zero _ _ _ _).mpr ⟨leftPairs, nl, pl, hpid, hlenL.1, hlenL.2⟩
  · exact (RTree_zero _ _ _ _).mpr ⟨rightPairs, nr, pr2, hprid, hlenR.1, hlenR.2⟩
  · rw [reachIds_zero, reachIds_zero]
    simp [hne]
  · intro i hi
    rw [reachIds_zero, reachIds_zero] at hi
    simp only [List.cons_append, List.nil_append, List.mem_cons,
      List.not_mem_nil, or_false, List.mem_singleton] at hi
    rcases hi with hi | hi
    · subst hi
      exact ⟨(hokc _).mpr (hmono _ hokid), Or.inl (by rw [reachIds_zero]; exact List.mem_singleton_self _)⟩
    · subst hi
      exact ⟨(hokc _).mpr hokrid, Or.inr hnotok⟩

/-- What a successful insertIntoLeaf guarantees: the no-split path grows
the leaf by one pair in place; the split path produces two halves meeting
the non-root minimum, on the old page and a freshly allocated one. -/
lemma insertIntoLeaf_spec [LinearOrder K] (s s' : TreeState K V) (key : K) (value : V)
    (pairs : List (K × V)) (next prev id : Nat) (res : Option (K × Nat)) (mn : Nat)
    (hW : WfFree s)
    (hpage : s.pages id = some (TNode.leaf pairs next prev))
    (hmn : mn ≤ pairs.length) (hcnt : pairs.length ≤ s.order - 1)
    (hok : pageOk s id)
    (hrun : s.insertIntoLeaf key value pairs next prev id = (s', .ok res)) :
    insOut s s' 0 mn id res := by
  have hidx : leafUpperBound key pairs ≤ pairs.length := leafUpperBound_le key pairs
  have horder : 3 ≤ s.order := hW.1
  simp only [TreeState.insertIntoLeaf] at hrun
  by_cases hdup : leafUpperBound key pairs < pairs.length ∧
      (pairs.map Prod.fst).getD (leafUpperBound key pairs) key = key
  · rw [if_pos hdup] at hrun
    exact absurd hrun (by simp)
  · rw [if_neg hdup] at hrun
    have hnslen : (insertAtGo pairs (leafUpperBound key pairs) (key, value)).length =
        pairs.length + 1 := insertAtGo_length _ _ _ hidx
    by_cases hsplit :
        (insertAtGo pairs (leafUpperBound key pairs) (key, value)).length < s.order
    · rw [if_pos hsplit] at hrun
      injection hrun with h1 h2
      injection h2 with h2
      subst h2
      subst h1
      refine ⟨rfl, rfl, hW, fun i h => h, ?_, ?_, ?_⟩
      · intro j hj hokj
        rw [reachIds_zero] at hj
        have hjid : j ≠ id := fun h => hj (h ▸ List.mem_singleton_self id)
        rw [writeNode_pages, if_neg hjid]
        exact countKeep_refl _
      · refine (RTree_zero _ _ _ _).mpr
          ⟨insertAtGo pairs (leafUpperBound key pairs) (key, value), next, prev,
            by rw [writeNode_pages, if_pos rfl], by omega, by omega⟩
      · intro i hi
        rw [reachIds_zero] at hi
        rcases List.mem_singleton.mp hi with hi
        subst hi
        exact ⟨hok, Or.inl (by rw [reachIds_zero]; exact List.mem_singleton_self _)⟩
    · rw [if_neg hsplit] at hrun
      have hnseq : (insertAtGo pairs (leafUpperBound key pairs) (key, value)).length =
          s.order := by omega
      cases halloc : s.allocPage with
      | mk rid s1 =>
        simp only [halloc] at hrun
        obtain ⟨hpg1, hroot1, hord1, hW1, hnok, hok1, hmono1, hfr1⟩ :=
          allocPage_spec s rid s1 hW halloc
        have hlenL : (s.order - 1) / 2 ≤
            ((insertAtGo pairs (leafUpperBound key pairs) (key, value)).take
              ((insertAtGo pairs (leafUpperBound key pairs) (key, value)).length / 2)).length ∧
            ((insertAtGo pairs (leafUpperBound key pairs) (key, value)).take
              ((insertAtGo pairs (leafUpperBound key pairs) (key, value)).length / 2)).length ≤
              s.order - 1 := by
          rw [List.length_take]
          omega
        have hlenR : (s.order - 1) / 2 ≤
            ((insertAtGo pairs (leafUpperBound key pairs) (key, value)).drop
              ((insertAtGo pairs (leafUpperBound key pairs) (key, value)).length / 2)).length ∧
            ((insertAtGo pairs (leafUpperBound key pairs) (key, value)).drop
              ((insertAtGo pairs (leafUpperBound key pairs) (key, value)).length / 2)).length ≤
              s.order - 1 := by
          rw [List.length_drop]
          omega
        by_cases hnx : next ≠ 0
        · rw [if_pos hnx] at hrun
          cases hrd : s1.readNode next with
          | error e =>
            simp only [hrd] at hrun
            exact absurd hrun (by simp)
          | ok n2 =>
            cases n2 with
            | leaf npairs nnext nprev =>
              simp only [hrd] at hrun
              injection hrun with h1 h2
              injection h2 with h2
              subst h2
              subst h1
              refine insertLeafSplit_out s s1
                (s1.writeNode (TNode.leaf npairs nnext rid) next) _ id rid mn _
                _ _ _ _ _ _
                hroot1 hord1 hW1 hmono1 hnok hok1 hok ?_ ⟨rfl, rfl, rfl, rfl⟩ rfl
                hlenL hlenR
              intro j
              by_cases hj : j = next
              · subst hj
                rw [writeNode_pages, if_pos rfl]
                have : s.pages j = some (TNode.leaf npairs nnext nprev) := by
                  unfold TreeState.readNode at hrd
                  rw [hpg1] at hrd
                  cases hp2 : s.pages j with
                  | none => rw [hp2] at hrd; cases hrd
                  | some m => rw [hp2] at hrd; injection hrd with hm; rw [hm]
                rw [this]
                exact Or.inr ⟨npairs, nnext, nnext, nprev, rid, rfl, rfl⟩
              · rw [writeNode_pages, if_neg hj, hpg1]
                exact countKeep_refl _
            | interm ks ps =>
              simp only [hrd] at hrun
              injection hrun with h1 h2
              injection h2 with h2
              subst h2
              subst h1
              refine insertLeafSplit_out s s1 s1 _ id rid mn _ _ _ _ _ _ _
                hroot1 hord1 hW1 hmono1 hnok hok1 hok ?_ ⟨rfl, rfl, rfl, rfl⟩ rfl
                hlenL hlenR
              intro j
              rw [hpg1]
              exact countKeep_refl _
        · rw [if_neg hnx] at hrun
          injection hrun with h1 h2
          injection h2 with h2
          subst h2
          subst h1
          refine insertLeafSplit_out s s1 s1 _ id rid mn _ _ _ _ _ _ _
            hroot1 hord1 hW1 hmono1 hnok hok1 hok ?_ ⟨rfl, rfl, rfl, rfl⟩ rfl
            hlenL hlenR
          intro j
          rw [hpg1]
          exact countKeep_refl _

/-- Members of an in-range insertAt result: the new element or an old one,
and conversely. -/
lemma mem_insertAtGo_iff {α : Type} (l : List α) (i : Nat) (a x : α)
    (h : i ≤ l.length) : x ∈ insertAtGo l i a ↔ x = a ∨ x ∈ l := by
  rw [insertAtGo_eq l i a h]
  constructor
  · intro hx
    rcases List.mem_append.mp hx with hx | hx
    · exact Or.inr (List.mem_of_mem_take hx)
    · rcases List.mem_cons.mp hx with hx | hx
      · exact Or.inl hx
      · exact Or.inr (List.mem_of_mem_drop hx)
  · intro hx
    rcases hx with hx | hx
    · exact List.mem_append.mpr (Or.inr (List.mem_cons.mpr (Or.inl hx)))
    · rcases List.mem_append.mp ((List.take_append_drop i l).symm ▸ hx) with hx | hx
      · exact List.mem_append.mpr (Or.inl hx)
      · exact List.mem_append.mpr (Or.inr (List.mem_cons.mpr (Or.inr hx)))

/-- insertAt keeps a duplicate-free list duplicate-free when the new
element is fresh. -/
lemma insertAtGo_nodup {α : Type} (l : List α) (i : Nat) (a : α)
    (hn : l.Nodup) (ha : a ∉ l) (h : i ≤ l.length) : (insertAtGo l i a).Nodup := by
  rw [insertAtGo_eq l i a h]
  have hl := hn
  rw [← List.take_append_drop i l, List.nodup_append] at hl
  obtain ⟨h1, h2, h3⟩ := hl
  rw [List.nodup_append]
  refine ⟨h1, ?_, ?_⟩
  · rw [List.nodup_cons]
    exact ⟨fun hc => ha (List.mem_of_mem_drop hc), h2⟩
  · intro x hx hc
    rcases List.mem_cons.mp hc with hc | hc
    · exact ha (hc ▸ List.mem_of_mem_take hx)
    · exact h3 hx hc

/-- A list is duplicate-free when every element owns a footprint
containing itself and the footprints are pairwise disjoint. -/
lemma nodup_of_disjoint_reaches (ptrs : List Nat) (f : Nat → List Nat)
    (hself : ∀ p ∈ ptrs, p ∈ f p)
    (hdis : (ptrs.map f).Pairwise List.Disjoint) : ptrs.Nodup := by
  have hp := List.pairwise_map.mp hdis
  refine List.Pairwise.imp_of_mem ?_ hp
  intro a b ha hb hd
  intro hab
  subst hab
  exact hd (hself a ha) (hself a ha)

/-- Assembling an internal node's realization from realized, pairwise
disjoint children that avoid the parent page. -/
lemma RTree_node_build (pages : Nat → Option (TNode K V)) (order d mn id : Nat)
    (keys : List K) (ptrs : List Nat)
    (hp : pages id = some (TNode.interm keys ptrs))
    (hk1 : mn ≤ keys.length) (hk2 : keys.length ≤ order - 1)
    (hk3 : ptrs.length = keys.length + 1)
    (hch : ∀ p ∈ ptrs, RTree pages order d ((order - 1) / 2) p)
    (hdisj : (ptrs.map (reachIds pages d)).Pairwise List.Disjoint)
    (hid : ∀ p ∈ ptrs, id ∉ reachIds pages d p) :
    RTree pages order (d + 1) mn id := by
  refine (RTree_succ _ _ _ _ _).mpr ⟨keys, ptrs, hp, hk1, hk2, hk3, hch, ?_⟩
  rw [reachIds_succ_interm pages d id keys ptrs hp]
  rw [List.nodup_cons, List.nodup_flatten]
  refine ⟨?_, ?_, hdisj⟩
  · rw [List.mem_flatten]
    rintro ⟨l, hl, hidl⟩
    obtain ⟨p, hpm, hpe⟩ := List.mem_map.mp hl
    exact hid p hpm (hpe ▸ hidl)
  · intro l hl
    obtain ⟨p, hpm, hpe⟩ := List.mem_map.mp hl
    exact hpe ▸ RTree_nodup pages order d _ p (hch p hpm)

/-- Splitting an internal node's realization into its parts, including
pairwise disjointness of the children's footprints. -/
lemma RTree_succ_parts (pages : Nat → Option (TNode K V)) (order d mn id : Nat)
    (keys : List K) (ptrs : List Nat)
    (h : RTree pages order (d + 1) mn id)
    (hp : pages id = some (TNode.interm keys ptrs)) :
    mn ≤ keys.length ∧ keys.length ≤ order - 1 ∧ ptrs.length = keys.length + 1 ∧
    (∀ p ∈ ptrs, RTree pages order d ((order - 1) / 2) p) ∧
    (ptrs.map (reachIds pages d)).Pairwise List.Disjoint ∧
    (∀ p ∈ ptrs, id ∉ reachIds pages d p) ∧ ptrs.Nodup := by
  obtain ⟨keys0, ptrs0, hp0, h1, h2, h3, h4, h5⟩ := (RTree_succ _ _ _ _ _).mp h
  rw [hp] at hp0
  injection hp0 with hp0
  injection hp0 with ek ep
  subst ek
  subst ep
  rw [reachIds_succ_interm pages d id keys ptrs hp, List.nodup_cons,
    List.nodup_flatten] at h5
  obtain ⟨hid, hnd, hdisj⟩ := h5
  have hidm : ∀ p ∈ ptrs, id ∉ reachIds pages d p := by
    intro p hpm hc
    exact hid (List.mem_flatten.mpr ⟨reachIds pages d p, List.mem_map_of_mem _ hpm, hc⟩)
  refine ⟨h1, h2, h3, h4, hdisj, hidm, ?_⟩
  exact nodup_of_disjoint_reaches ptrs _ (fun p _ => reachIds_self pages d p) hdisj

/-- Rebuilding a parent from realized, pairwise disjoint children that
avoid the parent page, in the final state of a step. -/
lemma parent_rebuild (s t : TreeState K V) (d mn id : Nat) (R : List Nat)
    (keys' : List K) (ptrs' : List Nat)
    (hp : t.pages id = some (TNode.interm keys' ptrs'))
    (hk1 : mn ≤ keys'.length) (hk2 : keys'.length ≤ s.order - 1)
    (hk3 : ptrs'.length = keys'.length + 1)
    (hch : ∀ p ∈ ptrs', RTree t.pages s.order d ((s.order - 1) / 2) p)
    (hdis : ∀ p ∈ ptrs', ∀ q ∈ ptrs', p ≠ q →
        List.Disjoint (reachIds t.pages d p) (reachIds t.pages d q))
    (hptrsnd : ptrs'.Nodup)
    (hidnot : ∀ p ∈ ptrs', id ∉ reachIds t.pages d p)
    (hcl : ∀ p ∈ ptrs', ∀ i ∈ reachIds t.pages d p,
        pageOk t i ∧ (i ∈ R ∨ ¬ pageOk s i))
    (hoktid : pageOk t id) (hhead : id ∈ R ∨ ¬ pageOk s id) :
    RTree t.pages s.order (d + 1) mn id ∧
    (∀ i ∈ reachIds t.pages (d + 1) id,
      pageOk t i ∧ (i ∈ R ∨ ¬ pageOk s i)) := by
  have hdisj : (ptrs'.map (reachIds t.pages d)).Pairwise List.Disjoint := by
    rw [List.pairwise_map]
    exact hptrsnd.pairwise_of_forall_ne (fun a ha b hb hne => hdis a ha b hb hne)
  refine ⟨RTree_node_build t.pages s.order d mn id keys' ptrs' hp hk1 hk2 hk3 hch
    hdisj hidnot, ?_⟩
  intro i hi
  rw [reachIds_succ_interm t.pages d id keys' ptrs' hp] at hi
  rcases List.mem_cons.mp hi with hi | hi
  · subst hi
    exact ⟨hoktid, hhead⟩
  · obtain ⟨l, hl, hil⟩ := List.mem_flatten.mp hi
    obtain ⟨p, hpm, hpe⟩ := List.mem_map.mp hl
    exact hcl p hpm i (hpe ▸ hil)

/-- Member form of pairwise footprint disjointness. -/
lemma disjoint_of_pairwise_map (ptrs : List Nat) (f : Nat → List Nat)
    (h : (ptrs.map f).Pairwise List.Disjoint)
    (p q : Nat) (hp : p ∈ ptrs) (hq : q ∈ ptrs) (hne : p ≠ q) :
    List.Disjoint (f p) (f q) := by
  have h2 := List.pairwise_map.mp h
  have hsym : Symmetric fun a b => List.Disjoint (f a) (f b) :=
    fun a b hab => List.Disjoint.symm hab
  exact List.Pairwise.forall hsym h2 hp hq hne

/-- insertRec, internal node, child absorbed without split: the parent
realization survives with the rebuilt child. -/
lemma insertRec_inplace (s s1 : TreeState K V) (d mn id ci : Nat)
    (keys : List K) (ptrs : List Nat)
    (hrt : RTree s.pages s.order (d + 1) mn id)
    (hre : ∀ i ∈ reachIds s.pages (d + 1) id, pageOk s i)
    (hp : s.pages id = some (TNode.interm keys ptrs))
    (hci : ci < ptrs.length)
    (hchild : insOut s s1 d ((s.order - 1) / 2) (ptrs.getD ci 0) none) :
    insOut s s1 (d + 1) mn id none := by
  obtain ⟨hk1, hk2, hk3, hch, hdisj, hidm, hptrnd⟩ :=
    RTree_succ_parts s.pages s.order d mn id keys ptrs hrt hp
  obtain ⟨hroot1, hord1, hW1, hmono1, hframe1, hrtC, hclC⟩ := hchild
  have hcidmem : ptrs.getD ci 0 ∈ ptrs := by
    rw [List.getD_eq_getElem _ _ hci]
    exact List.getElem_mem _
  have hokid : pageOk s id := hre id (reachIds_self _ _ _)
  have hsub : ∀ p ∈ ptrs, ∀ i ∈ reachIds s.pages d p,
      i ∈ reachIds s.pages (d + 1) id :=
    fun p hpm => reachIds_sub s.pages d id p keys ptrs hp hpm
  have hsafe : ∀ (p : Nat), p ∈ ptrs → p ≠ ptrs.getD ci 0 →
      ∀ i ∈ reachIds s.pages d p, countKeep (s.pages i) (s1.pages i) := by
    intro p hpm hpne i hi
    have hdpq := disjoint_of_pairwise_map ptrs _ hdisj p (ptrs.getD ci 0) hpm
      hcidmem hpne
    exact hframe1 i (fun hc => hdpq hi hc) (hre i (hsub p hpm i hi))
  have hch1 : ∀ p ∈ ptrs, RTree s1.pages s.order d ((s.order - 1) / 2) p := by
    intro p hpm
    by_cases hpe : p = ptrs.getD ci 0
    · rw [hpe]
      exact hrtC
    · exact RTree_frame _ _ _ d _ p (hsafe p hpm hpe) (hch p hpm)
  have hre1 : ∀ p ∈ ptrs, p ≠ ptrs.getD ci 0 →
      reachIds s1.pages d p = reachIds s.pages d p :=
    fun p hpm hpe => reachIds_frame _ _ d p (hsafe p hpm hpe)
  have hidnotC : id ∉ reachIds s.pages d (ptrs.getD ci 0) := hidm _ hcidmem
  have hpid1 : s1.pages id = some (TNode.interm keys ptrs) := by
    have hk := hframe1 id hidnotC hokid
    rw [hp] at hk
    exact countKeep_interm _ _ _ hk
  refine ⟨hroot1, hord1, hW1, hmono1, ?_, ?_⟩
  · intro j hj hokj
    exact hframe1 j (fun hc => hj (hsub _ hcidmem j hc)) hokj
  · refine parent_rebuild s s1 d mn id (reachIds s.pages (d + 1) id) keys ptrs
      hpid1 hk1 hk2 hk3 hch1 ?_ hptrnd ?_ ?_ (hmono1 id hokid)
      (Or.inl (reachIds_self s.pages (d + 1) id))
    · intro p hpm q hqm hne
      by_cases hpe : p = ptrs.getD ci 0 <;> by_cases hqe : q = ptrs.getD ci 0
      · exact absurd (hpe.trans hqe.symm) hne
      · subst hpe
        rw [hre1 q hqm hqe]
        intro i hip hiq
        rcases (hclC i hip).2 with hor | hor
        · exact disjoint_of_pairwise_map ptrs _ hdisj _ q hpm hqm hne hor hiq
        · exact hor (hre i (hsub q hqm i hiq))
      · subst hqe
        rw [hre1 p hpm hpe]
        intro i hip hiq
        rcases (hclC i hiq).2 with hor | hor
        · exact disjoint_of_pairwise_map ptrs _ hdisj p _ hpm hqm hne hip hor
        · exact hor (hre i (hsub p hpm i hip))
      · rw [hre1 p hpm hpe, hre1 q hqm hqe]
        exact disjoint_of_pairwise_map ptrs _ hdisj p q hpm hqm hne
    · intro p hpm
      by_cases hpe : p = ptrs.getD ci 0
      · subst hpe
        intro hc
        rcases (hclC id hc).2 with hor | hor
        · exact hidnotC hor
        · exact hor hokid
      · rw [hre1 p hpm hpe]
        exact hidm p hpm
    · intro p hpm i hi
      by_cases hpe : p = ptrs.getD ci 0
      · subst hpe
        exact ⟨(hclC i hi).1,
          ((hclC i hi).2).imp (fun hh => hsub _ hcidmem i hh) (fun hh => hh)⟩
      · rw [hre1 p hpm hpe] at hi
        exact ⟨hmono1 i (hre i (hsub p hpm i hi)), Or.inl (hsub p hpm i hi)⟩

/-- insertRec, internal node, child split absorbed without a parent
split: writing the widened parent preserves the realization. -/
lemma insertRec_absorb (s s1 : TreeState K V) (d mn id ci : Nat)
    (keys : List K) (ptrs : List Nat) (pk : K) (rid : Nat)
    (hrt : RTree s.pages s.order (d + 1) mn id)
    (hre : ∀ i ∈ reachIds s.pages (d + 1) id, pageOk s i)
    (hp : s.pages id = some (TNode.interm keys ptrs))
    (hci : ci < ptrs.length) (hcik : ci ≤ keys.length)
    (hchild : insOut s s1 d ((s.order - 1) / 2) (ptrs.getD ci 0) (some (pk, rid)))
    (habs : (insertAtGo keys ci pk).length < s.order) :
    insOut s (s1.writeNode (TNode.interm (insertAtGo keys ci pk)
      (insertAtGo ptrs (ci + 1) rid)) id) (d + 1) mn id none := by
  obtain ⟨hk1, hk2, hk3, hch, hdisj, hidm, hptrnd⟩ :=
    RTree_succ_parts s.pages s.order d mn id keys ptrs hrt hp
  obtain ⟨hroot1, hord1, hW1, hmono1, hframe1, hrtA, hrtB, hndAB, hclAB⟩ := hchild
  have hcidmem : ptrs.getD ci 0 ∈ ptrs := by
    rw [List.getD_eq_getElem _ _ hci]
    exact List.getElem_mem _
  have hokid : pageOk s id := hre id (reachIds_self _ _ _)
  have hsub : ∀ p ∈ ptrs, ∀ i ∈ reachIds s.pages d p,
      i ∈ reachIds s.pages (d + 1) id :=
    fun p hpm => reachIds_sub s.pages d id p keys ptrs hp hpm
  have hclA : ∀ i ∈ reachIds s1.pages d (ptrs.getD ci 0),
      pageOk s1 i ∧ (i ∈ reachIds s.pages d (ptrs.getD ci 0) ∨ ¬ pageOk s i) :=
    fun i hi => hclAB i (List.mem_append.mpr (Or.inl hi))
  have hclB : ∀ i ∈ reachIds s1.pages d rid,
      pageOk s1 i ∧ (i ∈ reachIds s.pages d (ptrs.getD ci 0) ∨ ¬ pageOk s i) :=
    fun i hi => hclAB i (List.mem_append.mpr (Or.inr hi))
  obtain ⟨hndA, hndB, hdisAB⟩ := List.nodup_append.mp hndAB
  have hsafe : ∀ (p : Nat), p ∈ ptrs → p ≠ ptrs.getD ci 0 →
      ∀ i ∈ reachIds s.pages d p, countKeep (s.pages i) (s1.pages i) := by
    intro p hpm hpne i hi
    have hdpq := disjoint_of_pairwise_map ptrs _ hdisj p (ptrs.getD ci 0) hpm
      hcidmem hpne
    exact hframe1 i (fun hc => hdpq hi hc) (hre i (hsub p hpm i hi))
  have hre1 : ∀ p ∈ ptrs, p ≠ ptrs.getD ci 0 →
      reachIds s1.pages d p = reachIds s.pages d p :=
    fun p hpm hpe => reachIds_frame _ _ d p (hsafe p hpm hpe)
  have hidnotC : id ∉ reachIds s.pages d (ptrs.getD ci 0) := hidm _ hcidmem
  have hidnotA : id ∉ reachIds s1.pages d (ptrs.getD ci 0) := by
    intro hc
    rcases (hclA id hc).2 with hor | hor
    · exact hidnotC hor
    · exact hor hokid
  have hidnotB : id ∉ reachIds s1.pages d rid := by
    intro hc
    rcases (hclB id hc).2 with hor | hor
    · exact hidnotC hor
    · exact hor hokid
  have hridne : rid ≠ ptrs.getD ci 0 := by
    intro h
    have h1 : rid ∈ reachIds s1.pages d (ptrs.getD ci 0) := by
      rw [← h]
      exact reachIds_self s1.pages d rid
    exact hdisAB h1 (reachIds_self s1.pages d rid)
  have hridnotold : ∀ q ∈ ptrs, q ≠ ptrs.getD ci 0 → rid ≠ q := by
    intro q hqm hqe h
    subst h
    rcases (hclB rid (reachIds_self _ _ _)).2 with hor | hor
    · exact disjoint_of_pairwise_map ptrs _ hdisj rid _ hqm hcidmem hqe
        (reachIds_self s.pages d rid) hor
    · exact hor (hre rid (hsub rid hqm rid (reachIds_self s.pages d rid)))
  have hridptrs : rid ∉ ptrs := by
    intro hc
    by_cases hq : rid = ptrs.getD ci 0
    · exact hridne hq
    · exact hridnotold rid hc hq rfl
  -- the final state
  have htp : ∀ j, (s1.writeNode (TNode.interm (insertAtGo keys ci pk)
      (insertAtGo ptrs (ci + 1) rid)) id).pages j =
      if j = id then some (TNode.interm (insertAtGo keys ci pk)
        (insertAtGo ptrs (ci + 1) rid)) else s1.pages j := fun j => rfl
  have htsafe : ∀ (x : Nat), id ∉ reachIds s1.pages d x →
      ∀ i ∈ reachIds s1.pages d x,
        countKeep (s1.pages i)
          ((s1.writeNode (TNode.interm (insertAtGo keys ci pk)
            (insertAtGo ptrs (ci + 1) rid)) id).pages i) := by
    intro x hx i hi
    have hne : i ≠ id := fun h => hx (h ▸ hi)
    rw [htp i, if_neg hne]
    exact countKeep_refl _
  have hmemPtrs1 : ∀ p, p ∈ insertAtGo ptrs (ci + 1) rid → p = rid ∨ p ∈ ptrs :=
    fun p hpm => mem_insertAtGo ptrs (ci + 1) rid p hpm
  -- realization of every new child in the final state, with its footprint
  have hchT : ∀ p, p ∈ insertAtGo ptrs (ci + 1) rid →
      RTree (s1.writeNode (TNode.interm (insertAtGo keys ci pk)
        (insertAtGo ptrs (ci + 1) rid)) id).pages s.order d ((s.order - 1) / 2) p ∧
      reachIds (s1.writeNode (TNode.interm (insertAtGo keys ci pk)
        (insertAtGo ptrs (ci + 1) rid)) id).pages d p = reachIds s1.pages d p := by
    intro p hpm
    rcases hmemPtrs1 p hpm with hpe | hpm2
    · subst hpe
      exact ⟨RTree_frame _ _ _ d _ p (htsafe p hidnotB) hrtB,
        reachIds_frame _ _ d p (htsafe p hidnotB)⟩
    · by_cases hpe : p = ptrs.getD ci 0
      · subst hpe
        exact ⟨RTree_frame _ _ _ d _ _ (htsafe _ hidnotA) hrtA,
          reachIds_frame _ _ d _ (htsafe _ hidnotA)⟩
      · have hidn : id ∉ reachIds s1.pages d p := by
          rw [hre1 p hpm2 hpe]
          exact hidm p hpm2
        refine ⟨RTree_frame _ _ _ d _ p (htsafe p hidn)
          (RTree_frame _ _ _ d _ p (hsafe p hpm2 hpe) (hch p hpm2)), ?_⟩
        rw [reachIds_frame _ _ d p (htsafe p hidn)]
  refine ⟨hroot1, hord1, hW1, hmono1, ?_, ?_⟩
  · intro j hj hokj
    have hjid : j ≠ id := fun h => hj (h ▸ reachIds_self s.pages (d + 1) id)
    rw [htp j, if_neg hjid]
    exact hframe1 j (fun hc => hj (hsub _ hcidmem j hc)) hokj
  · have hklen : (insertAtGo keys ci pk).length = keys.length + 1 :=
      insertAtGo_length keys ci pk hcik
    have hplen : (insertAtGo ptrs (ci + 1) rid).length = ptrs.length + 1 :=
      insertAtGo_length ptrs (ci + 1) rid (by omega)
    refine parent_rebuild s _ d mn id (reachIds s.pages (d + 1) id) _ _
      (by rw [htp id, if_pos rfl]) (by omega)
      (by omega) (by omega) (fun p hpm => (hchT p hpm).1) ?_ ?_ ?_ ?_ ?_
      (Or.inl (reachIds_self s.pages (d + 1) id))
    · intro p hpm q hqm hne
      rw [(hchT p hpm).2, (hchT q hqm).2]
      rcases hmemPtrs1 p hpm with hpe | hpm2 <;> rcases hmemPtrs1 q hqm with hqe | hqm2
      · exact absurd (hpe.trans hqe.symm) hne
      · subst hpe
        by_cases hqc : q = ptrs.getD ci 0
        · subst hqc
          intro i hip hiq
          exact hdisAB hiq hip
        · rw [hre1 q hqm2 hqc]
          intro i hip hiq
          rcases (hclB i hip).2 with hor | hor
          · exact disjoint_of_pairwise_map ptrs _ hdisj _ q hcidmem hqm2
              (fun h => hqc h.symm) hor hiq
          · exact hor (hre i (hsub q hqm2 i hiq))
      · subst hqe
        by_cases hpc : p = ptrs.getD ci 0
        · subst hpc
          intro i hip hiq
          exact hdisAB hip hiq
        · rw [hre1 p hpm2 hpc]
          intro i hip hiq
          rcases (hclB i hiq).2 with hor | hor
          · exact disjoint_of_pairwise_map ptrs _ hdisj p _ hpm2 hcidmem
              (fun h => hpc h) hip hor
          · exact hor (hre i (hsub p hpm2 i hip))
      · by_cases hpc : p = ptrs.getD ci 0 <;> by_cases hqc : q = ptrs.getD ci 0
        · exact absurd (hpc.trans hqc.symm) hne
        · subst hpc
          rw [hre1 q hqm2 hqc]
          intro i hip hiq
          rcases (hclA i hip).2 with hor | hor
          · exact disjoint_of_pairwise_map ptrs _ hdisj _ q hcidmem hqm2
              (fun h => hqc h.symm) hor hiq
          · exact hor (hre i (hsub q hqm2 i hiq))
        · subst hqc
          rw [hre1 p hpm2 hpc]
          intro i hip hiq
          rcases (hclA i hiq).2 with hor | hor
          · exact disjoint_of_pairwise_map ptrs _ hdisj p _ hpm2 hcidmem
              (fun h => hpc h) hip hor
          · exact hor (hre i (hsub p hpm2 i hip))
        · rw [hre1 p hpm2 hpc, hre1 q hqm2 hqc]
          exact disjoint_of_pairwise_map ptrs _ hdisj p q hpm2 hqm2 hne
    · exact insertAtGo_nodup ptrs (ci + 1) rid hptrnd hridptrs (by omega)
    · intro p hpm
      rw [(hchT p hpm).2]
      rcases hmemPtrs1 p hpm with hpe | hpm2
      · subst hpe
        exact hidnotB
      · by_cases hpe : p = ptrs.getD ci 0
        · subst hpe
          exact hidnotA
        · rw [hre1 p hpm2 hpe]
          exact hidm p hpm2
    · intro p hpm i hi
      rw [(hchT p hpm).2] at hi
      have hogen : ∀ i2 ∈ reachIds s1.pages d (ptrs.getD ci 0) ++
          reachIds s1.pages d rid,
          pageOk s1 i2 ∧ (i2 ∈ reachIds s.pages (d + 1) id ∨ ¬ pageOk s i2) := by
        intro i2 hi2
        obtain ⟨ha, hb⟩ := hclAB i2 hi2
        exact ⟨ha, hb.imp (fun hh => hsub _ hcidmem i2 hh) (fun hh => hh)⟩
      rcases hmemPtrs1 p hpm with hpe | hpm2
      · subst hpe
        exact hogen i (List.mem_append.mpr (Or.inr hi))
      · by_cases hpe : p = ptrs.getD ci 0
        · subst hpe
          exact hogen i (List.mem_append.mpr (Or.inl hi))
        · rw [hre1 p hpm2 hpe] at hi
          exact ⟨hmono1 i (hre i (hsub p hpm2 i hi)), Or.inl (hsub p hpm2 i hi)⟩
    · exact hmono1 id hokid

/-- insertRec, internal node, child split absorbed and the parent itself
splits: the two parent halves meet the non-root minimum on disjoint live
footprints. -/
lemma insertRec_split (s s1 s3 : TreeState K V) (d mn id ci : Nat)
    (keys K1 : List K) (ptrs P1 : List Nat) (pk kmid : K) (rid rid2 spl : Nat)
    (hrt : RTree s.pages s.order (d + 1) mn id)
    (hre : ∀ i ∈ reachIds s.pages (d + 1) id, pageOk s i)
    (hp : s.pages id = some (TNode.interm keys ptrs))
    (hci : ci < ptrs.length) (hcik : ci ≤ keys.length)
    (hchild : insOut s s1 d ((s.order - 1) / 2) (ptrs.getD ci 0) (some (pk, rid)))
    (hK1 : K1 = insertAtGo keys ci pk) (hP1 : P1 = insertAtGo ptrs (ci + 1) rid)
    (hspl : spl = (s.order - 1) / 2)
    (hnabs : ¬ K1.length < s.order)
    (halloc : (s1.writeNode (TNode.interm (K1.take spl) (P1.take (spl + 1)))
      id).allocPage = (rid2, s3)) :
    insOut s (s3.writeNode (TNode.interm (K1.drop (spl + 1)) (P1.drop (spl + 1)))
      rid2) (d + 1) mn id (some (kmid, rid2)) := by
  obtain ⟨hk1, hk2, hk3, hch, hdisj, hidm, hptrnd⟩ :=
    RTree_succ_parts s.pages s.order d mn id keys ptrs hrt hp
  obtain ⟨hroot1, hord1, hW1, hmono1, hframe1, hrtA, hrtB, hndAB, hclAB⟩ := hchild
  have horder : 3 ≤ s.order := hord1 ▸ hW1.1
  have hcidmem : ptrs.getD ci 0 ∈ ptrs := by
    rw [List.getD_eq_getElem _ _ hci]
    exact List.getElem_mem _
  have hokid : pageOk s id := hre id (reachIds_self _ _ _)
  have hsub : ∀ p ∈ ptrs, ∀ i ∈ reachIds s.pages d p,
      i ∈ reachIds s.pages (d + 1) id :=
    fun p hpm => reachIds_sub s.pages d id p keys ptrs hp hpm
  have hclA : ∀ i ∈ reachIds s1.pages d (ptrs.getD ci 0),
      pageOk s1 i ∧ (i ∈ reachIds s.pages d (ptrs.getD ci 0) ∨ ¬ pageOk s i) :=
    fun i hi => hclAB i (List.mem_append.mpr (Or.inl hi))
  have hclB : ∀ i ∈ reachIds s1.pages d rid,
      pageOk s1 i ∧ (i ∈ reachIds s.pages d (ptrs.getD ci 0) ∨ ¬ pageOk s i) :=
    fun i hi => hclAB i (List.mem_append.mpr (Or.inr hi))
  obtain ⟨hndA, hndB, hdisAB⟩ := List.nodup_append.mp hndAB
  have hsafe : ∀ (p : Nat), p ∈ ptrs → p ≠ ptrs.getD ci 0 →
      ∀ i ∈ reachIds s.pages d p, countKeep (s.pages i) (s1.pages i) := by
    intro p hpm hpne i hi
    have hdpq := disjoint_of_pairwise_map ptrs _ hdisj p (ptrs.getD ci 0) hpm
      hcidmem hpne
    exact hframe1 i (fun hc => hdpq hi hc) (hre i (hsub p hpm i hi))
  have hre1 : ∀ p ∈ ptrs, p ≠ ptrs.getD ci 0 →
      reachIds s1.pages d p = reachIds s.pages d p :=
    fun p hpm hpe => reachIds_frame _ _ d p (hsafe p hpm hpe)
  have hidnotC : id ∉ reachIds s.pages d (ptrs.getD ci 0) := hidm _ hcidmem
  have hidnotA : id ∉ reachIds s1.pages d (ptrs.getD ci 0) := by
    intro hc
    rcases (hclA id hc).2 with hor | hor
    · exact hidnotC hor
    · exact hor hokid
  have hidnotB : id ∉ reachIds s1.pages d rid := by
    intro hc
    rcases (hclB id hc).2 with hor | hor
    · exact hidnotC hor
    · exact hor hokid
  have hridne : rid ≠ ptrs.getD ci 0 := by
    intro h
    have h1 : rid ∈ reachIds s1.pages d (ptrs.getD ci 0) := by
      rw [← h]
      exact reachIds_self s1.pages d rid
    exact hdisAB h1 (reachIds_self s1.pages d rid)
  have hridnotold : ∀ q ∈ ptrs, q ≠ ptrs.getD ci 0 → rid ≠ q := by
    intro q hqm hqe h
    subst h
    rcases (hclB rid (reachIds_self _ _ _)).2 with hor | hor
    · exact disjoint_of_pairwise_map ptrs _ hdisj rid _ hqm hcidmem hqe
        (reachIds_self s.pages d rid) hor
    · exact hor (hre rid (hsub rid hqm rid (reachIds_self s.pages d rid)))
  have hridptrs : rid ∉ ptrs := by
    intro hc
    by_cases hq : rid = ptrs.getD ci 0
    · exact hridne hq
    · exact hridnotold rid hc hq rfl
  have hmemP1 : ∀ p, p ∈ P1 → p = rid ∨ p ∈ ptrs := by
    rw [hP1]
    exact fun p hpm => mem_insertAtGo ptrs (ci + 1) rid p hpm
  -- every page in any child footprint is live in s1
  have hallok : ∀ p ∈ P1, ∀ i ∈ reachIds s1.pages d p, pageOk s1 i := by
    intro p hpm i hi
    rcases hmemP1 p hpm with hpe | hpm2
    · subst hpe
      exact (hclB i hi).1
    · by_cases hpe : p = ptrs.getD ci 0
      · subst hpe
        exact (hclA i hi).1
      · rw [hre1 p hpm2 hpe] at hi
        exact hmono1 i (hre i (hsub p hpm2 i hi))
  -- id is in no child footprint
  have hidnotALL : ∀ p ∈ P1, id ∉ reachIds s1.pages d p := by
    intro p hpm
    rcases hmemP1 p hpm with hpe | hpm2
    · subst hpe
      exact hidnotB
    · by_cases hpe : p = ptrs.getD ci 0
      · subst hpe
        exact hidnotA
      · rw [hre1 p hpm2 hpe]
        exact hidm p hpm2
  -- member disjointness over the widened child list, in s1
  have hdisP1 : ∀ p ∈ P1, ∀ q ∈ P1, p ≠ q →
      List.Disjoint (reachIds s1.pages d p) (reachIds s1.pages d q) := by
    intro p hpm q hqm hne
    rcases hmemP1 p hpm with hpe | hpm2 <;> rcases hmemP1 q hqm with hqe | hqm2
    · exact absurd (hpe.trans hqe.symm) hne
    · subst hpe
      by_cases hqc : q = ptrs.getD ci 0
      · subst hqc
        intro i hip hiq
        exact hdisAB hiq hip
      · rw [hre1 q hqm2 hqc]
        intro i hip hiq
        rcases (hclB i hip).2 with hor | hor
        · exact disjoint_of_pairwise_map ptrs _ hdisj _ q hcidmem hqm2
            (fun h => hqc h.symm) hor hiq
        · exact hor (hre i (hsub q hqm2 i hiq))
    · subst hqe
      by_cases hpc : p = ptrs.getD ci 0
      · subst hpc
        intro i hip hiq
        exact hdisAB hip hiq
      · rw [hre1 p hpm2 hpc]
        intro i hip hiq
        rcases (hclB i hiq).2 with hor | hor
        · exact disjoint_of_pairwise_map ptrs _ hdisj p _ hpm2 hcidmem
            (fun h => hpc h) hip hor
        · exact hor (hre i (hsub p hpm2 i hip))
    · by_cases hpc : p = ptrs.getD ci 0 <;> by_cases hqc : q = ptrs.getD ci 0
      · exact absurd (hpc.trans hqc.symm) hne
      · subst hpc
        rw [hre1 q hqm2 hqc]
        intro i hip hiq
        rcases (hclA i hip).2 with hor | hor
        · exact disjoint_of_pairwise_map ptrs _ hdisj _ q hcidmem hqm2
            (fun h => hqc h.symm) hor hiq
        · exact hor (hre i (hsub q hqm2 i hiq))
      · subst hqc
        rw [hre1 p hpm2 hpc]
        intro i hip hiq
        rcases (hclA i hiq).2 with hor | hor
        · exact disjoint_of_pairwise_map ptrs _ hdisj p _ hpm2 hcidmem
            (fun h => hpc h) hip hor
        · exact hor (hre i (hsub p hpm2 i hip))
      · rw [hre1 p hpm2 hpc, hre1 q hqm2 hqc]
        exact disjoint_of_pairwise_map ptrs _ hdisj p q hpm2 hqm2 hne
  -- closure of child footprints against the old parent footprint
  have hclALL : ∀ p ∈ P1, ∀ i ∈ reachIds s1.pages d p,
      i ∈ reachIds s.pages (d + 1) id ∨ ¬ pageOk s i := by
    intro p hpm i hi
    rcases hmemP1 p hpm with hpe | hpm2
    · subst hpe
      exact ((hclB i hi).2).imp (fun hh => hsub _ hcidmem i hh) (fun hh => hh)
    · by_cases hpe : p = ptrs.getD ci 0
      · subst hpe
        exact ((hclA i hi).2).imp (fun hh => hsub _ hcidmem i hh) (fun hh => hh)
      · rw [hre1 p hpm2 hpe] at hi
        exact Or.inl (hsub p hpm2 i hi)
  have hndP1 : P1.Nodup := by
    rw [hP1]
    exact insertAtGo_nodup ptrs (ci + 1) rid hptrnd hridptrs (by omega)
  have hK1len2 : K1.length = keys.length + 1 := by
    rw [hK1]
    exact insertAtGo_length keys ci pk hcik
  have horder : 3 ≤ s.order := hord1 ▸ hW1.1
  have hK1len : K1.length = s.order := by omega
  have hP1len2 : P1.length = ptrs.length + 1 := by
    rw [hP1]
    exact insertAtGo_length ptrs (ci + 1) rid (by omega)
  have hP1len : P1.length = s.order + 1 := by omega
  -- the allocation on the state with the left half written
  obtain ⟨hpg3, hroot3, hord3, hW3, hnok2, hok3, hmono3, hfr3⟩ :=
    allocPage_spec (s1.writeNode (TNode.interm (K1.take spl) (P1.take (spl + 1)))
      id) rid2 s3 hW1 halloc
  have hridnotP1 : ∀ p ∈ P1, rid2 ∉ reachIds s1.pages d p := by
    intro p hpm hc
    exact hnok2 (hallok p hpm rid2 hc)
  have hne2 : id ≠ rid2 := fun h => hnok2 (h ▸ hmono1 id hokid)
  -- page views of the final state
  have htp : ∀ j, (s3.writeNode (TNode.interm (K1.drop (spl + 1))
      (P1.drop (spl + 1))) rid2).pages j =
      if j = rid2 then some (TNode.interm (K1.drop (spl + 1)) (P1.drop (spl + 1)))
      else if j = id then some (TNode.interm (K1.take spl) (P1.take (spl + 1)))
      else s1.pages j := by
    intro j
    show (if j = rid2 then _ else s3.pages j) = _
    by_cases h2 : j = rid2
    · rw [if_pos h2, if_pos h2]
    · rw [if_neg h2, if_neg h2, hpg3]
      show (if j = id then _ else s1.pages j) = _
      rfl
  have htsafe : ∀ (x : Nat), x ∈ P1 →
      ∀ i ∈ reachIds s1.pages d x,
        countKeep (s1.pages i) ((s3.writeNode (TNode.interm (K1.drop (spl + 1))
          (P1.drop (spl + 1))) rid2).pages i) := by
    intro x hx i hi
    have hne1 : i ≠ rid2 := fun h => hridnotP1 x hx (h ▸ hi)
    have hne2 : i ≠ id := fun h => hidnotALL x hx (h ▸ hi)
    rw [htp i, if_neg hne1, if_neg hne2]
    exact countKeep_refl _
  have hchT : ∀ p ∈ P1,
      RTree (s3.writeNode (TNode.interm (K1.drop (spl + 1)) (P1.drop (spl + 1)))
        rid2).pages s.order d ((s.order - 1) / 2) p ∧
      reachIds (s3.writeNode (TNode.interm (K1.drop (spl + 1))
        (P1.drop (spl + 1))) rid2).pages d p = reachIds s1.pages d p := by
    intro p hpm
    have hbase : RTree s1.pages s.order d ((s.order - 1) / 2) p := by
      rcases hmemP1 p hpm with hpe | hpm2
      · subst hpe
        exact hrtB
      · by_cases hpe : p = ptrs.getD ci 0
        · subst hpe
          exact hrtA
        · exact RTree_frame _ _ _ d _ p (hsafe p hpm2 hpe) (hch p hpm2)
    exact ⟨RTree_frame _ _ _ d _ p (htsafe p hpm) hbase,
      reachIds_frame _ _ d p (htsafe p hpm)⟩
  have hokT : ∀ i, pageOk s1 i →
      pageOk (s3.writeNode (TNode.interm (K1.drop (spl + 1)) (P1.drop (spl + 1)))
        rid2) i :=
    fun i hi => hmono3 i hi
  -- the two rebuilt parents
  have hleft := parent_rebuild s
    (s3.writeNode (TNode.interm (K1.drop (spl + 1)) (P1.drop (spl + 1))) rid2)
    d ((s.order - 1) / 2) id (reachIds s.pages (d + 1) id)
    (K1.take spl) (P1.take (spl + 1))
    (by rw [htp id, if_neg hne2, if_pos rfl])
    (by rw [List.length_take]; omega)
    (by rw [List.length_take]; omega)
    (by rw [List.length_take, List.length_take]; omega)
    (fun p hpm => (hchT p (List.mem_of_mem_take hpm)).1)
    (by
      intro p hpm q hqm hne
      rw [(hchT p (List.mem_of_mem_take hpm)).2, (hchT q (List.mem_of_mem_take hqm)).2]
      exact hdisP1 p (List.mem_of_mem_take hpm) q (List.mem_of_mem_take hqm) hne)
    (hndP1.sublist (List.take_sublist _ _))
    (by
      intro p hpm
      rw [(hchT p (List.mem_of_mem_take hpm)).2]
      exact hidnotALL p (List.mem_of_mem_take hpm))
    (by
      intro p hpm i hi
      rw [(hchT p (List.mem_of_mem_take hpm)).2] at hi
      exact ⟨hokT i (hallok p (List.mem_of_mem_take hpm) i hi),
        hclALL p (List.mem_of_mem_take hpm) i hi⟩)
    (hokT id (hmono1 id hokid))
    (Or.inl (reachIds_self s.pages (d + 1) id))
  have hright := parent_rebuild s
    (s3.writeNode (TNode.interm (K1.drop (spl + 1)) (P1.drop (spl + 1))) rid2)
    d ((s.order - 1) / 2) rid2 (reachIds s.pages (d + 1) id)
    (K1.drop (spl + 1)) (P1.drop (spl + 1))
    (by rw [htp rid2, if_pos rfl])
    (by rw [List.length_drop]; omega)
    (by rw [List.length_drop]; omega)
    (by rw [List.length_drop, List.length_drop]; omega)
    (fun p hpm => (hchT p (List.mem_of_mem_drop hpm)).1)
    (by
      intro p hpm q hqm hne
      rw [(hchT p (List.mem_of_mem_drop hpm)).2, (hchT q (List.mem_of_mem_drop hqm)).2]
      exact hdisP1 p (List.mem_of_mem_drop hpm) q (List.mem_of_mem_drop hqm) hne)
    (hndP1.sublist (List.drop_sublist _ _))
    (by
      intro p hpm
      rw [(hchT p (List.mem_of_mem_drop hpm)).2]
      exact hridnotP1 p (List.mem_of_mem_drop hpm))
    (by
      intro p hpm i hi
      rw [(hchT p (List.mem_of_mem_drop hpm)).2] at hi
      exact ⟨hokT i (hallok p (List.mem_of_mem_drop hpm) i hi),
        hclALL p (List.mem_of_mem_drop hpm) i hi⟩)
    hok3
    (Or.inr (fun hc => hnok2 (hmono1 rid2 hc)))
  -- take/drop of the widened child list share no member
  have hTD : ∀ x, x ∈ P1.take (spl + 1) → x ∈ P1.drop (spl + 1) → False := by
    have hnd2 := hndP1
    rw [← List.take_append_drop (spl + 1) P1, List.nodup_append] at hnd2
    exact fun x hx1 hx2 => hnd2.2.2 hx1 hx2
  refine ⟨?_, ?_, hW3, ?_, ?_, hleft.1, hright.1, ?_, ?_⟩
  · show s3.root = s.root
    rw [hroot3]
    exact hroot1
  · show s3.order = s.order
    rw [hord3]
    exact hord1
  · intro i hi
    exact hokT i (hmono1 i hi)
  · intro j hj hokj
    have hjid : j ≠ id := fun h => hj (h ▸ reachIds_self s.pages (d + 1) id)
    have hjrid2 : j ≠ rid2 := fun h => hnok2 (h ▸ hmono1 j hokj)
    rw [htp j, if_neg hjrid2, if_neg hjid]
    exact hframe1 j (fun hc => hj (hsub _ hcidmem j hc)) hokj
  · -- combined footprints of the two halves are duplicate-free
    rw [List.nodup_append]
    refine ⟨RTree_nodup _ _ _ _ _ hleft.1, RTree_nodup _ _ _ _ _ hright.1, ?_⟩
    intro x hxL hxR
    rw [reachIds_succ_interm _ d id _ _ (by rw [htp id, if_neg hne2, if_pos rfl])]
      at hxL
    rw [reachIds_succ_interm _ d rid2 _ _ (by rw [htp rid2, if_pos rfl])] at hxR
    rcases List.mem_cons.mp hxL with hxL | hxL <;>
      rcases List.mem_cons.mp hxR with hxR | hxR
    · exact hne2 (hxL.symm.trans hxR ▸ rfl)
    · obtain ⟨l, hl, hxl⟩ := List.mem_flatten.mp hxR
      obtain ⟨q, hqm, hqe⟩ := List.mem_map.mp hl
      subst hxL
      rw [← hqe, (hchT q (List.mem_of_mem_drop hqm)).2] at hxl
      exact hidnotALL q (List.mem_of_mem_drop hqm) hxl
    · obtain ⟨l, hl, hxl⟩ := List.mem_flatten.mp hxL
      obtain ⟨q, hqm, hqe⟩ := List.mem_map.mp hl
      subst hxR
      rw [← hqe, (hchT q (List.mem_of_mem_take hqm)).2] at hxl
      exact hridnotP1 q (List.mem_of_mem_take hqm) hxl
    · obtain ⟨l, hl, hxl⟩ := List.mem_flatten.mp hxL
      obtain ⟨q, hqm, hqe⟩ := List.mem_map.mp hl
      obtain ⟨l2, hl2, hxl2⟩ := List.mem_flatten.mp hxR
      obtain ⟨q2, hqm2, hqe2⟩ := List.mem_map.mp hl2
      rw [← hqe, (hchT q (List.mem_of_mem_take hqm)).2] at hxl
      rw [← hqe2, (hchT q2 (List.mem_of_mem_drop hqm2)).2] at hxl2
      by_cases hqq : q = q2
      · exact hTD q hqm (hqq ▸ hqm2)
      · exact hdisP1 q (List.mem_of_mem_take hqm) q2 (List.mem_of_mem_drop hqm2)
          hqq hxl hxl2
  · intro i hi
    rcases List.mem_append.mp hi with hi | hi
    · exact hleft.2 i hi
    · exact hright.2 i hi

/-- The insertRec specification: a successful recursive insert preserves
the structural invariant, splitting subtrees as needed. -/
lemma insertRec_spec [LinearOrder K] :
    ∀ (fuel : Nat) (s s' : TreeState K V) (key : K) (value : V) (n : TNode K V)
      (id d mn : Nat) (res : Option (K × Nat)),
      WfFree s →
      s.pages id = some n →
      RTree s.pages s.order d mn id →
      (∀ i ∈ reachIds s.pages d id, pageOk s i) →
      s.insertRec key value n id fuel = (s', .ok res) →
      insOut s s' d mn id res := by
  intro fuel
  induction fuel with
  | zero =>
    intro s s' key value n id d mn res hW hpage hrt hre hrun
    simp [TreeState.insertRec] at hrun
  | succ fuel ih =>
    intro s s' key value n id d mn res hW hpage hrt hre hrun
    cases n with
    | leaf pairs next prev =>
      cases d with
      | succ d =>
        obtain ⟨keys, ptrs, hp, h1, h2, h3, h4, h5⟩ := (RTree_succ _ _ _ _ _).mp hrt
        rw [hpage] at hp
        exact absurd hp (by simp)
      | zero =>
        obtain ⟨pr, nx, pv, hp, h1, h2⟩ := (RTree_zero _ _ _ _).mp hrt
        rw [hpage] at hp
        injection hp with hp
        injection hp with e1 e2 e3
        subst e1
        subst e2
        subst e3
        exact insertIntoLeaf_spec s s' key value pairs next prev id res mn hW hpage
          h1 h2 (hre id (reachIds_self _ _ _)) hrun
    | interm keys ptrs =>
      cases d with
      | zero =>
        obtain ⟨pr, nx, pv, hp, h1, h2⟩ := (RTree_zero _ _ _ _).mp hrt
        rw [hpage] at hp
        exact absurd hp (by simp)
      | succ d =>
        simp only [TreeState.insertRec] at hrun
        by_cases hgd : ptrs.length ≤ upperBound key keys
        · rw [if_pos hgd] at hrun
          exact absurd hrun (by simp)
        · rw [if_neg hgd] at hrun
          have hci : upperBound key keys < ptrs.length := by omega
          have hcidmem : ptrs.getD (upperBound key keys) 0 ∈ ptrs := by
            rw [List.getD_eq_getElem _ _ hci]
            exact List.getElem_mem _
          cases hrd : s.readNode (ptrs.getD (upperBound key keys) 0) with
          | error e =>
            simp only [hrd] at hrun
            exact absurd hrun (by simp)
          | ok child =>
            simp only [hrd] at hrun
            have hcpage : s.pages (ptrs.getD (upperBound key keys) 0) = some child := by
              unfold TreeState.readNode at hrd
              cases hpp : s.pages (ptrs.getD (upperBound key keys) 0) with
              | none => rw [hpp] at hrd; exact absurd hrd (by simp)
              | some m =>
                rw [hpp] at hrd
                injection hrd with h
                rw [h]
            obtain ⟨hk1, hk2, hk3, hch, hdisj, hidm, hptrnd⟩ :=
              RTree_succ_parts s.pages s.order d mn id keys ptrs hrt hpage
            have hcrt := hch _ hcidmem
            have hcre : ∀ i ∈ reachIds s.pages d (ptrs.getD (upperBound key keys) 0),
                pageOk s i :=
              fun i hi => hre i
                (reachIds_sub s.pages d id _ keys ptrs hpage hcidmem i hi)
            cases hrec : s.insertRec key value child
                (ptrs.getD (upperBound key keys) 0) fuel with
            | mk s1 r1 =>
              rw [hrec] at hrun
              cases r1 with
              | error e => simp at hrun
              | ok r2 =>
                have hchild := ih s s1 key value child _ d ((s.order - 1) / 2) r2
                  hW hcpage hcrt hcre hrec
                cases r2 with
                | none =>
                  injection hrun with e1 e2
                  injection e2 with e2
                  subst e1
                  subst e2
                  exact insertRec_inplace s s1 d mn id (upperBound key keys) keys
                    ptrs hrt hre hpage hci hchild
                | some kr =>
                  cases kr with
                  | mk pk rid =>
                    by_cases habs :
                        (insertAtGo keys (upperBound key keys) pk).length < s.order
                    · simp only [if_pos habs] at hrun
                      injection hrun with e1 e2
                      injection e2 with e2
                      subst e2
                      subst e1
                      exact insertRec_absorb s s1 d mn id (upperBound key keys)
                        keys ptrs pk rid hrt hre hpage hci (upperBound_le key keys)
                        hchild habs
                    · simp only [if_neg habs] at hrun
                      cases halloc : (s1.writeNode (TNode.interm
                          ((insertAtGo keys (upperBound key keys) pk).take
                            ((s.order - 1) / 2))
                          ((insertAtGo ptrs (upperBound key keys + 1) rid).take
                            ((s.order - 1) / 2 + 1))) id).allocPage with
                      | mk rid2 s3 =>
                        simp only [halloc] at hrun
                        injection hrun with e1 e2
                        injection e2 with e2
                        subst e2
                        subst e1
                        exact insertRec_split s s1 s3 d mn id (upperBound key keys)
                          keys _ ptrs _ pk _ rid rid2 _ hrt hre hpage hci
                          (upperBound_le key keys) hchild rfl rfl rfl habs halloc

/-- A successful Insert preserves the whole-tree invariant. -/
lemma Insert_inv [LinearOrder K] (s s' : TreeState K V) (key : K) (value : V)
    (fuel : Nat) (hInv : Inv s) (hrun : s.Insert key value fuel = (s', .ok ())) :
    Inv s' := by
  obtain ⟨hW, hroot⟩ := hInv
  unfold TreeState.Insert at hrun
  by_cases hr : s.root = 0
  · rw [if_pos hr] at hrun
    cases halloc : s.allocPage with
    | mk rootPageID s1 =>
      simp only [halloc] at hrun
      injection hrun with e1 e2
      subst e1
      obtain ⟨hpg1, hroot1, hord1, hW1, hnok, hok1, hmono1, hfr1⟩ :=
        allocPage_spec s rootPageID s1 hW halloc
      refine ⟨hW1, Or.inr ⟨0, ?_, ?_⟩⟩
      · refine (RTree_zero _ _ _ _).mpr ⟨[(key, value)], 0, 0, ?_, ?_, ?_⟩
        · show (if rootPageID = rootPageID then _ else s1.pages rootPageID) = _
          rw [if_pos rfl]
        · exact Nat.zero_le _
        · show 1 ≤ s1.order - 1
          have := hW1.1
          omega
      · intro i hi
        rw [reachIds_zero] at hi
        rcases List.mem_singleton.mp hi with hi
        subst hi
        exact hok1
  · rw [if_neg hr] at hrun
    rcases hroot with h0 | ⟨d, hrt, hre⟩
    · exact absurd h0 hr
    cases hrd : s.readNode s.root with
    | error e =>
      simp only [hrd] at hrun
      simp at hrun
    | ok rootNode =>
      simp only [hrd] at hrun
      have hpage : s.pages s.root = some rootNode := by
        unfold TreeState.readNode at hrd
        cases hpp : s.pages s.root with
        | none => rw [hpp] at hrd; exact absurd hrd (by simp)
        | some m =>
          rw [hpp] at hrd
          injection hrd with h
          rw [h]
      cases hrec : s.insertRec key value rootNode s.root fuel with
      | mk s1 r1 =>
        rw [hrec] at hrun
        cases r1 with
        | error e => simp at hrun
        | ok r2 =>
          have hout := insertRec_spec fuel s s1 key value rootNode s.root d
            (rootMin d) r2 hW hpage hrt hre hrec
          cases r2 with
          | none =>
            injection hrun with e1 e2
            subst e1
            obtain ⟨hroot1, hord1, hW1, hmono1, hframe1, hrtN, hclN⟩ := hout
            refine ⟨hW1, Or.inr ⟨d, ?_, ?_⟩⟩
            · rw [hroot1, hord1]
              exact hrtN
            · rw [hroot1]
              exact fun i hi => (hclN i hi).1
          | some kr =>
            cases kr with
            | mk pk rid =>
              cases halloc : s1.allocPage with
              | mk rootPageID s2 =>
                simp only [halloc] at hrun
                injection hrun with e1 e2
                subst e1
                obtain ⟨hroot1, hord1, hW1, hmono1, hframe1, hrtL, hrtR, hndLR,
                  hclLR⟩ := hout
                obtain ⟨hpg2, hroot2, hord2, hW2, hnok2, hok2, hmono2, hfr2⟩ :=
                  allocPage_spec s1 rootPageID s2 hW1 halloc
                obtain ⟨hndL, hndR, hdisLR⟩ := List.nodup_append.mp hndLR
                have hclL : ∀ i ∈ reachIds s1.pages d s.root, pageOk s1 i :=
                  fun i hi => (hclLR i (List.mem_append.mpr (Or.inl hi))).1
                have hclR : ∀ i ∈ reachIds s1.pages d rid, pageOk s1 i :=
                  fun i hi => (hclLR i (List.mem_append.mpr (Or.inr hi))).1
                have hrpL : rootPageID ∉ reachIds s1.pages d s.root :=
                  fun hc => hnok2 (hclL rootPageID hc)
                have hrpR : rootPageID ∉ reachIds s1.pages d rid :=
                  fun hc => hnok2 (hclR rootPageID hc)
                have htp : ∀ j, ((s2.writeNode
                    (TNode.interm [pk] [s.root, rid]) rootPageID).setRoot
                    rootPageID).pages j =
                    if j = rootPageID then some (TNode.interm [pk] [s.root, rid])
                    else s1.pages j := by
                  intro j
                  show (if j = rootPageID then _ else s2.pages j) = _
                  by_cases h2 : j = rootPageID
                  · rw [if_pos h2, if_pos h2]
                  · rw [if_neg h2, if_neg h2, hpg2]
                have hmemC : ∀ p, p ∈ [s.root, rid] → p = s.root ∨ p = rid := by
                  intro p hpm
                  rcases List.mem_cons.mp hpm with h | h
                  · exact Or.inl h
                  · rcases List.mem_cons.mp h with h | h
                    · exact Or.inr h
                    · exact absurd h (List.not_mem_nil p)
                have hsafeC : ∀ p, p ∈ [s.root, rid] →
                    ∀ i ∈ reachIds s1.pages d p,
                      countKeep (s1.pages i) (((s2.writeNode
                        (TNode.interm [pk] [s.root, rid]) rootPageID).setRoot
                        rootPageID).pages i) := by
                  intro p hpm i hi
                  have hne : i ≠ rootPageID := by
                    rcases hmemC p hpm with h | h <;> subst h
                    · exact fun hc => hrpL (hc ▸ hi)
                    · exact fun hc => hrpR (hc ▸ hi)
                  rw [htp i, if_neg hne]
                  exact countKeep_refl _
                have hchT : ∀ p, p ∈ [s.root, rid] →
                    RTree (((s2.writeNode (TNode.interm [pk] [s.root, rid])
                      rootPageID).setRoot rootPageID)).pages s.order d
                      ((s.order - 1) / 2) p ∧
                    reachIds (((s2.writeNode (TNode.interm [pk] [s.root, rid])
                      rootPageID).setRoot rootPageID)).pages d p =
                      reachIds s1.pages d p := by
                  intro p hpm
                  have hbase : RTree s1.pages s.order d ((s.order - 1) / 2) p := by
                    rcases hmemC p hpm with h | h <;> subst h
                    · exact hrtL
                    · exact hrtR
                  exact ⟨RTree_frame _ _ _ d _ p (hsafeC p hpm) hbase,
                    reachIds_frame _ _ d p (hsafeC p hpm)⟩
                have hLRne : s.root ≠ rid := by
                  intro h
                  exact hdisLR (reachIds_self s1.pages d s.root)
                    (h ▸ reachIds_self s1.pages d s.root)
                refine ⟨hW2, Or.inr ⟨d + 1, ?_, ?_⟩⟩
                · have hordT : ((s2.writeNode (TNode.interm [pk] [s.root, rid])
                      rootPageID).setRoot rootPageID).order = s.order := by
                    show s2.order = s.order
                    rw [hord2]
                    exact hord1
                  rw [hordT]
                  show RTree _ s.order (d + 1) (rootMin (d + 1)) rootPageID
                  refine RTree_node_build _ s.order d _ rootPageID [pk] [s.root, rid]
                    (by rw [htp rootPageID, if_pos rfl]) ?_ ?_ ?_ ?_ ?_ ?_
                  · show rootMin (d + 1) ≤ 1
                    simp [rootMin]
                  · show 1 ≤ s.order - 1
                    have := hW.1
                    omega
                  · rfl
                  · exact fun p hpm => (hchT p hpm).1
                  · rw [List.map_cons, List.map_cons, List.map_nil,
                      List.pairwise_cons, List.pairwise_cons]
                    refine ⟨?_, ?_, List.Pairwise.nil⟩
                    · intro l hl
                      rcases List.mem_cons.mp hl with h | h
                      · subst h
                        rw [(hchT s.root (by simp)).2, (hchT rid (by simp)).2]
                        exact hdisLR
                      · exact absurd h (List.not_mem_nil l)
                    · intro l hl
                      exact absurd hl (List.not_mem_nil l)
                  · intro p hpm
                    rw [(hchT p hpm).2]
                    rcases hmemC p hpm with h | h <;> subst h
                    · exact hrpL
                    · exact hrpR
                · intro i hi
                  have hi2 : i ∈ reachIds ((s2.writeNode (TNode.interm [pk]
                      [s.root, rid]) rootPageID).setRoot rootPageID).pages (d + 1)
                      rootPageID := hi
                  rw [reachIds_succ_interm _ d rootPageID [pk] [s.root, rid]
                    (by rw [htp rootPageID, if_pos rfl])] at hi2
                  rcases List.mem_cons.mp hi2 with hi | hi
                  · subst hi
                    exact hok2
                  · obtain ⟨l, hl, hil⟩ := List.mem_flatten.mp hi
                    obtain ⟨p, hpm, hpe⟩ := List.mem_map.mp hl
                    rw [← hpe, (hchT p hpm).2] at hil
                    have : pageOk s1 i := by
                      rcases hmemC p hpm with h | h <;> subst h
                      · exact hclL i hil
                      · exact hclR i hil
                    exact hmono2 i this

/-- What a successful deleteFromLeaf guarantees: in-place removal of at
most one pair, with a faithful underflow report. -/
lemma deleteFromLeaf_spec [LinearOrder K] (s s' : TreeState K V) (key : K)
    (pairs : List (K × V)) (next prev id mn : Nat) (under : Bool)
    (hW : WfFree s)
    (hpage : s.pages id = some (TNode.leaf pairs next prev))
    (hmn : mn ≤ pairs.length) (hcnt : pairs.length ≤ s.order - 1)
    (hmn2 : mn ≤ (s.order - 1) / 2)
    (hok : pageOk s id)
    (hrun : s.deleteFromLeaf key pairs next prev id = (s', .ok under)) :
    delOut s s' 0 mn id under := by
  simp only [TreeState.deleteFromLeaf] at hrun
  by_cases hind : leafBinarySearch key pairs = -1
  · rw [if_pos hind] at hrun
    injection hrun with e1 e2
    injection e2 with e2
    subst e1
    subst e2
    refine ⟨rfl, rfl, rfl, hW, fun i h => h, fun i h _ => h, ?_, ?_, ?_, ?_⟩
    · intro j hj hokj
      exact countKeep_refl _
    · exact (RTree_zero _ _ _ _).mpr ⟨pairs, next, prev, hpage, Nat.zero_le _, hcnt⟩
    · refine ⟨pairs.length, by simp [topCount, hpage], by omega, fun _ => hmn, ?_⟩
      intro hc
      cases hc
    · intro i hi
      rw [reachIds_zero] at hi
      rcases List.mem_singleton.mp hi with hi
      subst hi
      exact ⟨hok, reachIds_self _ _ _⟩
  · rw [if_neg hind] at hrun
    injection hrun with e1 e2
    injection e2 with e2
    subst e1
    subst e2
    have hlen : (removeAtGo pairs (leafBinarySearch key pairs).toNat).length + 1 =
        pairs.length := by
      refine removeAtGo_length pairs _ ?_
      exact (leafBinarySearch_mem key pairs hind).1
    refine ⟨rfl, rfl, rfl, hW, fun i h => h, fun i h _ => h, ?_, ?_, ?_, ?_⟩
    · intro j hj hokj
      rw [reachIds_zero] at hj
      have hjid : j ≠ id := fun h => hj (h ▸ List.mem_singleton_self id)
      rw [writeNode_pages, if_neg hjid]
      exact countKeep_refl _
    · refine (RTree_zero _ _ _ _).mpr
        ⟨removeAtGo pairs (leafBinarySearch key pairs).toNat, next, prev,
          by rw [writeNode_pages, if_pos rfl], Nat.zero_le _, by omega⟩
    · refine ⟨(removeAtGo pairs (leafBinarySearch key pairs).toNat).length, ?_,
        by omega, ?_, ?_⟩
      · simp [topCount, writeNode_pages]
      · intro hfalse
        rw [decide_eq_false_iff_not] at hfalse
        omega
      · intro htrue
        rw [decide_eq_true_eq] at htrue
        exact htrue
    · intro i hi
      rw [reachIds_zero] at hi
      rcases List.mem_singleton.mp hi with hi
      subst hi
      exact ⟨hok, reachIds_self _ _ _⟩

/-- canBorrowFrom reads off the key count. -/
lemma canBorrowFrom_eq [LinearOrder K] (s : TreeState K V) (pid c : Nat)
    (hc : topCount s.pages pid = some c) :
    s.canBorrowFrom pid = decide ((s.order - 1) / 2 < c) := by
  unfold topCount at hc
  unfold TreeState.canBorrowFrom TreeState.readNode
  cases hp : s.pages pid with
  | none =>
    rw [hp] at hc
    cases hc
  | some n =>
    rw [hp] at hc
    cases n with
    | leaf pr nx pv =>
      simp only at hc ⊢
      injection hc with hc
      rw [hc]
    | interm ks ps =>
      simp only at hc ⊢
      injection hc with hc
      rw [hc]

/-- Rewriting two distinct leaf pages redistributes their pairs: both
stay realized and keep their combined (two-page) footprint. -/
lemma two_leaf_redistribute (u : TreeState K V) (a b : Nat)
    (prA prB : List (K × V)) (nA pA nB pB : Nat)
    (hab : a ≠ b)
    (hcntA : (u.order - 1) / 2 ≤ prA.length ∧ prA.length ≤ u.order - 1)
    (hcntB : (u.order - 1) / 2 ≤ prB.length ∧ prB.length ≤ u.order - 1) :
    (∀ j, j ≠ a → j ≠ b →
      ((u.writeNode (TNode.leaf prA nA pA) a).writeNode (TNode.leaf prB nB pB)
        b).pages j = u.pages j) ∧
    RTree ((u.writeNode (TNode.leaf prA nA pA) a).writeNode (TNode.leaf prB nB pB)
      b).pages u.order 0 ((u.order - 1) / 2) a ∧
    RTree ((u.writeNode (TNode.leaf prA nA pA) a).writeNode (TNode.leaf prB nB pB)
      b).pages u.order 0 ((u.order - 1) / 2) b ∧
    (reachIds ((u.writeNode (TNode.leaf prA nA pA) a).writeNode
        (TNode.leaf prB nB pB) b).pages 0 a ++
      reachIds ((u.writeNode (TNode.leaf prA nA pA) a).writeNode
        (TNode.leaf prB nB pB) b).pages 0 b).Nodup ∧
    (∀ i ∈ reachIds ((u.writeNode (TNode.leaf prA nA pA) a).writeNode
        (TNode.leaf prB nB pB) b).pages 0 a ++
        reachIds ((u.writeNode (TNode.leaf prA nA pA) a).writeNode
          (TNode.leaf prB nB pB) b).pages 0 b,
      i ∈ reachIds u.pages 0 a ++ reachIds u.pages 0 b) := by
  have hpa : ((u.writeNode (TNode.leaf prA nA pA) a).writeNode
      (TNode.leaf prB nB pB) b).pages a = some (TNode.leaf prA nA pA) := by
    rw [writeNode_pages, if_neg hab, writeNode_pages, if_pos rfl]
  have hpb : ((u.writeNode (TNode.leaf prA nA pA) a).writeNode
      (TNode.leaf prB nB pB) b).pages b = some (TNode.leaf prB nB pB) := by
    rw [writeNode_pages, if_pos rfl]
  refine ⟨?_, ?_, ?_, ?_, ?_⟩
  · intro j hja hjb
    rw [writeNode_pages, if_neg hjb, writeNode_pages, if_neg hja]
  · exact (RTree_zero _ _ _ _).mpr ⟨prA, nA, pA, hpa, hcntA.1, hcntA.2⟩
  · exact (RTree_zero _ _ _ _).mpr ⟨prB, nB, pB, hpb, hcntB.1, hcntB.2⟩
  · rw [reachIds_zero, reachIds_zero]
    simp [hab]
  · intro i hi
    rw [reachIds_zero, reachIds_zero] at hi ⊢
    exact hi

/-- Rewriting two distinct internal pages so that their new child lists
redistribute the union of their old children: both stay realized and the
combined footprint shrinks into the old combined footprint. -/
lemma two_interm_redistribute (u : TreeState K V) (d : Nat) (a b : Nat)
    (ka kb koa kob : List K) (pa pb poa pob : List Nat)
    (hab : a ≠ b)
    (hrtA : RTree u.pages u.order (d + 1) 0 a)
    (hrtB : RTree u.pages u.order (d + 1) 0 b)
    (hpa0 : u.pages a = some (TNode.interm koa poa))
    (hpb0 : u.pages b = some (TNode.interm kob pob))
    (hdisAB : List.Disjoint (reachIds u.pages (d + 1) a)
      (reachIds u.pages (d + 1) b))
    (hmem : ∀ p, p ∈ pa ++ pb → p ∈ poa ∨ p ∈ pob)
    (hnd : (pa ++ pb).Nodup)
    (hcntA : (u.order - 1) / 2 ≤ ka.length ∧ ka.length ≤ u.order - 1 ∧
      pa.length = ka.length + 1)
    (hcntB : (u.order - 1) / 2 ≤ kb.length ∧ kb.length ≤ u.order - 1 ∧
      pb.length = kb.length + 1) :
    (∀ j, j ≠ a → j ≠ b →
      ((u.writeNode (TNode.interm ka pa) a).writeNode (TNode.interm kb pb)
        b).pages j = u.pages j) ∧
    RTree ((u.writeNode (TNode.interm ka pa) a).writeNode (TNode.interm kb pb)
      b).pages u.order (d + 1) ((u.order - 1) / 2) a ∧
    RTree ((u.writeNode (TNode.interm ka pa) a).writeNode (TNode.interm kb pb)
      b).pages u.order (d + 1) ((u.order - 1) / 2) b ∧
    (reachIds ((u.writeNode (TNode.interm ka pa) a).writeNode
        (TNode.interm kb pb) b).pages (d + 1) a ++
      reachIds ((u.writeNode (TNode.interm ka pa) a).writeNode
        (TNode.interm kb pb) b).pages (d + 1) b).Nodup ∧
    (∀ i ∈ reachIds ((u.writeNode (TNode.interm ka pa) a).writeNode
        (TNode.interm kb pb) b).pages (d + 1) a ++
        reachIds ((u.writeNode (TNode.interm ka pa) a).writeNode
          (TNode.interm kb pb) b).pages (d + 1) b,
      i ∈ reachIds u.pages (d + 1) a ++ reachIds u.pages (d + 1) b) := by
  obtain ⟨hA1, hA2, hA3, hchA, hdisjA, hidmA, hndA⟩ :=
    RTree_succ_parts u.pages u.order d 0 a koa poa hrtA hpa0
  obtain ⟨hB1, hB2, hB3, hchB, hdisjB, hidmB, hndB⟩ :=
    RTree_succ_parts u.pages u.order d 0 b kob pob hrtB hpb0
  have hsubA : ∀ p ∈ poa, ∀ i ∈ reachIds u.pages d p,
      i ∈ reachIds u.pages (d + 1) a :=
    fun p hpm => reachIds_sub u.pages d a p koa poa hpa0 hpm
  have hsubB : ∀ p ∈ pob, ∀ i ∈ reachIds u.pages d p,
      i ∈ reachIds u.pages (d + 1) b :=
    fun p hpm => reachIds_sub u.pages d b p kob pob hpb0 hpm
  -- a and b avoid every grandchild footprint
  have hanot : ∀ p, p ∈ poa ∨ p ∈ pob → a ∉ reachIds u.pages d p := by
    intro p hpm hc
    rcases hpm with hpm | hpm
    · exact hidmA p hpm hc
    · exact hdisAB (reachIds_self u.pages (d + 1) a) (hsubB p hpm a hc)
  have hbnot : ∀ p, p ∈ poa ∨ p ∈ pob → b ∉ reachIds u.pages d p := by
    intro p hpm hc
    rcases hpm with hpm | hpm
    · exact hdisAB (hsubA p hpm b hc) (reachIds_self u.pages (d + 1) b)
    · exact hidmB p hpm hc
  -- grandchild subtrees survive the two writes
  have htp : ∀ j, ((u.writeNode (TNode.interm ka pa) a).writeNode
      (TNode.interm kb pb) b).pages j =
      if j = b then some (TNode.interm kb pb)
      else if j = a then some (TNode.interm ka pa) else u.pages j := fun j => rfl
  have hsafe : ∀ p, p ∈ poa ∨ p ∈ pob →
      ∀ i ∈ reachIds u.pages d p,
        countKeep (u.pages i) (((u.writeNode (TNode.interm ka pa) a).writeNode
          (TNode.interm kb pb) b).pages i) := by
    intro p hpm i hi
    have hia : i ≠ a := fun h => hanot p hpm (h ▸ hi)
    have hib : i ≠ b := fun h => hbnot p hpm (h ▸ hi)
    rw [htp i, if_neg hib, if_neg hia]
    exact countKeep_refl _
  have hchT : ∀ p, p ∈ poa ∨ p ∈ pob →
      RTree ((u.writeNode (TNode.interm ka pa) a).writeNode (TNode.interm kb pb)
        b).pages u.order d ((u.order - 1) / 2) p ∧
      reachIds ((u.writeNode (TNode.interm ka pa) a).writeNode
        (TNode.interm kb pb) b).pages d p = reachIds u.pages d p := by
    intro p hpm
    have hbase : RTree u.pages u.order d ((u.order - 1) / 2) p := by
      rcases hpm with hpm | hpm
      · exact hchA p hpm
      · exact hchB p hpm
    exact ⟨RTree_frame _ _ _ d _ p (hsafe p hpm) hbase,
      reachIds_frame _ _ d p (hsafe p hpm)⟩
  -- member-based disjointness over the union of old children
  have hdisU : ∀ p, p ∈ poa ∨ p ∈ pob → ∀ q, q ∈ poa ∨ q ∈ pob → p ≠ q →
      List.Disjoint (reachIds u.pages d p) (reachIds u.pages d q) := by
    intro p hpm q hqm hne
    rcases hpm with hpm | hpm <;> rcases hqm with hqm | hqm
    · exact disjoint_of_pairwise_map poa _ hdisjA p q hpm hqm hne
    · exact fun x hx hy => hdisAB (hsubA p hpm x hx) (hsubB q hqm x hy)
    · exact fun x hx hy => hdisAB (hsubA q hqm x hy) (hsubB p hpm x hx)
    · exact disjoint_of_pairwise_map pob _ hdisjB p q hpm hqm hne
  have hndpa : pa.Nodup := (List.nodup_append.mp hnd).1
  have hndpb : pb.Nodup := (List.nodup_append.mp hnd).2.1
  have hpamem : ∀ p ∈ pa, p ∈ poa ∨ p ∈ pob :=
    fun p hpm => hmem p (List.mem_append.mpr (Or.inl hpm))
  have hpbmem : ∀ p ∈ pb, p ∈ poa ∨ p ∈ pob :=
    fun p hpm => hmem p (List.mem_append.mpr (Or.inr hpm))
  have hpaT : ((u.writeNode (TNode.interm ka pa) a).writeNode (TNode.interm kb pb)
      b).pages a = some (TNode.interm ka pa) := by
    rw [htp a, if_neg hab, if_pos rfl]
  have hpbT : ((u.writeNode (TNode.interm ka pa) a).writeNode (TNode.interm kb pb)
      b).pages b = some (TNode.interm kb pb) := by
    rw [htp b, if_pos rfl]
  have hrtA2 : RTree ((u.writeNode (TNode.interm ka pa) a).writeNode
      (TNode.interm kb pb) b).pages u.order (d + 1) ((u.order - 1) / 2) a := by
    refine RTree_node_build _ u.order d _ a ka pa hpaT hcntA.1 hcntA.2.1 hcntA.2.2
      (fun p hpm => (hchT p (hpamem p hpm)).1) ?_ ?_
    · rw [List.pairwise_map]
      refine hndpa.pairwise_of_forall_ne ?_
      intro p hpm q hqm hne
      rw [(hchT p (hpamem p hpm)).2, (hchT q (hpamem q hqm)).2]
      exact hdisU p (hpamem p hpm) q (hpamem q hqm) hne
    · intro p hpm
      rw [(hchT p (hpamem p hpm)).2]
      exact hanot p (hpamem p hpm)
  have hrtB2 : RTree ((u.writeNode (TNode.interm ka pa) a).writeNode
      (TNode.interm kb pb) b).pages u.order (d + 1) ((u.order - 1) / 2) b := by
    refine RTree_node_build _ u.order d _ b kb pb hpbT hcntB.1 hcntB.2.1 hcntB.2.2
      (fun p hpm => (hchT p (hpbmem p hpm)).1) ?_ ?_
    · rw [List.pairwise_map]
      refine hndpb.pairwise_of_forall_ne ?_
      intro p hpm q hqm hne
      rw [(hchT p (hpbmem p hpm)).2, (hchT q (hpbmem q hqm)).2]
      exact hdisU p (hpbmem p hpm) q (hpbmem q hqm) hne
    · intro p hpm
      rw [(hchT p (hpbmem p hpm)).2]
      exact hbnot p (hpbmem p hpm)
  have hclT : ∀ i ∈ reachIds ((u.writeNode (TNode.interm ka pa) a).writeNode
      (TNode.interm kb pb) b).pages (d + 1) a ++
      reachIds ((u.writeNode (TNode.interm ka pa) a).writeNode
        (TNode.interm kb pb) b).pages (d + 1) b,
      i ∈ reachIds u.pages (d + 1) a ++ reachIds u.pages (d + 1) b := by
    intro i hi
    rcases List.mem_append.mp hi with hi | hi
    · rw [reachIds_succ_interm _ d a ka pa hpaT] at hi
      rcases List.mem_cons.mp hi with hi | hi
      · subst hi
        exact List.mem_append.mpr (Or.inl (reachIds_self u.pages (d + 1) i))
      · obtain ⟨l, hl, hil⟩ := List.mem_flatten.mp hi
        obtain ⟨p, hpm, hpe⟩ := List.mem_map.mp hl
        rw [← hpe, (hchT p (hpamem p hpm)).2] at hil
        rcases hpamem p hpm with h | h
        · exact List.mem_append.mpr (Or.inl (hsubA p h i hil))
        · exact List.mem_append.mpr (Or.inr (hsubB p h i hil))
    · rw [reachIds_succ_interm _ d b kb pb hpbT] at hi
      rcases List.mem_cons.mp hi with hi | hi
      · subst hi
        exact List.mem_append.mpr (Or.inr (reachIds_self u.pages (d + 1) i))
      · obtain ⟨l, hl, hil⟩ := List.mem_flatten.mp hi
        obtain ⟨p, hpm, hpe⟩ := List.mem_map.mp hl
        rw [← hpe, (hchT p (hpbmem p hpm)).2] at hil
        rcases hpbmem p hpm with h | h
        · exact List.mem_append.mpr (Or.inl (hsubA p h i hil))
        · exact List.mem_append.mpr (Or.inr (hsubB p h i hil))
  refine ⟨?_, hrtA2, hrtB2, ?_, hclT⟩
  · intro j hja hjb
    rw [htp j, if_neg hjb, if_neg hja]
  · rw [List.nodup_append]
    refine ⟨RTree_nodup _ _ _ _ _ hrtA2, RTree_nodup _ _ _ _ _ hrtB2, ?_⟩
    intro x hxA hxB
    rw [reachIds_succ_interm _ d a ka pa hpaT] at hxA
    rw [reachIds_succ_interm _ d b kb pb hpbT] at hxB
    rcases List.mem_cons.mp hxA with hxA | hxA <;>
      rcases List.mem_cons.mp hxB with hxB | hxB
    · exact hab (hxA.symm.trans hxB ▸ rfl)
    · obtain ⟨l, hl, hxl⟩ := List.mem_flatten.mp hxB
      obtain ⟨q, hqm, hqe⟩ := List.mem_map.mp hl
      subst hxA
      rw [← hqe, (hchT q (hpbmem q hqm)).2] at hxl
      exact hanot q (hpbmem q hqm) hxl
    · obtain ⟨l, hl, hxl⟩ := List.mem_flatten.mp hxA
      obtain ⟨q, hqm, hqe⟩ := List.mem_map.mp hl
      subst hxB
      rw [← hqe, (hchT q (hpamem q hqm)).2] at hxl
      exact hbnot q (hpamem q hqm) hxl
    · obtain ⟨l, hl, hxl⟩ := List.mem_flatten.mp hxA
      obtain ⟨q, hqm, hqe⟩ := List.mem_map.mp hl
      obtain ⟨l2, hl2, hxl2⟩ := List.mem_flatten.mp hxB
      obtain ⟨q2, hqm2, hqe2⟩ := List.mem_map.mp hl2
      rw [← hqe, (hchT q (hpamem q hqm)).2] at hxl
      rw [← hqe2, (hchT q2 (hpbmem q2 hqm2)).2] at hxl2
      by_cases hqq : q = q2
      · subst hqq
        exact (List.nodup_append.mp hnd).2.2 hqm hqm2
      · exact hdisU q (hpamem q hqm) q2 (hpbmem q2 hqm2) hqq hxl hxl2

/-- The last element belongs to the list. -/
lemma mem_of_getLast?Go {α : Type} (l : List α) (x : α) (h : l.getLast? = some x) :
    x ∈ l := by
  cases l with
  | nil => cases h
  | cons a t =>
    have hne : a :: t ≠ [] := by simp
    rw [List.getLast?_eq_getLast _ hne] at h
    injection h with h
    rw [← h]
    exact List.getLast_mem hne

/-- Dropping the last element of a duplicate-free list drops it for good. -/
lemma getLast?_not_mem_dropLast {α : Type} (l : List α) (x : α)
    (hn : l.Nodup) (h : l.getLast? = some x) : x ∉ l.dropLast := by
  cases l with
  | nil => cases h
  | cons a t =>
    have hne : a :: t ≠ [] := by simp
    rw [List.getLast?_eq_getLast _ hne] at h
    injection h with h
    have hsplit := List.dropLast_append_getLast hne
    intro hc
    have hn2 := hn
    rw [← hsplit, List.nodup_append] at hn2
    exact hn2.2.2 hc (h ▸ List.mem_singleton_self _)

/-- Inserting at the front. -/
lemma insertAtGo_zero {α : Type} (l : List α) (a : α) :
    insertAtGo l 0 a = a :: l := by
  rw [insertAtGo_eq l 0 a (Nat.zero_le _)]
  simp

/-- What a successful borrowFromLeft guarantees: the two siblings are
rebalanced in place, both meeting the minimum, on the same combined
footprint; the parent key list keeps its length. -/
lemma borrowFromLeft_spec [LinearOrder K] (u u' : TreeState K V)
    (d : Nat) (keys keys' : List K) (ptrs : List Nat) (ci : Nat) (cL cC : Nat)
    (hrtL : RTree u.pages u.order d 0 (ptrs.getD (ci - 1) 0))
    (hrtC : RTree u.pages u.order d 0 (ptrs.getD ci 0))
    (hcL : topCount u.pages (ptrs.getD (ci - 1) 0) = some cL)
    (hcC : topCount u.pages (ptrs.getD ci 0) = some cC)
    (hcLb : (u.order - 1) / 2 < cL)
    (hcCb : cC + 1 ≤ u.order - 1)
    (hcCn : (u.order - 1) / 2 ≤ cC + 1)
    (hdisLC : List.Disjoint (reachIds u.pages d (ptrs.getD (ci - 1) 0))
      (reachIds u.pages d (ptrs.getD ci 0)))
    (hrun : u.borrowFromLeft keys ptrs ci = (u', .ok keys')) :
    (∀ j, j ≠ ptrs.getD (ci - 1) 0 → j ≠ ptrs.getD ci 0 →
      u'.pages j = u.pages j) ∧
    u'.root = u.root ∧ u'.order = u.order ∧ u'.fresh = u.fresh ∧
    u'.freeList = u.freeList ∧ keys'.length = keys.length ∧
    RTree u'.pages u.order d ((u.order - 1) / 2) (ptrs.getD (ci - 1) 0) ∧
    RTree u'.pages u.order d ((u.order - 1) / 2) (ptrs.getD ci 0) ∧
    (reachIds u'.pages d (ptrs.getD (ci - 1) 0) ++
      reachIds u'.pages d (ptrs.getD ci 0)).Nodup ∧
    ∀ i ∈ reachIds u'.pages d (ptrs.getD (ci - 1) 0) ++
        reachIds u'.pages d (ptrs.getD ci 0),
      i ∈ reachIds u.pages d (ptrs.getD (ci - 1) 0) ++
        reachIds u.pages d (ptrs.getD ci 0) := by
  have hLC : ptrs.getD (ci - 1) 0 ≠ ptrs.getD ci 0 := by
    intro h
    have h1 : ptrs.getD (ci - 1) 0 ∈ reachIds u.pages d (ptrs.getD ci 0) := by
      rw [← h]
      exact reachIds_self _ _ _
    exact hdisLC (reachIds_self _ _ _) h1
  cases d with
  | zero =>
    obtain ⟨lpr, lnx, lpv, hpL, _, hLmax⟩ := (RTree_zero _ _ _ _).mp hrtL
    obtain ⟨cpr, cnx, cpv, hpC, _, hCmax⟩ := (RTree_zero _ _ _ _).mp hrtC
    have hcL2 : cL = lpr.length := by
      unfold topCount at hcL
      rw [hpL] at hcL
      simp only at hcL
      injection hcL with h
      exact h.symm
    have hcC2 : cC = cpr.length := by
      unfold topCount at hcC
      rw [hpC] at hcC
      simp only at hcC
      injection hcC with h
      exact h.symm
    simp only [TreeState.borrowFromLeft, TreeState.readNode, hpL, hpC] at hrun
    cases hgl : lpr.getLast? with
    | none =>
      rw [hgl] at hrun
      simp at hrun
    | some borrowed =>
      rw [hgl] at hrun
      injection hrun with e1 e2
      injection e2 with e2
      subst e1
      subst e2
      obtain ⟨g1, g2, g3, g4, g5⟩ := two_leaf_redistribute u
        (ptrs.getD (ci - 1) 0) (ptrs.getD ci 0) lpr.dropLast
        (insertAtGo cpr 0 borrowed) lnx lpv cnx cpv hLC
        (by rw [List.length_dropLast]; omega)
        (by rw [insertAtGo_zero, List.length_cons]; omega)
      exact ⟨g1, rfl, rfl, rfl, rfl, List.length_set keys _ _, g2, g3, g4, g5⟩
  | succ d =>
    obtain ⟨lk, lp, hpL, _, hLmax, hLrel, _, _⟩ := (RTree_succ _ _ _ _ _).mp hrtL
    obtain ⟨ck, cp, hpC, _, hCmax, hCrel, _, _⟩ := (RTree_succ _ _ _ _ _).mp hrtC
    obtain ⟨_, _, _, _, _, _, hndlp⟩ :=
      RTree_succ_parts u.pages u.order d 0 _ lk lp hrtL hpL
    obtain ⟨_, _, _, _, _, _, hndcp⟩ :=
      RTree_succ_parts u.pages u.order d 0 _ ck cp hrtC hpC
    have hcL2 : cL = lk.length := by
      unfold topCount at hcL
      rw [hpL] at hcL
      simp only at hcL
      injection hcL with h
      exact h.symm
    have hcC2 : cC = ck.length := by
      unfold topCount at hcC
      rw [hpC] at hcC
      simp only at hcC
      injection hcC with h
      exact h.symm
    simp only [TreeState.borrowFromLeft, TreeState.readNode, hpL, hpC] at hrun
    cases hgk : lk.getLast? with
    | none =>
      rw [hgk] at hrun
      simp at hrun
    | some bKey =>
      cases hgp : lp.getLast? with
      | none =>
        rw [hgk, hgp] at hrun
        simp at hrun
      | some bPtr =>
        rw [hgk, hgp] at hrun
        injection hrun with e1 e2
        injection e2 with e2
        subst e1
        subst e2
        have hbPtrlp : bPtr ∈ lp := mem_of_getLast?Go lp bPtr hgp
        have hsubL : ∀ p ∈ lp, ∀ i ∈ reachIds u.pages d p,
            i ∈ reachIds u.pages (d + 1) (ptrs.getD (ci - 1) 0) :=
          fun p hpm => reachIds_sub u.pages d _ p lk lp hpL hpm
        have hsubC : ∀ p ∈ cp, ∀ i ∈ reachIds u.pages d p,
            i ∈ reachIds u.pages (d + 1) (ptrs.getD ci 0) :=
          fun p hpm => reachIds_sub u.pages d _ p ck cp hpC hpm
        have hbPtrcp : bPtr ∉ cp := by
          intro hc
          exact hdisLC (hsubL bPtr hbPtrlp bPtr (reachIds_self _ _ _))
            (hsubC bPtr hc bPtr (reachIds_self _ _ _))
        obtain ⟨g1, g2, g3, g4, g5⟩ := two_interm_redistribute u d
          (ptrs.getD (ci - 1) 0) (ptrs.getD ci 0)
          lk.dropLast (insertAtGo ck 0 bKey) lk ck
          lp.dropLast (insertAtGo cp 0 bPtr) lp cp
          hLC hrtL hrtC hpL hpC hdisLC
          (by
            intro p hpm
            rcases List.mem_append.mp hpm with hpm | hpm
            · exact Or.inl (List.mem_of_mem_dropLast hpm)
            · rw [insertAtGo_zero] at hpm
              rcases List.mem_cons.mp hpm with hpm | hpm
              · exact Or.inl (hpm ▸ hbPtrlp)
              · exact Or.inr hpm)
          (by
            rw [insertAtGo_zero, List.nodup_append]
            refine ⟨hndlp.sublist (List.dropLast_sublist lp),
              List.nodup_cons.mpr ⟨hbPtrcp, hndcp⟩, ?_⟩
            intro x hx hc
            rcases List.mem_cons.mp hc with hc | hc
            · subst hc
              exact getLast?_not_mem_dropLast lp x hndlp hgp hx
            · exact hdisLC
                (hsubL x (List.mem_of_mem_dropLast hx) x (reachIds_self _ _ _))
                (hsubC x hc x (reachIds_self _ _ _)))
          (by
            refine ⟨by rw [List.length_dropLast]; omega,
              by rw [List.length_dropLast]; omega,
              by rw [List.length_dropLast, List.length_dropLast]; omega⟩)
          (by
            rw [insertAtGo_zero, insertAtGo_zero]
            refine ⟨by rw [List.length_cons]; omega, by rw [List.length_cons]; omega,
              by rw [List.length_cons, List.length_cons]; omega⟩)
        exact ⟨g1, rfl, rfl, rfl, rfl, List.length_set keys _ _, g2, g3, g4, g5⟩

/-- What a successful borrowFromRight guarantees: mirror image of
borrowFromLeft. -/
lemma borrowFromRight_spec [LinearOrder K] (u u' : TreeState K V)
    (d : Nat) (keys keys' : List K) (ptrs : List Nat) (ci : Nat) (cR cC : Nat)
    (hrtR : RTree u.pages u.order d 0 (ptrs.getD (ci + 1) 0))
    (hrtC : RTree u.pages u.order d 0 (ptrs.getD ci 0))
    (hcR : topCount u.pages (ptrs.getD (ci + 1) 0) = some cR)
    (hcC : topCount u.pages (ptrs.getD ci 0) = some cC)
    (hcRb : (u.order - 1) / 2 < cR)
    (hcCb : cC + 1 ≤ u.order - 1)
    (hcCn : (u.order - 1) / 2 ≤ cC + 1)
    (hdisRC : List.Disjoint (reachIds u.pages d (ptrs.getD (ci + 1) 0))
      (reachIds u.pages d (ptrs.getD ci 0)))
    (hrun : u.borrowFromRight keys ptrs ci = (u', .ok keys')) :
    (∀ j, j ≠ ptrs.getD (ci + 1) 0 → j ≠ ptrs.getD ci 0 →
      u'.pages j = u.pages j) ∧
    u'.root = u.root ∧ u'.order = u.order ∧ u'.fresh = u.fresh ∧
    u'.freeList = u.freeList ∧ keys'.length = keys.length ∧
    RTree u'.pages u.order d ((u.order - 1) / 2) (ptrs.getD (ci + 1) 0) ∧
    RTree u'.pages u.order d ((u.order - 1) / 2) (ptrs.getD ci 0) ∧
    (reachIds u'.pages d (ptrs.getD (ci + 1) 0) ++
      reachIds u'.pages d (ptrs.getD ci 0)).Nodup ∧
    ∀ i ∈ reachIds u'.pages d (ptrs.getD (ci + 1) 0) ++
        reachIds u'.pages d (ptrs.getD ci 0),
      i ∈ reachIds u.pages d (ptrs.getD (ci + 1) 0) ++
        reachIds u.pages d (ptrs.getD ci 0) := by
  have hRC : ptrs.getD (ci + 1) 0 ≠ ptrs.getD ci 0 := by
    intro h
    have h1 : ptrs.getD (ci + 1) 0 ∈ reachIds u.pages d (ptrs.getD ci 0) := by
      rw [← h]
      exact reachIds_self _ _ _
    exact hdisRC (reachIds_self _ _ _) h1
  cases d with
  | zero =>
    obtain ⟨rpr, rnx, rpv, hpR, _, hRmax⟩ := (RTree_zero _ _ _ _).mp hrtR
    obtain ⟨cpr, cnx, cpv, hpC, _, hCmax⟩ := (RTree_zero _ _ _ _).mp hrtC
    have hcR2 : cR = rpr.length := by
      unfold topCount at hcR
      rw [hpR] at hcR
      simp only at hcR
      injection hcR with h
      exact h.symm
    have hcC2 : cC = cpr.length := by
      unfold topCount at hcC
      rw [hpC] at hcC
      simp only at hcC
      injection hcC with h
      exact h.symm
    simp only [TreeState.borrowFromRight, TreeState.readNode, hpR, hpC] at hrun
    cases rpr with
    | nil => simp at hrun
    | cons borrowed rpr1 =>
      injection hrun with e1 e2
      injection e2 with e2
      subst e1
      subst e2
      obtain ⟨g1, g2, g3, g4, g5⟩ := two_leaf_redistribute u
        (ptrs.getD (ci + 1) 0) (ptrs.getD ci 0) rpr1
        (cpr ++ [borrowed]) rnx rpv cnx cpv hRC
        (by
          have h1 : (borrowed :: rpr1).length = rpr1.length + 1 :=
            List.length_cons _ _
          omega)
        (by rw [List.length_append, List.length_singleton]; omega)
      refine ⟨g1, rfl, rfl, rfl, rfl, ?_, g2, g3, g4, g5⟩
      by_cases hc : 0 < rpr1.length
      · rw [if_pos hc]
        exact List.length_set keys _ _
      · rw [if_neg hc]
  | succ d =>
    obtain ⟨rk, rp, hpR, _, hRmax, hRrel, _, _⟩ := (RTree_succ _ _ _ _ _).mp hrtR
    obtain ⟨ck, cp, hpC, _, hCmax, hCrel, _, _⟩ := (RTree_succ _ _ _ _ _).mp hrtC
    obtain ⟨_, _, _, _, _, _, hndrp⟩ :=
      RTree_succ_parts u.pages u.order d 0 _ rk rp hrtR hpR
    obtain ⟨_, _, _, _, _, _, hndcp⟩ :=
      RTree_succ_parts u.pages u.order d 0 _ ck cp hrtC hpC
    have hcR2 : cR = rk.length := by
      unfold topCount at hcR
      rw [hpR] at hcR
      simp only at hcR
      injection hcR with h
      exact h.symm
    have hcC2 : cC = ck.length := by
      unfold topCount at hcC
      rw [hpC] at hcC
      simp only at hcC
      injection hcC with h
      exact h.symm
    simp only [TreeState.borrowFromRight, TreeState.readNode, hpR, hpC] at hrun
    cases rk with
    | nil => simp at hrun
    | cons bKey rk1 =>
      cases rp with
      | nil => simp at hrun
      | cons bPtr rp1 =>
        injection hrun with e1 e2
        injection e2 with e2
        subst e1
        subst e2
        have hbPtrrp : bPtr ∈ bPtr :: rp1 := List.mem_cons_self _ _
        have hsubR : ∀ p ∈ bPtr :: rp1, ∀ i ∈ reachIds u.pages d p,
            i ∈ reachIds u.pages (d + 1) (ptrs.getD (ci + 1) 0) :=
          fun p hpm => reachIds_sub u.pages d _ p (bKey :: rk1) (bPtr :: rp1) hpR hpm
        have hsubC : ∀ p ∈ cp, ∀ i ∈ reachIds u.pages d p,
            i ∈ reachIds u.pages (d + 1) (ptrs.getD ci 0) :=
          fun p hpm => reachIds_sub u.pages d _ p ck cp hpC hpm
        have hbPtrcp : bPtr ∉ cp := by
          intro hc
          exact hdisRC (hsubR bPtr hbPtrrp bPtr (reachIds_self _ _ _))
            (hsubC bPtr hc bPtr (reachIds_self _ _ _))
        obtain ⟨g1, g2, g3, g4, g5⟩ := two_interm_redistribute u d
          (ptrs.getD (ci + 1) 0) (ptrs.getD ci 0)
          rk1 (ck ++ [bKey]) (bKey :: rk1) ck
          rp1 (cp ++ [bPtr]) (bPtr :: rp1) cp
          hRC hrtR hrtC hpR hpC hdisRC
          (by
            intro p hpm
            rcases List.mem_append.mp hpm with hpm | hpm
            · exact Or.inl (List.mem_cons_of_mem _ hpm)
            · rcases List.mem_append.mp hpm with hpm | hpm
              · exact Or.inr hpm
              · rcases List.mem_singleton.mp hpm with hpm
                exact Or.inl (hpm ▸ hbPtrrp))
          (by
            rw [List.nodup_append]
            refine ⟨(List.nodup_cons.mp hndrp).2, ?_, ?_⟩
            · rw [List.nodup_append]
              refine ⟨hndcp, List.nodup_singleton _, ?_⟩
              intro x hx hc
              rcases List.mem_singleton.mp hc with hc
              subst hc
              exact hbPtrcp hx
            · intro x hx hc
              rcases List.mem_append.mp hc with hc | hc
              · exact hdisRC
                  (hsubR x (List.mem_cons_of_mem _ hx) x (reachIds_self _ _ _))
                  (hsubC x hc x (reachIds_self _ _ _))
              · rcases List.mem_singleton.mp hc with hc
                subst hc
                exact (List.nodup_cons.mp hndrp).1 hx)
          (by
            have h1 : (bKey :: rk1).length = rk1.length + 1 := List.length_cons _ _
            have h2 : (bPtr :: rp1).length = rp1.length + 1 := List.length_cons _ _
            refine ⟨by omega, by omega, by omega⟩)
          (by
            have h1 : (bKey :: rk1).length = rk1.length + 1 := List.length_cons _ _
            have h2 : (bPtr :: rp1).length = rp1.length + 1 := List.length_cons _ _
            rw [List.length_append, List.length_append, List.length_singleton,
              List.length_singleton]
            refine ⟨by omega, by omega, by omega⟩)
        refine ⟨g1, rfl, rfl, rfl, rfl, ?_, g2, g3, g4, g5⟩
        by_cases hc : 0 < rk1.length
        · rw [if_pos hc]
          exact List.length_set keys _ _
        · rw [if_neg hc]

/-- The page view after merging into page a, rewriting page b, and
freeing b. -/
lemma merge_pages_view (u0 : TreeState K V) (a b : Nat)
    (merged other : TNode K V) :
    ∀ j, (((u0.writeNode merged a).writeNode other b).freePage b).pages j =
      if j = b then none else if j = a then some merged else u0.pages j := by
  intro j
  show (if j = b then none
    else if j = b then some other
    else if j = a then some merged else u0.pages j) = _
  by_cases h1 : j = b
  · rw [if_pos h1, if_pos h1]
  · rw [if_neg h1, if_neg h1, if_neg h1]

/-- Header, free-list and liveness facts shared by both merge paths: after
count-preserving patches, the merged node is written over page a, page b
is rewritten and then freed. -/
lemma merge_state_facts (u u0 u' : TreeState K V) (a b : Nat)
    (merged other : TNode K V)
    (hW : WfFree u) (hokB : pageOk u b)
    (hck : ∀ j, countKeep (u.pages j) (u0.pages j))
    (hhdr : u0.root = u.root ∧ u0.order = u.order ∧ u0.freeList = u.freeList ∧
      u0.fresh = u.fresh)
    (hs' : u' = ((u0.writeNode merged a).writeNode other b).freePage b) :
    (∀ j, j ≠ a → j ≠ b → countKeep (u.pages j) (u'.pages j)) ∧
    u'.root = u.root ∧ u'.order = u.order ∧ u'.fresh = u.fresh ∧
    u'.freeList = b :: u.freeList ∧ WfFree u' ∧
    (∀ i, pageOk u' i → pageOk u i) := by
  obtain ⟨e1, e2, e3, e4⟩ := hhdr
  have hroot : u'.root = u.root := by rw [hs']; exact e1
  have horder : u'.order = u.order := by rw [hs']; exact e2
  have hfresh : u'.fresh = u.fresh := by rw [hs']; exact e4
  have hfl : u'.freeList = b :: u.freeList := by
    rw [hs']
    show b :: u0.freeList = b :: u.freeList
    rw [e3]
  refine ⟨?_, hroot, horder, hfresh, hfl, ?_, ?_⟩
  · intro j hja hjb
    have hv : u'.pages j = u0.pages j := by
      rw [hs', merge_pages_view u0 a b merged other j, if_neg hjb, if_neg hja]
    rw [hv]
    exact hck j
  · obtain ⟨w1, w2, w3, w4⟩ := hW
    refine ⟨?_, ?_, ?_, ?_⟩
    · rw [horder]; exact w1
    · rw [hfresh]; exact w2
    · rw [hfl]
      exact List.nodup_cons.mpr ⟨hokB.2.2, w3⟩
    · rw [hfl, hfresh]
      intro i hi
      rcases List.mem_cons.mp hi with hi | hi
      · subst hi
        exact ⟨hokB.1, hokB.2.1⟩
      · exact w4 i hi
  · intro i hi
    obtain ⟨h1, h2, h3⟩ := hi
    rw [hfresh] at h2
    rw [hfl] at h3
    exact ⟨h1, h2, fun hc => h3 (List.mem_cons_of_mem _ hc)⟩

/-- Finishing a leaf merge: the merged leaf realizes the minimum on the
surviving page and the freed page leaves the footprint. -/
lemma merge_leaf_finish (u u0 u' : TreeState K V) (a b : Nat)
    (prM : List (K × V)) (nxM pvM : Nat) (other : TNode K V)
    (hW : WfFree u) (hokB : pageOk u b) (hab : a ≠ b)
    (hck : ∀ j, countKeep (u.pages j) (u0.pages j))
    (hhdr : u0.root = u.root ∧ u0.order = u.order ∧ u0.freeList = u.freeList ∧
      u0.fresh = u.fresh)
    (hs' : u' = ((u0.writeNode (TNode.leaf prM nxM pvM) a).writeNode other
      b).freePage b)
    (hcnt : (u.order - 1) / 2 ≤ prM.length ∧ prM.length ≤ u.order - 1) :
    (∀ j, j ≠ a → j ≠ b → countKeep (u.pages j) (u'.pages j)) ∧
    u'.root = u.root ∧ u'.order = u.order ∧ u'.fresh = u.fresh ∧
    u'.freeList = b :: u.freeList ∧ WfFree u' ∧
    (∀ i, pageOk u' i → pageOk u i) ∧
    RTree u'.pages u.order 0 ((u.order - 1) / 2) a ∧
    (∀ i ∈ reachIds u'.pages 0 a,
      i ∈ reachIds u.pages 0 a ++ reachIds u.pages 0 b ∧ i ≠ b) := by
  obtain ⟨g1, g2, g3, g4, g5, g6, g7⟩ :=
    merge_state_facts u u0 u' a b (TNode.leaf prM nxM pvM) other hW hokB hck hhdr hs'
  have hpaT : u'.pages a = some (TNode.leaf prM nxM pvM) := by
    rw [hs', merge_pages_view u0 a b _ other a, if_neg hab, if_pos rfl]
  refine ⟨g1, g2, g3, g4, g5, g6, g7, ?_, ?_⟩
  · exact (RTree_zero _ _ _ _).mpr ⟨prM, nxM, pvM, hpaT, hcnt.1, hcnt.2⟩
  · intro i hi
    rw [reachIds_zero] at hi
    rcases List.mem_singleton.mp hi with hi
    refine ⟨?_, ?_⟩
    · rw [hi]
      exact List.mem_append.mpr (Or.inl (reachIds_self u.pages 0 a))
    · rw [hi]
      exact hab

/-- Finishing an internal merge: the merged node adopts the union of the
two nodes' children and realizes the minimum on the surviving page. -/
lemma merge_interm_finish (u u' : TreeState K V) (d a b : Nat)
    (kM koa kob : List K) (pM poa pob : List Nat) (other : TNode K V)
    (hW : WfFree u) (hokB : pageOk u b) (hab : a ≠ b)
    (hrtA : RTree u.pages u.order (d + 1) 0 a)
    (hrtB : RTree u.pages u.order (d + 1) 0 b)
    (hpa0 : u.pages a = some (TNode.interm koa poa))
    (hpb0 : u.pages b = some (TNode.interm kob pob))
    (hdisAB : List.Disjoint (reachIds u.pages (d + 1) a)
      (reachIds u.pages (d + 1) b))
    (hs' : u' = ((u.writeNode (TNode.interm kM pM) a).writeNode other
      b).freePage b)
    (hmem : ∀ p ∈ pM, p ∈ poa ∨ p ∈ pob)
    (hnd : pM.Nodup)
    (hcnt : (u.order - 1) / 2 ≤ kM.length ∧ kM.length ≤ u.order - 1 ∧
      pM.length = kM.length + 1) :
    (∀ j, j ≠ a → j ≠ b → countKeep (u.pages j) (u'.pages j)) ∧
    u'.root = u.root ∧ u'.order = u.order ∧ u'.fresh = u.fresh ∧
    u'.freeList = b :: u.freeList ∧ WfFree u' ∧
    (∀ i, pageOk u' i → pageOk u i) ∧
    RTree u'.pages u.order (d + 1) ((u.order - 1) / 2) a ∧
    (∀ i ∈ reachIds u'.pages (d + 1) a,
      i ∈ reachIds u.pages (d + 1) a ++ reachIds u.pages (d + 1) b ∧ i ≠ b) := by
  obtain ⟨g1, g2, g3, g4, g5, g6, g7⟩ :=
    merge_state_facts u u u' a b (TNode.interm kM pM) other hW hokB
      (fun j => countKeep_refl _) ⟨rfl, rfl, rfl, rfl⟩ hs'
  obtain ⟨_, _, _, hchA, hdisjA, hidmA, hndpoa⟩ :=
    RTree_succ_parts u.pages u.order d 0 a koa poa hrtA hpa0
  obtain ⟨_, _, _, hchB, hdisjB, hidmB, hndpob⟩ :=
    RTree_succ_parts u.pages u.order d 0 b kob pob hrtB hpb0
  have hsubA : ∀ p ∈ poa, ∀ i ∈ reachIds u.pages d p,
      i ∈ reachIds u.pages (d + 1) a :=
    fun p hpm => reachIds_sub u.pages d a p koa poa hpa0 hpm
  have hsubB : ∀ p ∈ pob, ∀ i ∈ reachIds u.pages d p,
      i ∈ reachIds u.pages (d + 1) b :=
    fun p hpm => reachIds_sub u.pages d b p kob pob hpb0 hpm
  have hanot : ∀ p, p ∈ poa ∨ p ∈ pob → a ∉ reachIds u.pages d p := by
    intro p hpm hc
    rcases hpm with hpm | hpm
    · exact hidmA p hpm hc
    · exact hdisAB (reachIds_self u.pages (d + 1) a) (hsubB p hpm a hc)
  have hbnot : ∀ p, p ∈ poa ∨ p ∈ pob → b ∉ reachIds u.pages d p := by
    intro p hpm hc
    rcases hpm with hpm | hpm
    · exact hdisAB (hsubA p hpm b hc) (reachIds_self u.pages (d + 1) b)
    · exact hidmB p hpm hc
  have hview : ∀ j, u'.pages j =
      if j = b then none else if j = a then some (TNode.interm kM pM)
      else u.pages j := by
    intro j
    rw [hs']
    exact merge_pages_view u a b _ other j
  have hsafe : ∀ p, p ∈ poa ∨ p ∈ pob → ∀ i ∈ reachIds u.pages d p,
      countKeep (u.pages i) (u'.pages i) := by
    intro p hpm i hi
    have hia : i ≠ a := fun h => hanot p hpm (h ▸ hi)
    have hib : i ≠ b := fun h => hbnot p hpm (h ▸ hi)
    rw [hview i, if_neg hib, if_neg hia]
    exact countKeep_refl _
  have hchT : ∀ p, p ∈ poa ∨ p ∈ pob →
      RTree u'.pages u.order d ((u.order - 1) / 2) p ∧
      reachIds u'.pages d p = reachIds u.pages d p := by
    intro p hpm
    have hbase : RTree u.pages u.order d ((u.order - 1) / 2) p := by
      rcases hpm with hpm | hpm
      · exact hchA p hpm
      · exact hchB p hpm
    exact ⟨RTree_frame _ _ _ d _ p (hsafe p hpm) hbase,
      reachIds_frame _ _ d p (hsafe p hpm)⟩
  have hdisU : ∀ p, p ∈ poa ∨ p ∈ pob → ∀ q, q ∈ poa ∨ q ∈ pob → p ≠ q →
      List.Disjoint (reachIds u.pages d p) (reachIds u.pages d q) := by
    intro p hpm q hqm hne
    rcases hpm with hpm | hpm <;> rcases hqm with hqm | hqm
    · exact disjoint_of_pairwise_map poa _ hdisjA p q hpm hqm hne
    · exact fun x hx hy => hdisAB (hsubA p hpm x hx) (hsubB q hqm x hy)
    · exact fun x hx hy => hdisAB (hsubA q hqm x hy) (hsubB p hpm x hx)
    · exact disjoint_of_pairwise_map pob _ hdisjB p q hpm hqm hne
  have hpaT : u'.pages a = some (TNode.interm kM pM) := by
    rw [hview a, if_neg hab, if_pos rfl]
  have hrtA2 : RTree u'.pages u.order (d + 1) ((u.order - 1) / 2) a := by
    refine RTree_node_build _ u.order d _ a kM pM hpaT hcnt.1 hcnt.2.1 hcnt.2.2
      (fun p hpm => (hchT p (hmem p hpm)).1) ?_ ?_
    · rw [List.pairwise_map]
      refine hnd.pairwise_of_forall_ne ?_
      intro p hpm q hqm hne
      rw [(hchT p (hmem p hpm)).2, (hchT q (hmem q hqm)).2]
      exact hdisU p (hmem p hpm) q (hmem q hqm) hne
    · intro p hpm
      rw [(hchT p (hmem p hpm)).2]
      exact hanot p (hmem p hpm)
  refine ⟨g1, g2, g3, g4, g5, g6, g7, hrtA2, ?_⟩
  intro i hi
  rw [reachIds_succ_interm _ d a kM pM hpaT] at hi
  rcases List.mem_cons.mp hi with hi | hi
  · refine ⟨?_, ?_⟩
    · rw [hi]
      exact List.mem_append.mpr (Or.inl (reachIds_self u.pages (d + 1) a))
    · rw [hi]
      exact hab
  · obtain ⟨l, hl, hil⟩ := List.mem_flatten.mp hi
    obtain ⟨p, hpm, hpe⟩ := List.mem_map.mp hl
    rw [← hpe, (hchT p (hmem p hpm)).2] at hil
    have hib : i ≠ b := fun h => hbnot p (hmem p hpm) (h ▸ hil)
    rcases hmem p hpm with h | h
    · exact ⟨List.mem_append.mpr (Or.inl (hsubA p h i hil)), hib⟩
    · exact ⟨List.mem_append.mpr (Or.inr (hsubB p h i hil)), hib⟩

/-- What a successful mergeLeft guarantees: the child is absorbed into its
left sibling, the child's page is freed, and the merged node realizes the
minimum on the left sibling's page. -/
lemma mergeLeft_spec [LinearOrder K] (u u' : TreeState K V) (d : Nat)
    (keys : List K) (ptrs : List Nat) (ci : Nat) (cL cC : Nat)
    (hW : WfFree u)
    (hrtL : RTree u.pages u.order d 0 (ptrs.getD (ci - 1) 0))
    (hrtC : RTree u.pages u.order d 0 (ptrs.getD ci 0))
    (hcL : topCount u.pages (ptrs.getD (ci - 1) 0) = some cL)
    (hcC : topCount u.pages (ptrs.getD ci 0) = some cC)
    (hsum1 : (u.order - 1) / 2 ≤ cL + cC)
    (hsum2 : cL + cC + 1 ≤ u.order - 1)
    (hdisLC : List.Disjoint (reachIds u.pages d (ptrs.getD (ci - 1) 0))
      (reachIds u.pages d (ptrs.getD ci 0)))
    (hokC : pageOk u (ptrs.getD ci 0))
    (hrun : u.mergeLeft keys ptrs ci = (u', .ok ())) :
    (∀ j, j ≠ ptrs.getD (ci - 1) 0 → j ≠ ptrs.getD ci 0 →
      countKeep (u.pages j) (u'.pages j)) ∧
    u'.root = u.root ∧ u'.order = u.order ∧ u'.fresh = u.fresh ∧
    u'.freeList = ptrs.getD ci 0 :: u.freeList ∧ WfFree u' ∧
    (∀ i, pageOk u' i → pageOk u i) ∧
    RTree u'.pages u.order d ((u.order - 1) / 2) (ptrs.getD (ci - 1) 0) ∧
    (∀ i ∈ reachIds u'.pages d (ptrs.getD (ci - 1) 0),
      i ∈ reachIds u.pages d (ptrs.getD (ci - 1) 0) ++
        reachIds u.pages d (ptrs.getD ci 0) ∧ i ≠ ptrs.getD ci 0) := by
  have hab : ptrs.getD (ci - 1) 0 ≠ ptrs.getD ci 0 := by
    intro h
    have h1 : ptrs.getD (ci - 1) 0 ∈ reachIds u.pages d (ptrs.getD ci 0) := by
      rw [← h]
      exact reachIds_self _ _ _
    exact hdisLC (reachIds_self _ _ _) h1
  cases d with
  | zero =>
    obtain ⟨lpr, lnx, lpv, hpL, _, hLmax⟩ := (RTree_zero _ _ _ _).mp hrtL
    obtain ⟨cpr, cnx, cpv, hpC, _, hCmax⟩ := (RTree_zero _ _ _ _).mp hrtC
    have hcL2 : cL = lpr.length := by
      unfold topCount at hcL
      rw [hpL] at hcL
      simp only at hcL
      injection hcL with h
      exact h.symm
    have hcC2 : cC = cpr.length := by
      unfold topCount at hcC
      rw [hpC] at hcC
      simp only at hcC
      injection hcC with h
      exact h.symm
    simp only [TreeState.mergeLeft, TreeState.readNode, hpL, hpC] at hrun
    have hlen : (lpr ++ cpr).length = lpr.length + cpr.length :=
      List.length_append _ _
    by_cases hcn : cnx ≠ 0
    · rw [if_pos hcn] at hrun
      cases hpn : u.pages cnx with
      | none =>
        simp only [hpn] at hrun
        injection hrun with e1 _
        exact merge_leaf_finish u u u' _ _ (lpr ++ cpr) cnx lpv
          (TNode.leaf cpr cnx cpv) hW hokC hab (fun j => countKeep_refl _)
          ⟨rfl, rfl, rfl, rfl⟩ e1.symm ⟨by omega, by omega⟩
      | some nn =>
        cases nn with
        | leaf npr nnx npv =>
          simp only [hpn] at hrun
          injection hrun with e1 _
          refine merge_leaf_finish u
            (u.writeNode (TNode.leaf npr nnx (ptrs.getD (ci - 1) 0)) cnx) u' _ _
            (lpr ++ cpr) cnx lpv (TNode.leaf cpr cnx cpv) hW hokC hab ?_
            (writeNode_fields u _ cnx) e1.symm ⟨by omega, by omega⟩
          intro j
          by_cases hj : j = cnx
          · rw [writeNode_pages, if_pos hj, hj, hpn]
            exact Or.inr ⟨npr, nnx, nnx, npv, ptrs.getD (ci - 1) 0, rfl, rfl⟩
          · rw [writeNode_pages, if_neg hj]
            exact countKeep_refl _
        | interm nk np =>
          simp only [hpn] at hrun
          injection hrun with e1 _
          exact merge_leaf_finish u u u' _ _ (lpr ++ cpr) cnx lpv
            (TNode.leaf cpr cnx cpv) hW hokC hab (fun j => countKeep_refl _)
            ⟨rfl, rfl, rfl, rfl⟩ e1.symm ⟨by omega, by omega⟩
    · rw [if_neg hcn] at hrun
      injection hrun with e1 _
      exact merge_leaf_finish u u u' _ _ (lpr ++ cpr) cnx lpv
        (TNode.leaf cpr cnx cpv) hW hokC hab (fun j => countKeep_refl _)
        ⟨rfl, rfl, rfl, rfl⟩ e1.symm ⟨by omega, by omega⟩
  | succ d =>
    obtain ⟨lk, lp, hpL, _, hLmax, hLrel, _, _⟩ := (RTree_succ _ _ _ _ _).mp hrtL
    obtain ⟨ck, cp, hpC, _, hCmax, hCrel, _, _⟩ := (RTree_succ _ _ _ _ _).mp hrtC
    obtain ⟨_, _, _, _, _, _, hndlp⟩ :=
      RTree_succ_parts u.pages u.order d 0 _ lk lp hrtL hpL
    obtain ⟨_, _, _, _, _, _, hndcp⟩ :=
      RTree_succ_parts u.pages u.order d 0 _ ck cp hrtC hpC
    have hcL2 : cL = lk.length := by
      unfold topCount at hcL
      rw [hpL] at hcL
      simp only at hcL
      injection hcL with h
      exact h.symm
    have hcC2 : cC = ck.length := by
      unfold topCount at hcC
      rw [hpC] at hcC
      simp only at hcC
      injection hcC with h
      exact h.symm
    have hsubL : ∀ p ∈ lp, ∀ i ∈ reachIds u.pages d p,
        i ∈ reachIds u.pages (d + 1) (ptrs.getD (ci - 1) 0) :=
      fun p hpm => reachIds_sub u.pages d _ p lk lp hpL hpm
    have hsubC : ∀ p ∈ cp, ∀ i ∈ reachIds u.pages d p,
        i ∈ reachIds u.pages (d + 1) (ptrs.getD ci 0) :=
      fun p hpm => reachIds_sub u.pages d _ p ck cp hpC hpm
    simp only [TreeState.mergeLeft, TreeState.readNode, hpL, hpC] at hrun
    cases hsep : keys.get? (ci - 1) with
    | none =>
      rw [hsep] at hrun
      simp at hrun
    | some sep =>
      rw [hsep] at hrun
      injection hrun with e1 _
      refine merge_interm_finish u u' d _ _ (lk ++ sep :: ck) lk ck
        (lp ++ cp) lp cp (TNode.interm ck cp) hW hokC hab hrtL hrtC hpL hpC
        hdisLC e1.symm ?_ ?_ ?_
      · intro p hpm
        exact List.mem_append.mp hpm
      · rw [List.nodup_append]
        refine ⟨hndlp, hndcp, ?_⟩
        intro x hx hc
        exact hdisLC (hsubL x hx x (reachIds_self _ _ _))
          (hsubC x hc x (reachIds_self _ _ _))
      · have h1 : (lk ++ sep :: ck).length = lk.length + (ck.length + 1) := by
          rw [List.length_append, List.length_cons]
        have h2 : (lp ++ cp).length = lp.length + cp.length :=
          List.length_append _ _
        refine ⟨by omega, by omega, by omega⟩

/-- What a successful mergeRight guarantees: the right sibling is absorbed
into the child, the right sibling's page is freed, and the merged node
realizes the minimum on the child's page. -/
lemma mergeRight_spec [LinearOrder K] (u u' : TreeState K V) (d : Nat)
    (keys : List K) (ptrs : List Nat) (ci : Nat) (cC cR : Nat)
    (hW : WfFree u)
    (hrtC : RTree u.pages u.order d 0 (ptrs.getD ci 0))
    (hrtR : RTree u.pages u.order d 0 (ptrs.getD (ci + 1) 0))
    (hcC : topCount u.pages (ptrs.getD ci 0) = some cC)
    (hcR : topCount u.pages (ptrs.getD (ci + 1) 0) = some cR)
    (hsum1 : (u.order - 1) / 2 ≤ cC + cR)
    (hsum2 : cC + cR + 1 ≤ u.order - 1)
    (hdisCR : List.Disjoint (reachIds u.pages d (ptrs.getD ci 0))
      (reachIds u.pages d (ptrs.getD (ci + 1) 0)))
    (hokR : pageOk u (ptrs.getD (ci + 1) 0))
    (hrun : u.mergeRight keys ptrs ci = (u', .ok ())) :
    (∀ j, j ≠ ptrs.getD ci 0 → j ≠ ptrs.getD (ci + 1) 0 →
      countKeep (u.pages j) (u'.pages j)) ∧
    u'.root = u.root ∧ u'.order = u.order ∧ u'.fresh = u.fresh ∧
    u'.freeList = ptrs.getD (ci + 1) 0 :: u.freeList ∧ WfFree u' ∧
    (∀ i, pageOk u' i → pageOk u i) ∧
    RTree u'.pages u.order d ((u.order - 1) / 2) (ptrs.getD ci 0) ∧
    (∀ i ∈ reachIds u'.pages d (ptrs.getD ci 0),
      i ∈ reachIds u.pages d (ptrs.getD ci 0) ++
        reachIds u.pages d (ptrs.getD (ci + 1) 0) ∧
        i ≠ ptrs.getD (ci + 1) 0) := by
  have hab : ptrs.getD ci 0 ≠ ptrs.getD (ci + 1) 0 := by
    intro h
    have h1 : ptrs.getD ci 0 ∈ reachIds u.pages d (ptrs.getD (ci + 1) 0) := by
      rw [← h]
      exact reachIds_self _ _ _
    exact hdisCR (reachIds_self _ _ _) h1
  cases d with
  | zero =>
    obtain ⟨cpr, cnx, cpv, hpC, _, hCmax⟩ := (RTree_zero _ _ _ _).mp hrtC
    obtain ⟨rpr, rnx, rpv, hpR, _, hRmax⟩ := (RTree_zero _ _ _ _).mp hrtR
    have hcC2 : cC = cpr.length := by
      unfold topCount at hcC
      rw [hpC] at hcC
      simp only at hcC
      injection hcC with h
      exact h.symm
    have hcR2 : cR = rpr.length := by
      unfold topCount at hcR
      rw [hpR] at hcR
      simp only at hcR
      injection hcR with h
      exact h.symm
    simp only [TreeState.mergeRight, TreeState.readNode, hpC, hpR] at hrun
    have hlen : (cpr ++ rpr).length = cpr.length + rpr.length :=
      List.length_append _ _
    by_cases hrn : rnx ≠ 0
    · rw [if_pos hrn] at hrun
      cases hpn : u.pages rnx with
      | none =>
        simp only [hpn] at hrun
        injection hrun with e1 _
        exact merge_leaf_finish u u u' _ _ (cpr ++ rpr) rnx cpv
          (TNode.leaf rpr rnx rpv) hW hokR hab (fun j => countKeep_refl _)
          ⟨rfl, rfl, rfl, rfl⟩ e1.symm ⟨by omega, by omega⟩
      | some nn =>
        cases nn with
        | leaf npr nnx npv =>
          simp only [hpn] at hrun
          injection hrun with e1 _
          refine merge_leaf_finish u
            (u.writeNode (TNode.leaf npr nnx (ptrs.getD ci 0)) rnx) u' _ _
            (cpr ++ rpr) rnx cpv (TNode.leaf rpr rnx rpv) hW hokR hab ?_
            (writeNode_fields u _ rnx) e1.symm ⟨by omega, by omega⟩
          intro j
          by_cases hj : j = rnx
          · rw [writeNode_pages, if_pos hj, hj, hpn]
            exact Or.inr ⟨npr, nnx, nnx, npv, ptrs.getD ci 0, rfl, rfl⟩
          · rw [writeNode_pages, if_neg hj]
            exact countKeep_refl _
        | interm nk np =>
          simp only [hpn] at hrun
          injection hrun with e1 _
          exact merge_leaf_finish u u u' _ _ (cpr ++ rpr) rnx cpv
            (TNode.leaf rpr rnx rpv) hW hokR hab (fun j => countKeep_refl _)
            ⟨rfl, rfl, rfl, rfl⟩ e1.symm ⟨by omega, by omega⟩
    · rw [if_neg hrn] at hrun
      injection hrun with e1 _
      exact merge_leaf_finish u u u' _ _ (cpr ++ rpr) rnx cpv
        (TNode.leaf rpr rnx rpv) hW hokR hab (fun j => countKeep_refl _)
        ⟨rfl, rfl, rfl, rfl⟩ e1.symm ⟨by omega, by omega⟩
  | succ d =>
    obtain ⟨ck, cp, hpC, _, hCmax, hCrel, _, _⟩ := (RTree_succ _ _ _ _ _).mp hrtC
    obtain ⟨rk, rp, hpR, _, hRmax, hRrel, _, _⟩ := (RTree_succ _ _ _ _ _).mp hrtR
    obtain ⟨_, _, _, _, _, _, hndcp⟩ :=
      RTree_succ_parts u.pages u.order d 0 _ ck cp hrtC hpC
    obtain ⟨_, _, _, _, _, _, hndrp⟩ :=
      RTree_succ_parts u.pages u.order d 0 _ rk rp hrtR hpR
    have hcC2 : cC = ck.length := by
      unfold topCount at hcC
      rw [hpC] at hcC
      simp only at hcC
      injection hcC with h
      exact h.symm
    have hcR2 : cR = rk.length := by
      unfold topCount at hcR
      rw [hpR] at hcR
      simp only at hcR
      injection hcR with h
      exact h.symm
    have hsubC : ∀ p ∈ cp, ∀ i ∈ reachIds u.pages d p,
        i ∈ reachIds u.pages (d + 1) (ptrs.getD ci 0) :=
      fun p hpm => reachIds_sub u.pages d _ p ck cp hpC hpm
    have hsubR : ∀ p ∈ rp, ∀ i ∈ reachIds u.pages d p,
        i ∈ reachIds u.pages (d + 1) (ptrs.getD (ci + 1) 0) :=
      fun p hpm => reachIds_sub u.pages d _ p rk rp hpR hpm
    simp only [TreeState.mergeRight, TreeState.readNode, hpC, hpR] at hrun
    cases hsep : keys.get? ci with
    | none =>
      rw [hsep] at hrun
      simp at hrun
    | some sep =>
      rw [hsep] at hrun
      injection hrun with e1 _
      refine merge_interm_finish u u' d _ _ (ck ++ sep :: rk) ck rk
        (cp ++ rp) cp rp (TNode.interm rk rp) hW hokR hab hrtC hrtR hpC hpR
        hdisCR e1.symm ?_ ?_ ?_
      · intro p hpm
        exact List.mem_append.mp hpm
      · rw [List.nodup_append]
        refine ⟨hndcp, hndrp, ?_⟩
        intro x hx hc
        exact hdisCR (hsubC x hx x (reachIds_self _ _ _))
          (hsubR x hc x (reachIds_self _ _ _))
      · have h1 : (ck ++ sep :: rk).length = ck.length + (rk.length + 1) := by
          rw [List.length_append, List.length_cons]
        have h2 : (cp ++ rp).length = cp.length + rp.length :=
          List.length_append _ _
        refine ⟨by omega, by omega, by omega⟩

/-- countKeep composes. -/
lemma countKeep_trans (a b c : Option (TNode K V))
    (h1 : countKeep a b) (h2 : countKeep b c) : countKeep a c := by
  rcases h1 with h1 | ⟨pr, nx, nx', pv, pv', ha, hb⟩
  · rw [h1]
    exact h2
  · rcases h2 with h2 | ⟨pr2, mx, mx', qv, qv', hb2, hc⟩
    · rw [← h2]
      exact Or.inr ⟨pr, nx, nx', pv, pv', ha, hb⟩
    · rw [hb] at hb2
      injection hb2 with hb2
      injection hb2 with e1 e2 e3
      exact Or.inr ⟨pr, nx, mx', pv, qv', ha, by rw [hc, e1]⟩

/-- Soundness of the allocator bookkeeping only looks at the header
fields. -/
lemma WfFree_congr (s t : TreeState K V) (ho : t.order = s.order)
    (hf : t.fresh = s.fresh) (hl : t.freeList = s.freeList)
    (h : WfFree s) : WfFree t := by
  obtain ⟨h1, h2, h3, h4⟩ := h
  refine ⟨?_, ?_, ?_, ?_⟩
  · rw [ho]; exact h1
  · rw [hf]; exact h2
  · rw [hl]; exact h3
  · rw [hl, hf]; exact h4

/-- Rebuilding a parent from realized, pairwise disjoint children whose
footprints all satisfy a predicate. -/
lemma parent_rebuild_q (t : TreeState K V) (order d mn id : Nat)
    (Q : Nat → Prop) (keys' : List K) (ptrs' : List Nat)
    (hp : t.pages id = some (TNode.interm keys' ptrs'))
    (hk1 : mn ≤ keys'.length) (hk2 : keys'.length ≤ order - 1)
    (hk3 : ptrs'.length = keys'.length + 1)
    (hch : ∀ p ∈ ptrs', RTree t.pages order d ((order - 1) / 2) p)
    (hdis : ∀ p ∈ ptrs', ∀ q ∈ ptrs', p ≠ q →
        List.Disjoint (reachIds t.pages d p) (reachIds t.pages d q))
    (hptrsnd : ptrs'.Nodup)
    (hidnot : ∀ p ∈ ptrs', id ∉ reachIds t.pages d p)
    (hcl : ∀ p ∈ ptrs', ∀ i ∈ reachIds t.pages d p, Q i)
    (hqid : Q id) :
    RTree t.pages order (d + 1) mn id ∧
    (∀ i ∈ reachIds t.pages (d + 1) id, Q i) := by
  have hdisj : (ptrs'.map (reachIds t.pages d)).Pairwise List.Disjoint := by
    rw [List.pairwise_map]
    exact hptrsnd.pairwise_of_forall_ne (fun a ha b hb hne => hdis a ha b hb hne)
  refine ⟨RTree_node_build t.pages order d mn id keys' ptrs' hp hk1 hk2 hk3 hch
    hdisj hidnot, ?_⟩
  intro i hi
  rw [reachIds_succ_interm t.pages d id keys' ptrs' hp] at hi
  rcases List.mem_cons.mp hi with hi | hi
  · rw [hi]
    exact hqid
  · obtain ⟨l, hl, hil⟩ := List.mem_flatten.mp hi
    obtain ⟨p, hpm, hpe⟩ := List.mem_map.mp hl
    exact hcl p hpm i (hpe ▸ hil)

/-- removeAt yields a sublist. -/
lemma removeAtGo_sublist {α : Type} (l : List α) (i : Nat) :
    List.Sublist (removeAtGo l i) l := by
  unfold removeAtGo
  by_cases h : i < l.length
  · rw [if_pos h]
    have h1 : List.Sublist (l.drop (i + 1)) (l.drop i) := by
      have h2 : l.drop (i + 1) = (l.drop i).drop 1 := by
        rw [List.drop_drop]
      rw [h2]
      exact List.drop_sublist 1 (l.drop i)
    have h3 := List.Sublist.append_left h1 (l.take i)
    rw [List.take_append_drop] at h3
    exact h3
  · rw [if_neg h]

/-- An in-range getD is a member. -/
lemma getD_mem_of_lt {α : Type} (l : List α) (i : Nat) (dflt : α)
    (h : i < l.length) : l.getD i dflt ∈ l := by
  rw [List.getD_eq_getElem l dflt h]
  exact List.getElem_mem h

/-- In a duplicate-free list, removing the entry at an index removes that
value for good. -/
lemma getD_not_mem_removeAtGo {α : Type} (l : List α) (i : Nat) (dflt : α)
    (hnd : l.Nodup) (h : i < l.length) :
    l.getD i dflt ∉ removeAtGo l i := by
  have hsplit : l = l.take i ++ l.getD i dflt :: l.drop (i + 1) := by
    rw [List.getD_eq_getElem l dflt h]
    conv_lhs => rw [← List.take_append_drop i l]
    rw [List.drop_eq_getElem_cons h]
  unfold removeAtGo
  rw [if_pos h]
  intro hc
  have hnd2 := hnd
  rw [hsplit, List.nodup_append] at hnd2
  rcases List.mem_append.mp hc with hc | hc
  · exact hnd2.2.2 hc (List.mem_cons_self _ _)
  · exact (List.nodup_cons.mp hnd2.2.1).1 hc

/-- Finishing a borrow branch of handleUnderflow: two siblings were
rebalanced in place (pages outside the pair untouched up to counts), then
the parent is rewritten with the updated separator keys and unchanged
child list. -/
lemma borrow_finish (u s1 u' : TreeState K V) (d mn id : Nat)
    (keys keys1 : List K) (ptrs : List Nat) (A B : Nat)
    (hA : A ∈ ptrs) (hB : B ∈ ptrs)
    (hW : WfFree u)
    (hpar : u.pages id = some (TNode.interm keys ptrs))
    (hk1 : mn ≤ keys.length) (hk2 : keys.length ≤ u.order - 1)
    (hk3 : ptrs.length = keys.length + 1)
    (hklen : keys1.length = keys.length)
    (hot : ∀ p ∈ ptrs, p ≠ A → p ≠ B →
      RTree u.pages u.order d ((u.order - 1) / 2) p)
    (hdisj : ∀ p ∈ ptrs, ∀ q ∈ ptrs, p ≠ q →
      List.Disjoint (reachIds u.pages d p) (reachIds u.pages d q))
    (hidm : ∀ p ∈ ptrs, id ∉ reachIds u.pages d p)
    (hptnd : ptrs.Nodup)
    (hokall : ∀ i ∈ reachIds u.pages (d + 1) id, pageOk u i)
    (hg1 : ∀ j, j ≠ A → j ≠ B → countKeep (u.pages j) (s1.pages j))
    (hhdr : s1.root = u.root ∧ s1.order = u.order ∧ s1.fresh = u.fresh ∧
      s1.freeList = u.freeList)
    (hrtA : RTree s1.pages u.order d ((u.order - 1) / 2) A)
    (hrtB : RTree s1.pages u.order d ((u.order - 1) / 2) B)
    (hndAB : (reachIds s1.pages d A ++ reachIds s1.pages d B).Nodup)
    (hclAB : ∀ i ∈ reachIds s1.pages d A ++ reachIds s1.pages d B,
      i ∈ reachIds u.pages d A ++ reachIds u.pages d B)
    (hs' : u' = s1.writeNode (TNode.interm keys1 ptrs) id) :
    delOut u u' (d + 1) mn id false := by
  have hview : ∀ j, u'.pages j =
      if j = id then some (TNode.interm keys1 ptrs) else s1.pages j := by
    intro j
    rw [hs']
    exact writeNode_pages s1 _ id j
  have hsub : ∀ p ∈ ptrs, ∀ i ∈ reachIds u.pages d p,
      i ∈ reachIds u.pages (d + 1) id :=
    fun p hpm => reachIds_sub u.pages d id p keys ptrs hpar hpm
  have hokcongr : ∀ i, pageOk u' i ↔ pageOk u i := by
    intro i
    refine pageOk_congr u' u i ?_ ?_
    · rw [hs']
      show s1.fresh = u.fresh
      exact hhdr.2.2.1
    · rw [hs']
      show s1.freeList = u.freeList
      exact hhdr.2.2.2
  have hothers : ∀ p ∈ ptrs, p ≠ A → p ≠ B →
      RTree s1.pages u.order d ((u.order - 1) / 2) p ∧
      reachIds s1.pages d p = reachIds u.pages d p := by
    intro p hpm hpA hpB
    have hck : ∀ i ∈ reachIds u.pages d p, countKeep (u.pages i) (s1.pages i) := by
      intro i hi
      have hiA : i ≠ A := by
        intro h
        exact hdisj p hpm A hA hpA (h ▸ hi) (reachIds_self u.pages d A)
      have hiB : i ≠ B := by
        intro h
        exact hdisj p hpm B hB hpB (h ▸ hi) (reachIds_self u.pages d B)
      exact hg1 i hiA hiB
    exact ⟨RTree_frame _ _ _ d _ p hck (hot p hpm hpA hpB),
      reachIds_frame _ _ d p hck⟩
  have hsubS : ∀ x, (x ∈ reachIds s1.pages d A ∨ x ∈ reachIds s1.pages d B) →
      x ∈ reachIds u.pages d A ∨ x ∈ reachIds u.pages d B := by
    intro x hx
    exact List.mem_append.mp (hclAB x (List.mem_append.mpr hx))
  have hidnotin : ∀ p ∈ ptrs, id ∉ reachIds s1.pages d p := by
    intro p hpm hc
    by_cases hpA : p = A
    · subst hpA
      rcases hsubS id (Or.inl hc) with h | h
      · exact hidm p hpm h
      · exact hidm B hB h
    by_cases hpB : p = B
    · subst hpB
      rcases hsubS id (Or.inr hc) with h | h
      · exact hidm A hA h
      · exact hidm p hpm h
    · rw [(hothers p hpm hpA hpB).2] at hc
      exact hidm p hpm hc
  have hlift : ∀ p ∈ ptrs,
      ∀ i ∈ reachIds s1.pages d p, countKeep (s1.pages i) (u'.pages i) := by
    intro p hpm i hi
    have hii : i ≠ id := by
      intro h
      exact hidnotin p hpm (h ▸ hi)
    rw [hview i, if_neg hii]
    exact countKeep_refl _
  have hchT : ∀ p ∈ ptrs,
      RTree u'.pages u.order d ((u.order - 1) / 2) p ∧
      reachIds u'.pages d p = reachIds s1.pages d p := by
    intro p hpm
    have hck := hlift p hpm
    by_cases hpA : p = A
    · subst hpA
      exact ⟨RTree_frame _ _ _ d _ p hck hrtA, reachIds_frame _ _ d p hck⟩
    by_cases hpB : p = B
    · subst hpB
      exact ⟨RTree_frame _ _ _ d _ p hck hrtB, reachIds_frame _ _ d p hck⟩
    · exact ⟨RTree_frame _ _ _ d _ p hck (hothers p hpm hpA hpB).1,
        reachIds_frame _ _ d p hck⟩
  have hclmem : ∀ p ∈ ptrs, ∀ i ∈ reachIds s1.pages d p,
      i ∈ reachIds u.pages (d + 1) id := by
    intro p hpm i hi
    by_cases hpA : p = A
    · subst hpA
      rcases hsubS i (Or.inl hi) with h | h
      · exact hsub p hpm i h
      · exact hsub B hB i h
    by_cases hpB : p = B
    · subst hpB
      rcases hsubS i (Or.inr hi) with h | h
      · exact hsub A hA i h
      · exact hsub p hpm i h
    · rw [(hothers p hpm hpA hpB).2] at hi
      exact hsub p hpm i hi
  have hdisS : ∀ p ∈ ptrs, ∀ q ∈ ptrs, p ≠ q →
      List.Disjoint (reachIds s1.pages d p) (reachIds s1.pages d q) := by
    intro p hpm q hqm hne
    by_cases hpA : p = A
    · subst hpA
      by_cases hqB : q = B
      · subst hqB
        exact (List.nodup_append.mp hndAB).2.2
      · intro x hxp hxq
        rw [(hothers q hqm (Ne.symm hne) hqB).2] at hxq
        rcases hsubS x (Or.inl hxp) with h | h
        · exact hdisj p hpm q hqm hne h hxq
        · exact hdisj B hB q hqm (fun hh => hqB hh.symm) h hxq
    by_cases hpB : p = B
    · subst hpB
      by_cases hqA : q = A
      · subst hqA
        intro x hxp hxq
        exact (List.nodup_append.mp hndAB).2.2 hxq hxp
      · intro x hxp hxq
        rw [(hothers q hqm hqA (Ne.symm hne)).2] at hxq
        rcases hsubS x (Or.inr hxp) with h | h
        · exact hdisj A hA q hqm (fun hh => hqA hh.symm) h hxq
        · exact hdisj p hpm q hqm hne h hxq
    by_cases hqA : q = A
    · subst hqA
      intro x hxp hxq
      rw [(hothers p hpm hpA hpB).2] at hxp
      rcases hsubS x (Or.inl hxq) with h | h
      · exact hdisj q hqm p hpm (fun hh => hpA hh.symm) h hxp
      · exact hdisj B hB p hpm (fun hh => hpB hh.symm) h hxp
    by_cases hqB : q = B
    · subst hqB
      intro x hxp hxq
      rw [(hothers p hpm hpA hpB).2] at hxp
      rcases hsubS x (Or.inr hxq) with h | h
      · exact hdisj A hA p hpm (fun hh => hpA hh.symm) h hxp
      · exact hdisj q hqm p hpm (fun hh => hpB hh.symm) h hxp
    · intro x hxp hxq
      rw [(hothers p hpm hpA hpB).2] at hxp
      rw [(hothers q hqm hqA hqB).2] at hxq
      exact hdisj p hpm q hqm hne hxp hxq
  have hpT : u'.pages id = some (TNode.interm keys1 ptrs) := by
    rw [hview id, if_pos rfl]
  obtain ⟨hrt, hclo⟩ := parent_rebuild_q u' u.order d 0 id
    (fun i => pageOk u' i ∧ i ∈ reachIds u.pages (d + 1) id) keys1 ptrs hpT
    (Nat.zero_le _) (by rw [hklen]; exact hk2) (by rw [hklen]; exact hk3)
    (fun p hpm => (hchT p hpm).1)
    (by
      intro p hpm q hqm hne
      rw [(hchT p hpm).2, (hchT q hqm).2]
      exact hdisS p hpm q hqm hne)
    hptnd
    (by
      intro p hpm
      rw [(hchT p hpm).2]
      exact hidnotin p hpm)
    (by
      intro p hpm i hi
      rw [(hchT p hpm).2] at hi
      exact ⟨(hokcongr i).mpr (hokall i (hclmem p hpm i hi)),
        hclmem p hpm i hi⟩)
    ⟨(hokcongr id).mpr (hokall id (reachIds_self _ _ _)),
      reachIds_self _ _ _⟩
  refine ⟨?_, ?_, ?_, ?_, ?_, ?_, ?_, hrt, ?_, hclo⟩
  · rw [hs']
    show s1.root = u.root
    exact hhdr.1
  · rw [hs']
    show s1.order = u.order
    exact hhdr.2.1
  · rw [hs']
    show s1.fresh = u.fresh
    exact hhdr.2.2.1
  · refine WfFree_congr u u' ?_ ?_ ?_ hW
    · rw [hs']
      show s1.order = u.order
      exact hhdr.2.1
    · rw [hs']
      show s1.fresh = u.fresh
      exact hhdr.2.2.1
    · rw [hs']
      show s1.freeList = u.freeList
      exact hhdr.2.2.2
  · intro i hi
    exact (hokcongr i).mp hi
  · intro i hi hnotin
    exact (hokcongr i).mpr hi
  · intro j hj hokj
    have hjid : j ≠ id := by
      intro h
      exact hj (h ▸ reachIds_self u.pages (d + 1) id)
    have hjA : j ≠ A := by
      intro h
      exact hj (h ▸ hsub A hA A (reachIds_self u.pages d A))
    have hjB : j ≠ B := by
      intro h
      exact hj (h ▸ hsub B hB B (reachIds_self u.pages d B))
    rw [hview j, if_neg hjid]
    exact hg1 j hjA hjB
  · refine ⟨keys1.length, by simp [topCount, hpT], by omega, ?_, ?_⟩
    · intro h2
      omega
    · intro hc
      cases hc

/-- Finishing a merge branch of handleUnderflow: two siblings were merged
onto page A, page B was freed, then the parent is rewritten with one key
and one child pointer removed. -/
lemma merge_branch_finish (u s1 u' : TreeState K V) (d mn id : Nat)
    (keys keys1 : List K) (ptrs ptrs1 : List Nat) (A B : Nat) (under : Bool)
    (hA : A ∈ ptrs) (hB : B ∈ ptrs) (hAB : A ≠ B)
    (hmn : mn ≤ (u.order - 1) / 2)
    (hpar : u.pages id = some (TNode.interm keys ptrs))
    (hk1 : mn ≤ keys.length) (hk2 : keys.length ≤ u.order - 1)
    (hk3 : ptrs.length = keys.length + 1)
    (hklen : keys1.length + 1 = keys.length)
    (hplen1 : ptrs1.length + 1 = ptrs.length)
    (hmem1 : ∀ p ∈ ptrs1, p ∈ ptrs)
    (hnd1 : ptrs1.Nodup)
    (hBnot : B ∉ ptrs1)
    (hot : ∀ p ∈ ptrs, p ≠ A → p ≠ B →
      RTree u.pages u.order d ((u.order - 1) / 2) p)
    (hdisj : ∀ p ∈ ptrs, ∀ q ∈ ptrs, p ≠ q →
      List.Disjoint (reachIds u.pages d p) (reachIds u.pages d q))
    (hidm : ∀ p ∈ ptrs, id ∉ reachIds u.pages d p)
    (hokall : ∀ i ∈ reachIds u.pages (d + 1) id, pageOk u i)
    (hg1 : ∀ j, j ≠ A → j ≠ B → countKeep (u.pages j) (s1.pages j))
    (hhdr : s1.root = u.root ∧ s1.order = u.order ∧ s1.fresh = u.fresh)
    (hfl : s1.freeList = B :: u.freeList)
    (hWs1 : WfFree s1)
    (hanti1 : ∀ i, pageOk s1 i → pageOk u i)
    (hrtA : RTree s1.pages u.order d ((u.order - 1) / 2) A)
    (hclA : ∀ i ∈ reachIds s1.pages d A,
      i ∈ reachIds u.pages d A ++ reachIds u.pages d B ∧ i ≠ B)
    (hs' : u' = s1.writeNode (TNode.interm keys1 ptrs1) id)
    (hund : under = decide (keys1.length < (u.order - 1) / 2)) :
    delOut u u' (d + 1) mn id under := by
  have hview : ∀ j, u'.pages j =
      if j = id then some (TNode.interm keys1 ptrs1) else s1.pages j := by
    intro j
    rw [hs']
    exact writeNode_pages s1 _ id j
  have hsub : ∀ p ∈ ptrs, ∀ i ∈ reachIds u.pages d p,
      i ∈ reachIds u.pages (d + 1) id :=
    fun p hpm => reachIds_sub u.pages d id p keys ptrs hpar hpm
  have hokcongr : ∀ i, pageOk u' i ↔ pageOk s1 i := by
    intro i
    refine pageOk_congr u' s1 i ?_ ?_
    · rw [hs']
      exact rfl
    · rw [hs']
      exact rfl
  have hok' : ∀ i, pageOk u i → i ≠ B → pageOk u' i := by
    intro i hi hiB
    refine (hokcongr i).mpr ⟨hi.1, ?_, ?_⟩
    · rw [hhdr.2.2]
      exact hi.2.1
    · rw [hfl]
      intro hc
      rcases List.mem_cons.mp hc with hc | hc
      · exact hiB hc
      · exact hi.2.2 hc
  have hidB : id ≠ B := by
    intro h
    exact hidm B hB (h ▸ reachIds_self u.pages d B)
  have hothers : ∀ p ∈ ptrs, p ≠ A → p ≠ B →
      RTree s1.pages u.order d ((u.order - 1) / 2) p ∧
      reachIds s1.pages d p = reachIds u.pages d p := by
    intro p hpm hpA hpB
    have hck : ∀ i ∈ reachIds u.pages d p, countKeep (u.pages i) (s1.pages i) := by
      intro i hi
      have hiA : i ≠ A := by
        intro h
        exact hdisj p hpm A hA hpA (h ▸ hi) (reachIds_self u.pages d A)
      have hiB : i ≠ B := by
        intro h
        exact hdisj p hpm B hB hpB (h ▸ hi) (reachIds_self u.pages d B)
      exact hg1 i hiA hiB
    exact ⟨RTree_frame _ _ _ d _ p hck (hot p hpm hpA hpB),
      reachIds_frame _ _ d p hck⟩
  have hidnotin : ∀ p ∈ ptrs1, id ∉ reachIds s1.pages d p := by
    intro p hpm hc
    by_cases hpA : p = A
    · subst hpA
      rcases List.mem_append.mp (hclA id hc).1 with h | h
      · exact hidm p (hmem1 p hpm) h
      · exact hidm B hB h
    · have hpB : p ≠ B := fun h => hBnot (h ▸ hpm)
      rw [(hothers p (hmem1 p hpm) hpA hpB).2] at hc
      exact hidm p (hmem1 p hpm) hc
  have hlift : ∀ p ∈ ptrs1,
      ∀ i ∈ reachIds s1.pages d p, countKeep (s1.pages i) (u'.pages i) := by
    intro p hpm i hi
    have hii : i ≠ id := by
      intro h
      exact hidnotin p hpm (h ▸ hi)
    rw [hview i, if_neg hii]
    exact countKeep_refl _
  have hchT : ∀ p ∈ ptrs1,
      RTree u'.pages u.order d ((u.order - 1) / 2) p ∧
      reachIds u'.pages d p = reachIds s1.pages d p := by
    intro p hpm
    have hck := hlift p hpm
    by_cases hpA : p = A
    · subst hpA
      exact ⟨RTree_frame _ _ _ d _ p hck hrtA, reachIds_frame _ _ d p hck⟩
    · have hpB : p ≠ B := fun h => hBnot (h ▸ hpm)
      exact ⟨RTree_frame _ _ _ d _ p hck
        (hothers p (hmem1 p hpm) hpA hpB).1, reachIds_frame _ _ d p hck⟩
  have hclmem : ∀ p ∈ ptrs1, ∀ i ∈ reachIds s1.pages d p,
      i ∈ reachIds u.pages (d + 1) id ∧ i ≠ B := by
    intro p hpm i hi
    by_cases hpA : p = A
    · subst hpA
      refine ⟨?_, (hclA i hi).2⟩
      rcases List.mem_append.mp (hclA i hi).1 with h | h
      · exact hsub p (hmem1 p hpm) i h
      · exact hsub B hB i h
    · have hpB : p ≠ B := fun h => hBnot (h ▸ hpm)
      rw [(hothers p (hmem1 p hpm) hpA hpB).2] at hi
      refine ⟨hsub p (hmem1 p hpm) i hi, ?_⟩
      intro h
      exact hdisj p (hmem1 p hpm) B hB hpB (h ▸ hi) (reachIds_self u.pages d B)
  have hdisS : ∀ p ∈ ptrs1, ∀ q ∈ ptrs1, p ≠ q →
      List.Disjoint (reachIds s1.pages d p) (reachIds s1.pages d q) := by
    intro p hpm q hqm hne
    by_cases hpA : p = A
    · subst hpA
      have hqA : q ≠ p := Ne.symm hne
      have hqB : q ≠ B := fun h => hBnot (h ▸ hqm)
      intro x hxp hxq
      rw [(hothers q (hmem1 q hqm) hqA hqB).2] at hxq
      rcases List.mem_append.mp (hclA x hxp).1 with h | h
      · exact hdisj p (hmem1 p hpm) q (hmem1 q hqm) hne h hxq
      · exact hdisj B hB q (hmem1 q hqm) (fun hh => hqB hh.symm) h hxq
    by_cases hqA : q = A
    · subst hqA
      have hpB : p ≠ B := fun h => hBnot (h ▸ hpm)
      intro x hxp hxq
      rw [(hothers p (hmem1 p hpm) hpA hpB).2] at hxp
      rcases List.mem_append.mp (hclA x hxq).1 with h | h
      · exact hdisj q (hmem1 q hqm) p (hmem1 p hpm) (fun hh => hpA hh.symm) h hxp
      · exact hdisj B hB p (hmem1 p hpm) (fun hh => hpB hh.symm) h hxp
    · have hpB : p ≠ B := fun h => hBnot (h ▸ hpm)
      have hqB : q ≠ B := fun h => hBnot (h ▸ hqm)
      intro x hxp hxq
      rw [(hothers p (hmem1 p hpm) hpA hpB).2] at hxp
      rw [(hothers q (hmem1 q hqm) hqA hqB).2] at hxq
      exact hdisj p (hmem1 p hpm) q (hmem1 q hqm) hne hxp hxq
  have hpT : u'.pages id = some (TNode.interm keys1 ptrs1) := by
    rw [hview id, if_pos rfl]
  obtain ⟨hrt, hclo⟩ := parent_rebuild_q u' u.order d 0 id
    (fun i => pageOk u' i ∧ i ∈ reachIds u.pages (d + 1) id) keys1 ptrs1 hpT
    (Nat.zero_le _) (by omega) (by omega)
    (fun p hpm => (hchT p hpm).1)
    (by
      intro p hpm q hqm hne
      rw [(hchT p hpm).2, (hchT q hqm).2]
      exact hdisS p hpm q hqm hne)
    hnd1
    (by
      intro p hpm
      rw [(hchT p hpm).2]
      exact hidnotin p hpm)
    (by
      intro p hpm i hi
      rw [(hchT p hpm).2] at hi
      obtain ⟨hmem2, hiB⟩ := hclmem p hpm i hi
      exact ⟨hok' i (hokall i hmem2) hiB, hmem2⟩)
    ⟨hok' id (hokall id (reachIds_self _ _ _)) hidB, reachIds_self _ _ _⟩
  refine ⟨?_, ?_, ?_, ?_, ?_, ?_, ?_, hrt, ?_, hclo⟩
  · rw [hs']
    show s1.root = u.root
    exact hhdr.1
  · rw [hs']
    show s1.order = u.order
    exact hhdr.2.1
  · rw [hs']
    show s1.fresh = u.fresh
    exact hhdr.2.2
  · refine WfFree_congr s1 u' ?_ ?_ ?_ hWs1
    · rw [hs']
      exact rfl
    · rw [hs']
      exact rfl
    · rw [hs']
      exact rfl
  · intro i hi
    exact hanti1 i ((hokcongr i).mp hi)
  · intro i hi hnotin
    refine hok' i hi ?_
    intro h
    exact hnotin (h ▸ hsub B hB B (reachIds_self u.pages d B))
  · intro j hj hokj
    have hjid : j ≠ id := by
      intro h
      exact hj (h ▸ reachIds_self u.pages (d + 1) id)
    have hjA : j ≠ A := by
      intro h
      exact hj (h ▸ hsub A hA A (reachIds_self u.pages d A))
    have hjB : j ≠ B := by
      intro h
      exact hj (h ▸ hsub B hB B (reachIds_self u.pages d B))
    rw [hview j, if_neg hjid]
    exact hg1 j hjA hjB
  · refine ⟨keys1.length, by simp [topCount, hpT], by omega, ?_, ?_⟩
    · intro h2
      rw [h2] at hund
      have := of_decide_eq_false hund.symm
      omega
    · intro h2
      rw [h2] at hund
      have := of_decide_eq_true hund.symm
      omega

/-- What a successful handleUnderflow guarantees: the underflowed child is
refilled by borrowing when a sibling is above the minimum, else merged
with a sibling, and the parent is rewritten accordingly; the returned flag
reports exactly whether the parent itself now underflows. -/
lemma handleUnderflow_spec [LinearOrder K] (u u' : TreeState K V) (d : Nat)
    (keys : List K) (ptrs : List Nat) (id ci mn : Nat) (under : Bool)
    (hW : WfFree u)
    (hmn : mn ≤ (u.order - 1) / 2)
    (hpar : u.pages id = some (TNode.interm keys ptrs))
    (hk1 : mn ≤ keys.length) (hk2 : keys.length ≤ u.order - 1)
    (hk3 : ptrs.length = keys.length + 1)
    (hci : ci < ptrs.length)
    (hchild : RTree u.pages u.order d 0 (ptrs.getD ci 0))
    (hccnt : topCount u.pages (ptrs.getD ci 0) = some ((u.order - 1) / 2 - 1))
    (hot : ∀ p ∈ ptrs, p ≠ ptrs.getD ci 0 →
      RTree u.pages u.order d ((u.order - 1) / 2) p)
    (hdisj : ∀ p ∈ ptrs, ∀ q ∈ ptrs, p ≠ q →
      List.Disjoint (reachIds u.pages d p) (reachIds u.pages d q))
    (hidm : ∀ p ∈ ptrs, id ∉ reachIds u.pages d p)
    (hptnd : ptrs.Nodup)
    (hokall : ∀ i ∈ reachIds u.pages (d + 1) id, pageOk u i)
    (hrun : u.handleUnderflow keys ptrs id ci = (u', .ok under)) :
    delOut u u' (d + 1) mn id under := by
  have horder : 3 ≤ u.order := hW.1
  have hchmem : ptrs.getD ci 0 ∈ ptrs := getD_mem_of_lt ptrs ci 0 hci
  have hvalne : ∀ i j : Nat, i < ptrs.length → j < ptrs.length → i ≠ j →
      ptrs.getD i 0 ≠ ptrs.getD j 0 := by
    intro i j hi hj hij h
    rw [List.getD_eq_getElem ptrs 0 hi, List.getD_eq_getElem ptrs 0 hj] at h
    exact hij ((List.Nodup.getElem_inj_iff hptnd).mp h)
  have hokC : pageOk u (ptrs.getD ci 0) :=
    hokall _ (reachIds_sub u.pages d id _ keys ptrs hpar hchmem _
      (reachIds_self u.pages d _))
  simp only [TreeState.handleUnderflow] at hrun
  by_cases hb1 : 0 < ci ∧ u.canBorrowFrom (ptrs.getD (ci - 1) 0) = true
  · rw [if_pos hb1] at hrun
    have hmemL : ptrs.getD (ci - 1) 0 ∈ ptrs :=
      getD_mem_of_lt ptrs (ci - 1) 0 (by omega)
    have hLC : ptrs.getD (ci - 1) 0 ≠ ptrs.getD ci 0 :=
      hvalne (ci - 1) ci (by omega) hci (by omega)
    have hLrt : RTree u.pages u.order d ((u.order - 1) / 2)
        (ptrs.getD (ci - 1) 0) := hot _ hmemL hLC
    obtain ⟨cL, hcL, hcLlo, hcLhi⟩ := RTree_topCount _ _ _ _ _ hLrt
    have hbL : (u.order - 1) / 2 < cL := by
      have h := hb1.2
      rw [canBorrowFrom_eq u _ cL hcL] at h
      exact of_decide_eq_true h
    cases hbl : u.borrowFromLeft keys ptrs ci with
    | mk s1 r =>
      cases r with
      | error e =>
        simp only [hbl] at hrun
        simp at hrun
      | ok keys1 =>
        simp only [hbl] at hrun
        injection hrun with e1 e2
        injection e2 with e2
        subst e2
        obtain ⟨g1, groot, gorder, gfresh, gfl, gklen, grtL, grtC, gnd, gcl⟩ :=
          borrowFromLeft_spec u s1 d keys keys1 ptrs ci cL
            ((u.order - 1) / 2 - 1)
            (RTree_mono _ _ _ _ 0 _ (Nat.zero_le _) hLrt) hchild hcL hccnt
            hbL (by omega) (by omega)
            (hdisj _ hmemL _ hchmem hLC) hbl
        refine borrow_finish u s1 u' d mn id keys keys1 ptrs
          (ptrs.getD (ci - 1) 0) (ptrs.getD ci 0) hmemL hchmem hW hpar
          hk1 hk2 hk3 gklen (fun p hpm hpL hpC => hot p hpm hpC)
          hdisj hidm hptnd hokall ?_ ⟨groot, gorder, gfresh, gfl⟩
          grtL grtC gnd gcl e1.symm
        intro j hjL hjC
        rw [g1 j hjL hjC]
        exact countKeep_refl _
  · rw [if_neg hb1] at hrun
    by_cases hb2 : ci < ptrs.length - 1 ∧
        u.canBorrowFrom (ptrs.getD (ci + 1) 0) = true
    · rw [if_pos hb2] at hrun
      have hmemR : ptrs.getD (ci + 1) 0 ∈ ptrs :=
        getD_mem_of_lt ptrs (ci + 1) 0 (by omega)
      have hRC : ptrs.getD (ci + 1) 0 ≠ ptrs.getD ci 0 :=
        hvalne (ci + 1) ci (by omega) hci (by omega)
      have hRrt : RTree u.pages u.order d ((u.order - 1) / 2)
          (ptrs.getD (ci + 1) 0) := hot _ hmemR hRC
      obtain ⟨cR, hcR, hcRlo, hcRhi⟩ := RTree_topCount _ _ _ _ _ hRrt
      have hbR : (u.order - 1) / 2 < cR := by
        have h := hb2.2
        rw [canBorrowFrom_eq u _ cR hcR] at h
        exact of_decide_eq_true h
      cases hbr : u.borrowFromRight keys ptrs ci with
      | mk s1 r =>
        cases r with
        | error e =>
          simp only [hbr] at hrun
          simp at hrun
        | ok keys1 =>
          simp only [hbr] at hrun
          injection hrun with e1 e2
          injection e2 with e2
          subst e2
          obtain ⟨g1, groot, gorder, gfresh, gfl, gklen, grtR, grtC, gnd, gcl⟩ :=
            borrowFromRight_spec u s1 d keys keys1 ptrs ci cR
              ((u.order - 1) / 2 - 1)
              (RTree_mono _ _ _ _ 0 _ (Nat.zero_le _) hRrt) hchild hcR hccnt
              hbR (by omega) (by omega)
              (hdisj _ hmemR _ hchmem hRC) hbr
          refine borrow_finish u s1 u' d mn id keys keys1 ptrs
            (ptrs.getD (ci + 1) 0) (ptrs.getD ci 0) hmemR hchmem hW hpar
            hk1 hk2 hk3 gklen (fun p hpm hpR hpC => hot p hpm hpC)
            hdisj hidm hptnd hokall ?_ ⟨groot, gorder, gfresh, gfl⟩
            grtR grtC gnd gcl e1.symm
          intro j hjR hjC
          rw [g1 j hjR hjC]
          exact countKeep_refl _
    · rw [if_neg hb2] at hrun
      by_cases hb3 : 0 < ci
      · rw [if_pos hb3] at hrun
        have hmemL : ptrs.getD (ci - 1) 0 ∈ ptrs :=
          getD_mem_of_lt ptrs (ci - 1) 0 (by omega)
        have hLC : ptrs.getD (ci - 1) 0 ≠ ptrs.getD ci 0 :=
          hvalne (ci - 1) ci (by omega) hci (by omega)
        have hLrt : RTree u.pages u.order d ((u.order - 1) / 2)
            (ptrs.getD (ci - 1) 0) := hot _ hmemL hLC
        obtain ⟨cL, hcL, hcLlo, hcLhi⟩ := RTree_topCount _ _ _ _ _ hLrt
        have hnbL : ¬ ((u.order - 1) / 2 < cL) := by
          intro hlt
          refine hb1 ⟨hb3, ?_⟩
          rw [canBorrowFrom_eq u _ cL hcL]
          exact decide_eq_true hlt
        cases hml : u.mergeLeft keys ptrs ci with
        | mk s1 r =>
          cases r with
          | error e =>
            simp only [hml] at hrun
            simp at hrun
          | ok v =>
            cases v
            simp only [hml] at hrun
            injection hrun with e1 e2
            injection e2 with e2
            obtain ⟨g1, groot, gorder, gfresh, gfl, gW, ganti, grtL, gcl⟩ :=
              mergeLeft_spec u s1 d keys ptrs ci cL ((u.order - 1) / 2 - 1)
                hW (RTree_mono _ _ _ _ 0 _ (Nat.zero_le _) hLrt) hchild
                hcL hccnt (by omega) (by omega)
                (hdisj _ hmemL _ hchmem hLC) hokC hml
            refine merge_branch_finish u s1 u' d mn id keys
              (removeAtGo keys (ci - 1)) ptrs (removeAtGo ptrs ci)
              (ptrs.getD (ci - 1) 0) (ptrs.getD ci 0) under hmemL hchmem hLC
              hmn hpar hk1 hk2 hk3
              (removeAtGo_length keys (ci - 1) (by omega))
              (removeAtGo_length ptrs ci hci)
              (fun p hpm => mem_removeAtGo ptrs ci p hpm)
              (hptnd.sublist (removeAtGo_sublist ptrs ci))
              (getD_not_mem_removeAtGo ptrs ci 0 hptnd hci)
              (fun p hpm hpL hpC => hot p hpm hpC)
              hdisj hidm hokall g1 ⟨groot, gorder, gfresh⟩ gfl gW ganti
              grtL gcl e1.symm e2.symm
      · rw [if_neg hb3] at hrun
        by_cases hb4 : ci < ptrs.length - 1
        · rw [if_pos hb4] at hrun
          have hmemR : ptrs.getD (ci + 1) 0 ∈ ptrs :=
            getD_mem_of_lt ptrs (ci + 1) 0 (by omega)
          have hRC : ptrs.getD (ci + 1) 0 ≠ ptrs.getD ci 0 :=
            hvalne (ci + 1) ci (by omega) hci (by omega)
          have hRrt : RTree u.pages u.order d ((u.order - 1) / 2)
              (ptrs.getD (ci + 1) 0) := hot _ hmemR hRC
          obtain ⟨cR, hcR, hcRlo, hcRhi⟩ := RTree_topCount _ _ _ _ _ hRrt
          have hnbR : ¬ ((u.order - 1) / 2 < cR) := by
            intro hlt
            refine hb2 ⟨hb4, ?_⟩
            rw [canBorrowFrom_eq u _ cR hcR]
            exact decide_eq_true hlt
          cases hmr : u.mergeRight keys ptrs ci with
          | mk s1 r =>
            cases r with
            | error e =>
              simp only [hmr] at hrun
              simp at hrun
            | ok v =>
              cases v
              simp only [hmr] at hrun
              injection hrun with e1 e2
              injection e2 with e2
              obtain ⟨g1, groot, gorder, gfresh, gfl, gW, ganti, grtC, gcl⟩ :=
                mergeRight_spec u s1 d keys ptrs ci ((u.order - 1) / 2 - 1)
                  cR hW hchild (RTree_mono _ _ _ _ 0 _ (Nat.zero_le _) hRrt)
                  hccnt hcR (by omega) (by omega)
                  (hdisj _ hchmem _ hmemR (Ne.symm hRC))
                  (hokall _ (reachIds_sub u.pages d id _ keys ptrs hpar hmemR _
                    (reachIds_self u.pages d _))) hmr
              refine merge_branch_finish u s1 u' d mn id keys
                (removeAtGo keys ci) ptrs (removeAtGo ptrs (ci + 1))
                (ptrs.getD ci 0) (ptrs.getD (ci + 1) 0) under hchmem hmemR
                (Ne.symm hRC) hmn hpar hk1 hk2 hk3
                (removeAtGo_length keys ci (by omega))
                (removeAtGo_length ptrs (ci + 1) (by omega))
                (fun p hpm => mem_removeAtGo ptrs (ci + 1) p hpm)
                (hptnd.sublist (removeAtGo_sublist ptrs (ci + 1)))
                (getD_not_mem_removeAtGo ptrs (ci + 1) 0 hptnd (by omega))
                (fun p hpm hpC hpR => hot p hpm hpC)
                hdisj hidm hokall g1 ⟨groot, gorder, gfresh⟩ gfl gW ganti
                grtC gcl e1.symm e2.symm
        · rw [if_neg hb4] at hrun
          simp at hrun

/-- After a recursive delete on one child, the parent page and the other
children are untouched up to counts: the parent node is intact, every
child footprint shrinks into its old footprint, footprints stay pairwise
disjoint, and everything reachable stays live. -/
lemma child_step_view (s s1 : TreeState K V) (d mn id ci : Nat)
    (under : Bool) (keys : List K) (ptrs : List Nat)
    (hrt : RTree s.pages s.order (d + 1) mn id)
    (hre : ∀ i ∈ reachIds s.pages (d + 1) id, pageOk s i)
    (hpage : s.pages id = some (TNode.interm keys ptrs))
    (hci : ci < ptrs.length)
    (hout : delOut s s1 d ((s.order - 1) / 2) (ptrs.getD ci 0) under) :
    s1.pages id = some (TNode.interm keys ptrs) ∧
    (∀ p ∈ ptrs, p ≠ ptrs.getD ci 0 →
      RTree s1.pages s.order d ((s.order - 1) / 2) p ∧
      reachIds s1.pages d p = reachIds s.pages d p) ∧
    (∀ p ∈ ptrs, ∀ i ∈ reachIds s1.pages d p, i ∈ reachIds s.pages d p) ∧
    (∀ p ∈ ptrs, ∀ q ∈ ptrs, p ≠ q →
      List.Disjoint (reachIds s1.pages d p) (reachIds s1.pages d q)) ∧
    (∀ p ∈ ptrs, id ∉ reachIds s1.pages d p) ∧
    (∀ p ∈ ptrs, ∀ i ∈ reachIds s1.pages d p, pageOk s1 i) ∧
    pageOk s1 id ∧
    (∀ i ∈ reachIds s1.pages (d + 1) id, i ∈ reachIds s.pages (d + 1) id) := by
  obtain ⟨droot, dorder, dfresh, dW, danti, dkeep, dframe, drt, dcnt, dcl⟩ := hout
  obtain ⟨hk1, hk2, hk3, hch, hdisjm, hidm, hptnd⟩ :=
    RTree_succ_parts s.pages s.order d mn id keys ptrs hrt hpage
  have hchmem : ptrs.getD ci 0 ∈ ptrs := getD_mem_of_lt ptrs ci 0 hci
  have hsub : ∀ p ∈ ptrs, ∀ i ∈ reachIds s.pages d p,
      i ∈ reachIds s.pages (d + 1) id :=
    fun p hpm => reachIds_sub s.pages d id p keys ptrs hpage hpm
  have hpar1 : s1.pages id = some (TNode.interm keys ptrs) := by
    have h := dframe id (hidm _ hchmem) (hre id (reachIds_self _ _ _))
    rw [hpage] at h
    exact countKeep_interm keys ptrs _ h
  have hoth : ∀ p ∈ ptrs, p ≠ ptrs.getD ci 0 →
      RTree s1.pages s.order d ((s.order - 1) / 2) p ∧
      reachIds s1.pages d p = reachIds s.pages d p := by
    intro p hpm hne
    have hck : ∀ i ∈ reachIds s.pages d p,
        countKeep (s.pages i) (s1.pages i) := by
      intro i hi
      refine dframe i ?_ (hre i (hsub p hpm i hi))
      intro hc
      exact disjoint_of_pairwise_map ptrs _ hdisjm p _ hpm hchmem hne hi hc
    exact ⟨RTree_frame _ _ _ d _ p hck (hch p hpm), reachIds_frame _ _ d p hck⟩
  have hsub1 : ∀ p ∈ ptrs, ∀ i ∈ reachIds s1.pages d p,
      i ∈ reachIds s.pages d p := by
    intro p hpm i hi
    by_cases hpc : p = ptrs.getD ci 0
    · subst hpc
      exact (dcl i hi).2
    · rw [(hoth p hpm hpc).2] at hi
      exact hi
  have hdis1 : ∀ p ∈ ptrs, ∀ q ∈ ptrs, p ≠ q →
      List.Disjoint (reachIds s1.pages d p) (reachIds s1.pages d q) := by
    intro p hpm q hqm hne x hxp hxq
    exact disjoint_of_pairwise_map ptrs _ hdisjm p q hpm hqm hne
      (hsub1 p hpm x hxp) (hsub1 q hqm x hxq)
  have hidm1 : ∀ p ∈ ptrs, id ∉ reachIds s1.pages d p :=
    fun p hpm hc => hidm p hpm (hsub1 p hpm id hc)
  have hok1 : ∀ p ∈ ptrs, ∀ i ∈ reachIds s1.pages d p, pageOk s1 i := by
    intro p hpm i hi
    by_cases hpc : p = ptrs.getD ci 0
    · subst hpc
      exact (dcl i hi).1
    · rw [(hoth p hpm hpc).2] at hi
      refine dkeep i (hre i (hsub p hpm i hi)) ?_
      intro hc
      exact disjoint_of_pairwise_map ptrs _ hdisjm p _ hpm hchmem hpc hi hc
  have hokid1 : pageOk s1 id :=
    dkeep id (hre id (reachIds_self _ _ _)) (hidm _ hchmem)
  refine ⟨hpar1, hoth, hsub1, hdis1, hidm1, hok1, hokid1, ?_⟩
  intro i hi
  rw [reachIds_succ_interm s1.pages d id keys ptrs hpar1] at hi
  rcases List.mem_cons.mp hi with hi | hi
  · rw [hi]
    exact reachIds_self s.pages (d + 1) id
  · obtain ⟨l, hl, hil⟩ := List.mem_flatten.mp hi
    obtain ⟨p, hpm, hpe⟩ := List.mem_map.mp hl
    exact hsub p hpm i (hsub1 p hpm i (hpe ▸ hil))

/-- deleteRec, internal node, child deleted without underflow: the parent
is untouched and its subtree stays realized. -/
lemma deleteRec_inplace (s s1 : TreeState K V) (d mn id ci : Nat)
    (keys : List K) (ptrs : List Nat)
    (hrt : RTree s.pages s.order (d + 1) mn id)
    (hre : ∀ i ∈ reachIds s.pages (d + 1) id, pageOk s i)
    (hpage : s.pages id = some (TNode.interm keys ptrs))
    (hci : ci < ptrs.length)
    (hout : delOut s s1 d ((s.order - 1) / 2) (ptrs.getD ci 0) false) :
    delOut s s1 (d + 1) mn id false := by
  obtain ⟨hpar1, hoth, hsub1, hdis1, hidm1, hok1, hokid1, htop1⟩ :=
    child_step_view s s1 d mn id ci false keys ptrs hrt hre hpage hci hout
  obtain ⟨droot, dorder, dfresh, dW, danti, dkeep, dframe, drt,
    ⟨c, dc, dclo, dcf, dct⟩, dcl⟩ := hout
  obtain ⟨hk1, hk2, hk3, hch, hdisjm, hidm, hptnd⟩ :=
    RTree_succ_parts s.pages s.order d mn id keys ptrs hrt hpage
  have hchmem : ptrs.getD ci 0 ∈ ptrs := getD_mem_of_lt ptrs ci 0 hci
  have hsub : ∀ p ∈ ptrs, ∀ i ∈ reachIds s.pages d p,
      i ∈ reachIds s.pages (d + 1) id :=
    fun p hpm => reachIds_sub s.pages d id p keys ptrs hpage hpm
  have hchS : RTree s1.pages s.order d ((s.order - 1) / 2) (ptrs.getD ci 0) :=
    RTree_strengthen s1.pages s.order d _ _ c drt dc (dcf rfl)
  obtain ⟨hrt1, hclo1⟩ := parent_rebuild_q s1 s.order d 0 id
    (fun i => pageOk s1 i ∧ i ∈ reachIds s.pages (d + 1) id) keys ptrs hpar1
    (Nat.zero_le _) hk2 hk3
    (by
      intro p hpm
      by_cases hpc : p = ptrs.getD ci 0
      · rw [hpc]
        exact hchS
      · exact (hoth p hpm hpc).1)
    hdis1 hptnd hidm1
    (fun p hpm i hi => ⟨hok1 p hpm i hi, hsub p hpm i (hsub1 p hpm i hi)⟩)
    ⟨hokid1, reachIds_self _ _ _⟩
  refine ⟨droot, dorder, dfresh, dW, danti, ?_, ?_, hrt1, ?_, hclo1⟩
  · intro i hi hn
    exact dkeep i hi (fun hc => hn (hsub _ hchmem i hc))
  · intro j hj hok
    exact dframe j (fun hc => hj (hsub _ hchmem j hc)) hok
  · refine ⟨keys.length, by simp [topCount, hpar1], by omega, fun _ => hk1, ?_⟩
    intro hc
    cases hc

/-- deleteRec, internal node, child underflowed: handleUnderflow refills
or merges and the parent absorbs the outcome. -/
lemma deleteRec_underflow [LinearOrder K] (s s1 s' : TreeState K V)
    (d mn id ci : Nat) (under : Bool) (keys : List K) (ptrs : List Nat)
    (hmn : mn ≤ (s.order - 1) / 2)
    (hrt : RTree s.pages s.order (d + 1) mn id)
    (hre : ∀ i ∈ reachIds s.pages (d + 1) id, pageOk s i)
    (hpage : s.pages id = some (TNode.interm keys ptrs))
    (hci : ci < ptrs.length)
    (hout : delOut s s1 d ((s.order - 1) / 2) (ptrs.getD ci 0) true)
    (hrunU : s1.handleUnderflow keys ptrs id ci = (s', .ok under)) :
    delOut s s' (d + 1) mn id under := by
  obtain ⟨hpar1, hoth, hsub1, hdis1, hidm1, hok1, hokid1, htop1⟩ :=
    child_step_view s s1 d mn id ci true keys ptrs hrt hre hpage hci hout
  obtain ⟨droot, dorder, dfresh, dW, danti, dkeep, dframe, drt,
    ⟨c, dc, dclo, dcf, dct⟩, dcl⟩ := hout
  obtain ⟨hk1, hk2, hk3, hch, hdisjm, hidm, hptnd⟩ :=
    RTree_succ_parts s.pages s.order d mn id keys ptrs hrt hpage
  have hchmem : ptrs.getD ci 0 ∈ ptrs := getD_mem_of_lt ptrs ci 0 hci
  have hsub : ∀ p ∈ ptrs, ∀ i ∈ reachIds s.pages d p,
      i ∈ reachIds s.pages (d + 1) id :=
    fun p hpm => reachIds_sub s.pages d id p keys ptrs hpage hpm
  have hceq : c = (s.order - 1) / 2 - 1 := by
    have h := dct rfl
    omega
  have hU := handleUnderflow_spec s1 s' d keys ptrs id ci mn under dW
    (by rw [dorder]; exact hmn) hpar1 hk1 (by rw [dorder]; exact hk2) hk3 hci
    (by rw [dorder]; exact drt)
    (by rw [dorder, ← hceq]; exact dc)
    (by
      rw [dorder]
      intro p hpm hne
      exact (hoth p hpm hne).1)
    hdis1 hidm1 hptnd
    (by
      intro i hi
      rw [reachIds_succ_interm s1.pages d id keys ptrs hpar1] at hi
      rcases List.mem_cons.mp hi with hi | hi
      · rw [hi]
        exact hokid1
      · obtain ⟨l, hl, hil⟩ := List.mem_flatten.mp hi
        obtain ⟨p, hpm, hpe⟩ := List.mem_map.mp hl
        exact hok1 p hpm i (hpe ▸ hil))
    hrunU
  obtain ⟨uroot, uorder, ufresh, uW, uanti, ukeep, uframe, urt, ucnt, ucl⟩ := hU
  refine ⟨uroot.trans droot, uorder.trans dorder, ufresh.trans dfresh, uW,
    ?_, ?_, ?_, ?_, ?_, ?_⟩
  · intro i hi
    exact danti i (uanti i hi)
  · intro i hi hn
    refine ukeep i (dkeep i hi (fun hc => hn (hsub _ hchmem i hc))) ?_
    intro hc
    exact hn (htop1 i hc)
  · intro j hj hok
    refine countKeep_trans _ _ _
      (dframe j (fun hc => hj (hsub _ hchmem j hc)) hok)
      (uframe j (fun hc => hj (htop1 j hc))
        (dkeep j hok (fun hc => hj (hsub _ hchmem j hc))))
  · rw [← dorder]
    exact urt
  · obtain ⟨c', e1, e2, e3, e4⟩ := ucnt
    refine ⟨c', e1, e2, e3, ?_⟩
    intro h
    have h2 := e4 h
    rw [dorder] at h2
    exact h2
  · intro i hi
    exact ⟨(ucl i hi).1, htop1 i (ucl i hi).2⟩

/-- The deleteRec specification: a successful recursive delete preserves
the structural invariant within the old footprint, refilling or merging
underflowed children on the way back up. -/
lemma deleteRec_spec [LinearOrder K] :
    ∀ (fuel : Nat) (s s' : TreeState K V) (key : K) (d mn id : Nat)
      (under : Bool),
      WfFree s →
      mn ≤ (s.order - 1) / 2 →
      RTree s.pages s.order d mn id →
      (∀ i ∈ reachIds s.pages d id, pageOk s i) →
      s.deleteRec key id fuel = (s', .ok under) →
      delOut s s' d mn id under := by
  intro fuel
  induction fuel with
  | zero =>
    intro s s' key d mn id under hW hmn hrt hre hrun
    simp [TreeState.deleteRec] at hrun
  | succ fuel ih =>
    intro s s' key d mn id under hW hmn hrt hre hrun
    cases d with
    | zero =>
      obtain ⟨pr, nx, pv, hp, h1, h2⟩ := (RTree_zero _ _ _ _).mp hrt
      simp only [TreeState.deleteRec, TreeState.readNode, hp] at hrun
      exact deleteFromLeaf_spec s s' key pr nx pv id mn under hW hp h1 h2 hmn
        (hre id (reachIds_self _ _ _)) hrun
    | succ d =>
      obtain ⟨keys, ptrs, hpage, hk1, hk2, hk3, hch4, hnd5⟩ :=
        (RTree_succ _ _ _ _ _).mp hrt
      simp only [TreeState.deleteRec, TreeState.readNode, hpage] at hrun
      by_cases hgd : ptrs.length ≤ upperBound key keys
      · rw [if_pos hgd] at hrun
        simp at hrun
      · rw [if_neg hgd] at hrun
        have hci : upperBound key keys < ptrs.length := by omega
        have hcidmem : ptrs.getD (upperBound key keys) 0 ∈ ptrs :=
          getD_mem_of_lt ptrs _ 0 hci
        obtain ⟨hk1b, hk2b, hk3b, hchb, hdisjb, hidmb, hptrnd⟩ :=
          RTree_succ_parts s.pages s.order d mn id keys ptrs hrt hpage
        have hcre : ∀ i ∈ reachIds s.pages d
            (ptrs.getD (upperBound key keys) 0), pageOk s i :=
          fun i hi => hre i
            (reachIds_sub s.pages d id _ keys ptrs hpage hcidmem i hi)
        cases hrec : s.deleteRec key (ptrs.getD (upperBound key keys) 0)
            fuel with
        | mk s1 r1 =>
          rw [hrec] at hrun
          cases r1 with
          | error e => simp at hrun
          | ok bu =>
            have hchild := ih s s1 key d ((s.order - 1) / 2)
              (ptrs.getD (upperBound key keys) 0) bu hW (le_refl _)
              (hchb _ hcidmem) hcre hrec
            cases bu with
            | false =>
              injection hrun with e1 e2
              injection e2 with e2
              subst e1
              subst e2
              exact deleteRec_inplace s s1 d mn id (upperBound key keys)
                keys ptrs hrt hre hpage hci hchild
            | true =>
              have hrun2 : s1.handleUnderflow keys ptrs id
                  (upperBound key keys) = (s', .ok under) := hrun
              exact deleteRec_underflow s s1 s' d mn id (upperBound key keys)
                under keys ptrs hmn hrt hre hpage hci hchild hrun2

/-- A successful Delete preserves the whole-tree invariant, including the
collapse of an emptied internal root onto its only child. -/
lemma Delete_inv [LinearOrder K] (s s' : TreeState K V) (key : K) (fuel : Nat)
    (hInv : Inv s)
    (hrun : s.Delete key fuel = (s', .ok ())) :
    Inv s' := by
  obtain ⟨hW, hroot⟩ := hInv
  simp only [TreeState.Delete] at hrun
  by_cases hr0 : s.root = 0
  · rw [if_pos hr0] at hrun
    simp at hrun
  · rw [if_neg hr0] at hrun
    rcases hroot with hroot | ⟨d, hrt, hre⟩
    · exact absurd hroot hr0
    have hmn : rootMin d ≤ (s.order - 1) / 2 := by
      have h3 : 3 ≤ s.order := hW.1
      cases d with
      | zero => exact Nat.zero_le _
      | succ d2 =>
        show 1 ≤ (s.order - 1) / 2
        omega
    cases hsr : s.Search key fuel with
    | error e =>
      rw [hsr] at hrun
      simp at hrun
    | ok v =>
      cases hdr : s.deleteRec key s.root fuel with
      | mk s1 r1 =>
        cases r1 with
        | error e =>
          simp only [hsr, hdr] at hrun
          simp at hrun
        | ok underflow =>
          cases underflow with
          | false =>
            simp only [hsr, hdr] at hrun
            rw [if_neg (by simp : ¬(false = true))] at hrun
            injection hrun with e1 _
            subst e1
            have hout := deleteRec_spec fuel s s1 key d (rootMin d) s.root
              false hW hmn hrt hre hdr
            obtain ⟨droot, dorder, dfresh, dW, danti, dkeep, dframe, drt,
              ⟨c, dc, dclo, dcf, dct⟩, dcl⟩ := hout
            refine ⟨dW, Or.inr ⟨d, ?_, ?_⟩⟩
            · have hor : s1.order = s.order := dorder
              have hrm : s1.root = s.root := droot
              rw [hor, hrm]
              exact RTree_strengthen s1.pages s.order d _ _ c drt dc (dcf rfl)
            · have hrm : s1.root = s.root := droot
              rw [hrm]
              intro i hi
              exact (dcl i hi).1
          | true =>
            simp only [hsr, hdr] at hrun
            rw [if_pos trivial] at hrun
            have hout := deleteRec_spec fuel s s1 key d (rootMin d) s.root
              true hW hmn hrt hre hdr
            obtain ⟨droot, dorder, dfresh, dW, danti, dkeep, dframe, drt,
              ⟨c, dc, dclo, dcf, dct⟩, dcl⟩ := hout
            cases d with
            | zero =>
              obtain ⟨prR, nxR, pvR, hpR, _, _⟩ := (RTree_zero _ _ _ _).mp drt
              simp only [TreeState.readNode, hpR] at hrun
              injection hrun with e1 _
              subst e1
              refine ⟨dW, Or.inr ⟨0, ?_, ?_⟩⟩
              · have hor : s1.order = s.order := dorder
                have hrm : s1.root = s.root := droot
                rw [hor, hrm]
                exact drt
              · have hrm : s1.root = s.root := droot
                rw [hrm]
                intro i hi
                exact (dcl i hi).1
            | succ d2 =>
              obtain ⟨keysR, ptrsR, hpR, _, hkR2, hkR3, _, _⟩ :=
                (RTree_succ _ _ _ _ _).mp drt
              simp only [TreeState.readNode, hpR] at hrun
              by_cases hcol : keysR.length = 0 ∧ ptrsR.length = 1
              · rw [if_pos hcol] at hrun
                injection hrun with e1 _
                obtain ⟨_, _, hk3R, hchR, hdisjR, hidmR, _⟩ :=
                  RTree_succ_parts s1.pages s.order d2 0 s.root keysR ptrsR
                    drt hpR
                have hrmem : ptrsR.getD 0 0 ∈ ptrsR :=
                  getD_mem_of_lt ptrsR 0 0 (by omega)
                have hrrt : RTree s1.pages s.order d2 ((s.order - 1) / 2)
                    (ptrsR.getD 0 0) := hchR _ hrmem
                have hsubR : ∀ i ∈ reachIds s1.pages d2 (ptrsR.getD 0 0),
                    i ∈ reachIds s1.pages (d2 + 1) s.root :=
                  reachIds_sub s1.pages d2 s.root _ keysR ptrsR hpR hrmem
                have hpv : ∀ j, s'.pages j =
                    if j = s.root then none else s1.pages j := by
                  intro j
                  rw [← e1]
                  exact rfl
                have hck : ∀ i ∈ reachIds s1.pages d2 (ptrsR.getD 0 0),
                    countKeep (s1.pages i) (s'.pages i) := by
                  intro i hi
                  have hir : i ≠ s.root := by
                    intro h
                    exact hidmR _ hrmem (h ▸ hi)
                  rw [hpv i, if_neg hir]
                  exact countKeep_refl _
                have hokR : pageOk s1 s.root :=
                  (dcl s.root (reachIds_self _ _ _)).1
                have hWmid : WfFree (s1.setRoot (ptrsR.getD 0 0)) :=
                  WfFree_congr s1 _ rfl rfl rfl dW
                have hokmid : pageOk (s1.setRoot (ptrsR.getD 0 0)) s.root :=
                  hokR
                obtain ⟨f1, f2, f3, f4, f5, f6, f7⟩ :=
                  freePage_spec (s1.setRoot (ptrsR.getD 0 0)) s.root hWmid
                    hokmid
                refine ⟨?_, Or.inr ⟨d2, ?_, ?_⟩⟩
                · rw [← e1]
                  exact f5
                · have hor : s'.order = s.order := by
                    rw [← e1]
                    show s1.order = s.order
                    exact dorder
                  have hrm : s'.root = ptrsR.getD 0 0 := by
                    rw [← e1]
                    exact rfl
                  rw [hor, hrm]
                  refine RTree_mono _ _ _ _ _ _ ?_
                    (RTree_frame s1.pages s'.pages s.order d2 _ _ hck hrrt)
                  have h3 : 3 ≤ s.order := hW.1
                  cases d2 with
                  | zero => exact Nat.zero_le _
                  | succ d3 =>
                    show 1 ≤ (s.order - 1) / 2
                    omega
                · have hrm : s'.root = ptrsR.getD 0 0 := by
                    rw [← e1]
                    exact rfl
                  rw [hrm, reachIds_frame s1.pages s'.pages d2 _ hck]
                  intro i hi
                  have hir : i ≠ s.root := by
                    intro h
                    exact hidmR _ hrmem (h ▸ hi)
                  have hok1 : pageOk s1 i := (dcl i (hsubR i hi)).1
                  rw [← e1]
                  refine ⟨hok1.1, hok1.2.1, ?_⟩
                  show i ∉ s.root :: s1.freeList
                  intro hc
                  rcases List.mem_cons.mp hc with hc | hc
                  · exact hir hc
                  · exact hok1.2.2 hc
              · rw [if_neg hcol] at hrun
                injection hrun with e1 _
                subst e1
                have hk1R : 1 ≤ keysR.length := by omega
                refine ⟨dW, Or.inr ⟨d2 + 1, ?_, ?_⟩⟩
                · have hor : s1.order = s.order := dorder
                  have hrm : s1.root = s.root := droot
                  rw [hor, hrm]
                  refine RTree_strengthen s1.pages s.order (d2 + 1) _ _
                    keysR.length drt ?_ hk1R
                  simp [topCount, hpR]
                · have hrm : s1.root = s.root := droot
                  rw [hrm]
                  intro i hi
                  exact (dcl i hi).1

/-- C2: after every completed public operation (insert or delete) on a
disk tree whose state satisfies the structural invariant, the invariant
still holds: every non-root node carries at least ⌊(order−1)/2⌋ and at
most order−1 keys, every internal node with k keys has exactly k+1 child
pointers, the occupied pages are pairwise distinct and live, and the root
meets the root minimum. -/
theorem c2_fill_invariant [LinearOrder K] (s sI sD : TreeState K V)
    (kI kD : K) (value : V) (fuelI fuelD : Nat)
    (hInv : Inv s) :
    (s.Insert kI value fuelI = (sI, .ok ()) → Inv sI) ∧
    (s.Delete kD fuelD = (sD, .ok ()) → Inv sD) :=
  ⟨fun h => Insert_inv s sI kI value fuelI hInv h,
   fun h => Delete_inv s sD kD fuelD hInv h⟩

/-- C2 witness: on the one-leaf order-3 tree holding (5, 100), inserting
key 7 and deleting key 5 both succeed and preserve the invariant. -/
theorem c2_fill_invariant_witness :
    Inv (oneLeafTree.Insert 7 200 2).1 ∧ Inv (oneLeafTree.Delete 5 2).1 := by
  have hinv : Inv oneLeafTree := by
    refine ⟨⟨by decide, by decide, List.nodup_nil, ?_⟩, Or.inr ⟨0, ?_, ?_⟩⟩
    · intro i hi
      exact absurd hi (List.not_mem_nil i)
    · exact ⟨[(5, 100)], 0, 0, rfl, by decide, by decide⟩
    · intro i hi
      rcases List.mem_singleton.mp hi with h
      rw [h]
      exact ⟨by decide, by decide, List.not_mem_nil 1⟩
  exact ⟨(c2_fill_invariant oneLeafTree (oneLeafTree.Insert 7 200 2).1
      (oneLeafTree.Delete 5 2).1 7 5 200 2 2 hinv).1 rfl,
    (c2_fill_invariant oneLeafTree (oneLeafTree.Insert 7 200 2).1
      (oneLeafTree.Delete 5 2).1 7 5 200 2 2 hinv).2 rfl⟩

end PranavDB
